import Mathlib

/-!
# Federated-learning round contract (`src/evaluation/code/code/536.go`)

A shallow embedding of the chaincode in `536.go` and of the ledger interface it
is written against.

Modelling conventions, fixed once for the whole development:

* The world state is a finite map from keys to the JSON documents stored under
  them.  A transaction reads the state committed before it started
  (`GetState` does not see the `PutState` calls of the same transaction) and
  its writes are applied, in program order, only when the transaction function
  returns without an error.  A transaction that returns an error commits
  nothing.
* `json.Marshal` / `json.Unmarshal` are modelled on parsed documents (`Json`).
  A key of an object names a struct field when it equals the tag of the field
  up to the case folding of `encoding/json`; when several keys name one field
  each is decoded, in the order of the document, on top of what the one before
  has left.  Decoding a JSON value of the wrong kind into a field is an error,
  a missing key leaves the zero value, `null` leaves a number, a text or a
  struct as it is and resets a slice or an interface to nil.
* Go `int` is a 64-bit integer: arithmetic goes through `wrap64`, and a number
  decodes into an `int` only if it is whole and inside the 64-bit range.  A
  number of a document is kept by its value, not by its spelling: the numbers
  that are decoded into an `int` are read from documents that `json.Marshal`
  has written, in which a whole number is spelled without fraction or
  exponent.
* A finite `float64` value (tokens, epsilon) is the rational it denotes.  Every
  arithmetic operation and every decoding of a number rounds to the nearest
  such value, ties to the even significand; `json.Marshal` fails on a value
  that is not finite.
* Values of type `interface{}` (layer weights and biases) are kept as the JSON
  document that marshalling them gives: numbers are 64-bit floats and the keys
  of an object are distinct and in ascending order; `Json.null` is the nil
  interface.
* Private data collections are a second finite map.  The shim rejects the
  empty collection name; every other name is taken to be a collection of the
  deployment's collection configuration, which is not part of the repository.
* Error values carry the contract's own message; text appended from library
  errors is left out.

Two smaller chaincodes of the repository are embedded in namespaces of their
own, on the same ledger conventions: `ABstore` (`src/go_chaincode_2/835.go`),
whose state holds decimal texts, and `Assets` (`src/2024.3/code/1019.go`),
whose state holds one JSON document per asset.
-/

namespace FL

/-! ## JSON documents -/

/-- A parsed JSON document. -/
inductive Json where
  | null : Json
  | bool (b : Bool) : Json
  | num (q : ℚ) : Json
  | str (s : String) : Json
  | arr (xs : List Json) : Json
  | obj (fields : List (String × Json)) : Json

/-- A Go slice: `none` is the nil slice, which marshals to `null`. -/
abbrev Slice (α : Type) := Option (List α)

/-- The elements of a slice (`range` over a nil slice visits nothing). -/
def Slice.toList {α : Type} : Slice α → List α
  | none => []
  | some l => l

/-- Go `append(s, x)`. -/
def Slice.append {α : Type} (s : Slice α) (x : α) : Slice α :=
  some (Slice.toList s ++ [x])

/-! ## 64-bit integers -/

/-- The range of a Go `int` on a 64-bit platform. -/
def inInt64 (n : Int) : Prop := -(2 : Int) ^ 63 ≤ n ∧ n < (2 : Int) ^ 63

instance (n : Int) : Decidable (inInt64 n) := by
  unfold inInt64; exact inferInstance

/-- Two's-complement wrap-around of 64-bit integer arithmetic. -/
def wrap64 (n : Int) : Int := (n + (2 : Int) ^ 63) % (2 : Int) ^ 64 - (2 : Int) ^ 63

/-! ## 64-bit floating point

A `float64` value that is finite is represented by the rational it denotes.
Arithmetic rounds the exact result to the nearest such value, ties to the even
significand; a result that is not finite (an overflow) is `none`, and
`json.Marshal` rejects it. -/

set_option exponentiation.threshold 2000

/-- The number of binary digits of `n`; the first argument bounds the number
of halvings. -/
def bitLen : Nat → Nat → Nat
  | 0, _ => 0
  | fuel + 1, n => if n = 0 then 0 else bitLen fuel (n / 2) + 1

/-- The exponent of the leading binary digit of `n / d`, for positive `n` and
`d`: the integer `a` with `2 ^ a ≤ n / d < 2 ^ (a + 1)`. -/
def ilog2 (n d : Nat) : Int :=
  let a : Int := (bitLen n n : Int) - (bitLen d d : Int)
  if 0 ≤ a then (if d * 2 ^ a.toNat ≤ n then a else a - 1)
  else (if d ≤ n * 2 ^ (-a).toNat then a else a - 1)

/-- The natural number nearest to `n / d`, the even one of two that are
equally near. -/
def roundHalfEven (n d : Nat) : Nat :=
  if 2 * (n % d) < d then n / d
  else if d < 2 * (n % d) then n / d + 1
  else if (n / d) % 2 = 0 then n / d else n / d + 1

/-- The exponent of the last place of a binary64 value of the size of
`n / d`: 52 places below the leading digit, and never below `-1074`. -/
def quantum (n d : Nat) : Int :=
  if -1022 ≤ ilog2 n d then ilog2 n d - 52 else -1074

/-- The rational `m * 2 ^ e`. -/
def scale (m : Nat) (e : Int) : ℚ :=
  if 0 ≤ e then ((m * 2 ^ e.toNat : Nat) : ℚ) else mkRat (m : Int) (2 ^ (-e).toNat)

/-- The multiple of the last place that is nearest to `q`. -/
def nearest64 (q : ℚ) : ℚ :=
  if q.num.natAbs = 0 then 0
  else
    let e := quantum q.num.natAbs q.den
    let m := if 0 ≤ e then roundHalfEven q.num.natAbs (q.den * 2 ^ e.toNat)
      else roundHalfEven (q.num.natAbs * 2 ^ (-e).toNat) q.den
    if q.num < 0 then - scale m e else scale m e

/-- Whether a rational is a finite binary64 value: it lies below `2 ^ 1024`
in size and is a whole multiple of its last place. -/
def isF64 (q : ℚ) : Bool :=
  if q.num.natAbs = 0 then true
  else
    let e := quantum q.num.natAbs q.den
    decide (ilog2 q.num.natAbs q.den < 1024) &&
    (if 0 ≤ e then decide (q.num.natAbs % (q.den * 2 ^ e.toNat) = 0)
     else decide ((q.num.natAbs * 2 ^ (-e).toNat) % q.den = 0))

/-- Rounding to binary64: a value that is representable is kept; `none` when
the nearest multiple of the last place is not finite. -/
def round64 (q : ℚ) : Option ℚ :=
  if isF64 q then some q
  else if isF64 (nearest64 q) then some (nearest64 q) else none

/-- The balance after a debit, `tokens - 1` in binary64. -/
def debit64 (tokens : ℚ) : Option ℚ :=
  round64 (tokens - 1)

/-- The balance after a credit, `tokens + (epsilon + 5) / 20.0` in binary64,
every operation rounded. -/
def credit64 (tokens epsilon : ℚ) : Option ℚ :=
  match round64 (epsilon + 5) with
  | none => none
  | some a =>
    match round64 (a / 20) with
    | none => none
    | some b => round64 (tokens + b)

/-! ## Ledger stub -/

/-- The public world state: keys and the documents stored under them. -/
abbrev Store := List (String × Json)

/-- `GetState`: the document stored under a key, `none` when there is none. -/
def Store.get (s : Store) (k : String) : Option Json :=
  match s with
  | [] => none
  | (k', v) :: rest => if k = k' then some v else Store.get rest k

/-- `PutState`: replace the document stored under a key. -/
def Store.put (s : Store) (k : String) (v : Json) : Store :=
  (k, v) :: s.filter (fun p => decide (p.1 ≠ k))

/-- Lexicographic order on code points, which is the byte order of the UTF-8
encodings the ledger sorts keys by. -/
def ltChars : List Char → List Char → Bool
  | _, [] => false
  | [], _ :: _ => true
  | a :: as, b :: bs =>
    if a.toNat < b.toNat then true
    else if b.toNat < a.toNat then false
    else ltChars as bs

/-- The order in which the ledger iterates over keys. -/
def keyLt (a b : String) : Bool := ltChars a.data b.data

/-- Insert a key into a list of keys kept in ascending order without
repetition. -/
def insertKey (k : String) : List String → List String
  | [] => [k]
  | k' :: rest =>
    if keyLt k k' then k :: k' :: rest
    else if k = k' then k' :: rest
    else k' :: insertKey k rest

/-- The keys present in the state, in the order a range scan visits them. -/
def Store.keys (s : Store) : List String :=
  s.foldr (fun p acc => insertKey p.1 acc) []

/-- The private data collections: documents addressed by collection and key. -/
abbrev PrivStore := List ((String × String) × Json)

/-- The document stored under a key of a collection. The empty name names no
collection. -/
def PrivStore.get (s : PrivStore) (coll k : String) : Option Json :=
  match s with
  | [] => none
  | (ck, v) :: rest =>
    if coll = "" then none
    else if (coll, k) = ck then some v else PrivStore.get rest coll k

/-- Replace the document stored under a key of a collection. -/
def PrivStore.put (s : PrivStore) (coll k : String) (v : Json) : PrivStore :=
  ((coll, k), v) :: s.filter (fun p => decide (p.1 ≠ (coll, k)))

/-- `stub.GetPrivateData`: the shim rejects the empty collection name. Every
other name is taken to be a collection of the chaincode's collection
configuration, which is deployment data outside the repository. -/
def GetPrivateData (s : PrivStore) (coll k : String) : Except String (Option Json) :=
  if coll = "" then .error "collection must not be an empty string"
  else .ok (s.get coll k)

/-- `stub.PutPrivateData`: the shim rejects the empty collection name and the
empty key. -/
def PutPrivateData (s : PrivStore) (coll k : String) (v : Json) : Except String PrivStore :=
  if coll = "" then .error "collection must not be an empty string"
  else if k = "" then .error "key must not be an empty string"
  else .ok (s.put coll k v)

/-- The ledger as one transaction sees it and leaves it. -/
structure World where
  state : Store
  priv : PrivStore

/-- The shim rejects the code points U+0000 and U+10FFFF in composite keys. -/
def validateCompositeKeyAttribute (s : String) : Bool :=
  s.data.all (fun c => decide (c.toNat ≠ 0) && decide (c.toNat ≠ 0x10FFFF))

/-- The text of a composite key: namespace byte, object type, and every
attribute, each followed by U+0000. -/
def compositeKey (objectType : String) (attributes : List String) : String :=
  String.mk (Char.ofNat 0 :: (objectType.data ++ Char.ofNat 0 ::
    attributes.foldr (fun a acc => a.data ++ Char.ofNat 0 :: acc) []))

/-- `stub.CreateCompositeKey`. -/
def CreateCompositeKey (objectType : String) (attributes : List String) :
    Except String String :=
  if validateCompositeKeyAttribute objectType && attributes.all validateCompositeKeyAttribute then
    .ok (compositeKey objectType attributes)
  else
    .error "invalid composite key attribute"

/-- `stub.GetStateByPartialCompositeKey`: the keys in the range that starts at
the partial composite key and ends before that key extended by U+10FFFF. -/
def GetStateByPartialCompositeKey (s : Store) (objectType : String)
    (attributes : List String) : Except String (List String) :=
  match CreateCompositeKey objectType attributes with
  | .error e => .error e
  | .ok start =>
    .ok ((Store.keys s).filter (fun k =>
      !keyLt k start && keyLt k (start ++ String.singleton (Char.ofNat 0x10FFFF))))

/-! ## Data types of the contract -/

structure Layer where
  weights : Json
  biases : Json

structure NeuralNetworkModel where
  layers : Slice Layer

structure ClientData where
  clientID : String
  data : NeuralNetworkModel
  round : Int
  epsilon : ℚ

structure ServerData where
  data : String
  round : Int

structure CurrentData where
  latestRound : Int
  tokens : ℚ
  roundSeen : Slice Int

structure KeyRequests where
  round : Slice Int
  clientID : Slice String

structure SymmetricKey where
  password : String
  iv : String

/-! ## `encoding/json` on the contract's types

`json.Unmarshal` walks the keys of an object in document order. A key names
the struct field whose tag it equals when letter case is folded, and its value
is decoded into that field, on top of what an earlier key left there. -/

/-- The representative of a rune under the case folding that `encoding/json`
applies to object keys: ASCII letters fold to upper case, and the Kelvin sign
and the long s fold to `K` and `S`. -/
def foldRune (c : Char) : Char :=
  if 97 ≤ c.toNat ∧ c.toNat ≤ 122 then Char.ofNat (c.toNat - 32)
  else if c.toNat = 0x212A then 'K'
  else if c.toNat = 0x17F then 'S'
  else c

/-- Whether an object key names the struct field with the given tag. -/
def keyIs (key tag : String) : Bool :=
  key.data.map foldRune == tag.data.map foldRune

/-- The values of the keys that name a struct field, in document order. -/
def Json.values (fields : List (String × Json)) (tag : String) : List Json :=
  (fields.filter (fun p => keyIs p.1 tag)).map (fun p => p.2)

/-- Decode the values of the keys that name one field, one after the other,
each on top of the result of the one before. -/
def applyAll {α : Type} (into : Json → α → Except String α) : List Json → α → Except String α
  | [], a => .ok a
  | v :: vs, a =>
    match into v a with
    | .error e => .error e
    | .ok a' => applyAll into vs a'

/-- Decode into a Go `int`; `null` leaves the value as it is. -/
def intoInt (v : Json) (old : Int) : Except String Int :=
  match v with
  | .null => .ok old
  | .num q =>
    if q.den = 1 ∧ inInt64 q.num then .ok q.num
    else .error "json: cannot unmarshal number into Go value of type int"
  | _ => .error "json: cannot unmarshal into Go value of type int"

/-- Decode into a Go `float64`: the number is rounded to binary64, and a
number too large for a finite value is an error; `null` leaves the value as
it is. -/
def intoFloat (v : Json) (old : ℚ) : Except String ℚ :=
  match v with
  | .null => .ok old
  | .num q =>
    match round64 q with
    | some r => .ok r
    | none => .error "json: cannot unmarshal number into Go value of type float64"
  | _ => .error "json: cannot unmarshal into Go value of type float64"

/-- Decode into a Go `string`; `null` leaves the value as it is. -/
def intoString (v : Json) (old : String) : Except String String :=
  match v with
  | .null => .ok old
  | .str s => .ok s
  | _ => .error "json: cannot unmarshal into Go value of type string"

/-- Set a key of a map whose keys are kept in ascending order. -/
def setKey (k : String) (v : Json) : List (String × Json) → List (String × Json)
  | [] => [(k, v)]
  | (k', v') :: rest =>
    if keyLt k k' then (k, v) :: (k', v') :: rest
    else if k = k' then (k, v) :: rest
    else (k', v') :: setKey k v rest

mutual
/-- Decode into an `interface{}` and marshal again: numbers become `float64`
values, and an object becomes a map, which keeps the last value of a repeated
key and is written with its keys in ascending order. -/
def normValue : Json → Except String Json
  | .null => .ok .null
  | .bool b => .ok (.bool b)
  | .num q =>
    match round64 q with
    | some r => .ok (.num r)
    | none => .error "json: cannot unmarshal number into Go value of type float64"
  | .str s => .ok (.str s)
  | .arr xs =>
    match normList xs with
    | .error e => .error e
    | .ok ys => .ok (.arr ys)
  | .obj fs =>
    match normFields fs [] with
    | .error e => .error e
    | .ok gs => .ok (.obj gs)
/-- The elements of an array, each as `normValue` gives it. -/
def normList : List Json → Except String (List Json)
  | [] => .ok []
  | x :: xs =>
    match normValue x with
    | .error e => .error e
    | .ok y =>
      match normList xs with
      | .error e => .error e
      | .ok ys => .ok (y :: ys)
/-- The map built from the fields of an object, added to `acc`. -/
def normFields : List (String × Json) → List (String × Json) →
    Except String (List (String × Json))
  | [], acc => .ok acc
  | (k, v) :: rest, acc =>
    match normValue v with
    | .error e => .error e
    | .ok y => normFields rest (setKey k y acc)
end

/-- Decode into an `interface{}` field: the value replaces what was there. -/
def intoAny (v : Json) (_old : Json) : Except String Json :=
  normValue v

/-- A slice while it is being decoded: `slice` is what the program sees, and
`backing` are the elements of its array, which stay in place when the slice is
cut short. -/
structure Buf (α : Type) where
  backing : List α
  slice : Slice α

/-- Decode the elements of an array, each into the element that the array of
the slice holds at its position, or into a zero value. -/
def intoElems {α : Type} (into : Json → α → Except String α) (zero : α) :
    List Json → List α → Except String (List α)
  | [], _ => .ok []
  | x :: xs, backing =>
    match into x (backing.headD zero) with
    | .error e => .error e
    | .ok a =>
      match intoElems into zero xs backing.tail with
      | .error e => .error e
      | .ok as => .ok (a :: as)

/-- Decode into a Go slice: `null` gives the nil slice, the empty array a new
empty slice, and any other array is decoded element by element into the slice
that is there. -/
def intoSlice {α : Type} (into : Json → α → Except String α) (zero : α) (v : Json)
    (old : Buf α) : Except String (Buf α) :=
  match v with
  | .null => .ok { backing := [], slice := none }
  | .arr [] => .ok { backing := [], slice := some [] }
  | .arr (x :: xs) =>
    match intoElems into zero (x :: xs) old.backing with
    | .error e => .error e
    | .ok as => .ok { backing := as ++ old.backing.drop as.length, slice := some as }
  | _ => .error "json: cannot unmarshal into Go value of slice type"

/-- The slice that a fresh variable holds. -/
def Buf.nil {α : Type} : Buf α := { backing := [], slice := none }

/-- A slice under decoding all of whose elements, seen or not, satisfy `P`. -/
def Buf.all {α : Type} (P : α → Prop) (b : Buf α) : Prop :=
  (∀ a ∈ b.backing, P a) ∧ ∀ a ∈ Slice.toList b.slice, P a

/-- Encode a Go slice. -/
def encodeSlice {α : Type} (f : α → Json) : Slice α → Json
  | none => .null
  | some as => .arr (as.map f)

def intoLayer (v : Json) (old : Layer) : Except String Layer :=
  match v with
  | .null => .ok old
  | .obj fs =>
    match applyAll intoAny (Json.values fs "weights") old.weights with
    | .error e => .error e
    | .ok w =>
      match applyAll intoAny (Json.values fs "biases") old.biases with
      | .error e => .error e
      | .ok b => .ok { weights := w, biases := b }
  | _ => .error "json: cannot unmarshal into Go value of type main.Layer"

def encodeLayer (l : Layer) : Json :=
  .obj [("weights", l.weights), ("biases", l.biases)]

/-- Decode into a `NeuralNetworkModel`, whose only field is the slice of
layers. -/
def intoModel (v : Json) (old : Buf Layer) : Except String (Buf Layer) :=
  match v with
  | .null => .ok old
  | .obj fs =>
    applyAll (intoSlice intoLayer { weights := .null, biases := .null })
      (Json.values fs "layers") old
  | _ => .error "json: cannot unmarshal into Go value of type main.NeuralNetworkModel"

def decodeModel (j : Json) : Except String NeuralNetworkModel :=
  match intoModel j Buf.nil with
  | .error e => .error e
  | .ok b => .ok { layers := b.slice }

def encodeModel (m : NeuralNetworkModel) : Json :=
  .obj [("layers", encodeSlice encodeLayer m.layers)]

def decodeClientData : Json → Except String ClientData
  | .null => .ok { clientID := "", data := { layers := none }, round := 0, epsilon := 0 }
  | .obj fs =>
    match applyAll intoString (Json.values fs "clientID") "" with
    | .error e => .error e
    | .ok cid =>
      match applyAll intoModel (Json.values fs "data") Buf.nil with
      | .error e => .error e
      | .ok d =>
        match applyAll intoInt (Json.values fs "round") 0 with
        | .error e => .error e
        | .ok r =>
          match applyAll intoFloat (Json.values fs "epsilon") 0 with
          | .error e => .error e
          | .ok eps =>
            .ok { clientID := cid, data := { layers := d.slice }, round := r, epsilon := eps }
  | _ => .error "json: cannot unmarshal into Go value of type main.ClientData"

def encodeClientData (c : ClientData) : Json :=
  .obj [("clientID", .str c.clientID), ("data", encodeModel c.data),
        ("round", .num c.round), ("epsilon", .num c.epsilon)]

def encodeServerData (d : ServerData) : Json :=
  .obj [("data", .str d.data), ("round", .num d.round)]

def decodeCurrentData : Json → Except String CurrentData
  | .null => .ok { latestRound := 0, tokens := 0, roundSeen := none }
  | .obj fs =>
    match applyAll intoInt (Json.values fs "round") 0 with
    | .error e => .error e
    | .ok r =>
      match applyAll intoFloat (Json.values fs "tokens") 0 with
      | .error e => .error e
      | .ok t =>
        match applyAll (intoSlice intoInt 0) (Json.values fs "roundSeen") Buf.nil with
        | .error e => .error e
        | .ok seen => .ok { latestRound := r, tokens := t, roundSeen := seen.slice }
  | _ => .error "json: cannot unmarshal into Go value of type main.CurrentData"

def encodeCurrentData (c : CurrentData) : Json :=
  .obj [("round", .num c.latestRound), ("tokens", .num c.tokens),
        ("roundSeen", encodeSlice (fun n : Int => Json.num n) c.roundSeen)]

def decodeKeyRequests : Json → Except String KeyRequests
  | .null => .ok { round := none, clientID := none }
  | .obj fs =>
    match applyAll (intoSlice intoInt 0) (Json.values fs "round") Buf.nil with
    | .error e => .error e
    | .ok rs =>
      match applyAll (intoSlice intoString "") (Json.values fs "clientID") Buf.nil with
      | .error e => .error e
      | .ok ids => .ok { round := rs.slice, clientID := ids.slice }
  | _ => .error "json: cannot unmarshal into Go value of type main.KeyRequests"

def encodeKeyRequests (k : KeyRequests) : Json :=
  .obj [("round", encodeSlice (fun n : Int => Json.num n) k.round),
        ("clientID", encodeSlice Json.str k.clientID)]

def decodeSymmetricKey : Json → Except String SymmetricKey
  | .null => .ok { password := "", iv := "" }
  | .obj fs =>
    match applyAll intoString (Json.values fs "password") "" with
    | .error e => .error e
    | .ok p =>
      match applyAll intoString (Json.values fs "iv") "" with
      | .error e => .error e
      | .ok iv => .ok { password := p, iv := iv }
  | _ => .error "json: cannot unmarshal into Go value of type main.SymmetricKey"

def encodeSymmetricKey (k : SymmetricKey) : Json :=
  .obj [("password", .str k.password), ("iv", .str k.iv)]

/-- `json.Unmarshal(bytes, &v)` for a freshly declared `v`: the bytes of a key
that was never written are nil, which is not a JSON document. -/
def unmarshal {α : Type} (decode : Json → Except String α) : Option Json → Except String α
  | none => .error "unexpected end of JSON input"
  | some j => decode j

/-! ## Identity resolver -/

/-- The value of a character in the standard base64 alphabet. -/
def b64val (c : Char) : Option Nat :=
  let n := c.toNat
  if 65 ≤ n ∧ n ≤ 90 then some (n - 65)
  else if 97 ≤ n ∧ n ≤ 122 then some (n - 97 + 26)
  else if 48 ≤ n ∧ n ≤ 57 then some (n - 48 + 52)
  else if n = 43 then some 62
  else if n = 47 then some 63
  else none

/-- Decode the 4-character quanta of padded standard base64 (line breaks
already removed): padding may only close the last quantum. -/
def decodeQuanta : List Char → Except String (List Nat)
  | [] => .ok []
  | a :: b :: c :: d :: rest =>
    match b64val a, b64val b with
    | some x, some y =>
      if c = '=' then
        if d = '=' ∧ rest = [] then .ok [(x * 64 + y) / 16 % 256]
        else .error "illegal base64 data"
      else
        match b64val c with
        | none => .error "illegal base64 data"
        | some z =>
          if d = '=' then
            if rest = [] then
              .ok [((x * 64 + y) * 64 + z) / 1024 % 256, ((x * 64 + y) * 64 + z) / 4 % 256]
            else .error "illegal base64 data"
          else
            match b64val d with
            | none => .error "illegal base64 data"
            | some w =>
              match decodeQuanta rest with
              | .error e => .error e
              | .ok bs =>
                .ok ((((x * 64 + y) * 64 + z) * 64 + w) / 65536 % 256 ::
                     (((x * 64 + y) * 64 + z) * 64 + w) / 256 % 256 ::
                     (((x * 64 + y) * 64 + z) * 64 + w) % 256 :: bs)
    | _, _ => .error "illegal base64 data"
  | _ => .error "illegal base64 data"

/-- `base64.StdEncoding.DecodeString`: carriage returns and line feeds in the
input are skipped. -/
def base64Decode (s : String) : Except String (List Nat) :=
  decodeQuanta (s.data.filter (fun c => decide (c ≠ '\n') && decide (c ≠ '\r')))

/-- The replacement rune U+FFFD that Go yields for a byte that does not start
a valid UTF-8 sequence. -/
def runeError : Char := Char.ofNat 0xFFFD

/-- A continuation byte. -/
def isCont (b : Nat) : Bool := decide (0x80 ≤ b) && decide (b ≤ 0xBF)

/-- The runes a Go `range` loop reads from a byte string: a byte that does
not start a valid encoding yields U+FFFD and advances by one byte. -/
def decodeRunes : List Nat → List Char
  | [] => []
  | b0 :: t =>
    let skip1 := runeError :: decodeRunes t
    if b0 < 0x80 then Char.ofNat b0 :: decodeRunes t
    else if b0 < 0xC2 then skip1
    else if b0 < 0xE0 then
      match t with
      | b1 :: t1 =>
        if isCont b1 then Char.ofNat ((b0 % 32) * 64 + b1 % 64) :: decodeRunes t1
        else skip1
      | [] => skip1
    else if b0 < 0xF0 then
      match t with
      | b1 :: b2 :: t2 =>
        if decide ((if b0 = 0xE0 then 0xA0 else 0x80) ≤ b1) &&
            decide (b1 ≤ (if b0 = 0xED then 0x9F else 0xBF)) && isCont b2 then
          Char.ofNat (((b0 % 16) * 64 + b1 % 64) * 64 + b2 % 64) :: decodeRunes t2
        else skip1
      | _ => skip1
    else if b0 < 0xF5 then
      match t with
      | b1 :: b2 :: b3 :: t3 =>
        if decide ((if b0 = 0xF0 then 0x90 else 0x80) ≤ b1) &&
            decide (b1 ≤ (if b0 = 0xF4 then 0x8F else 0xBF)) && isCont b2 && isCont b3 then
          Char.ofNat ((((b0 % 8) * 64 + b1 % 64) * 64 + b2 % 64) * 64 + b3 % 64) ::
            decodeRunes t3
        else skip1
      | _ => skip1
    else skip1

/-- The loop of `GetCNFromClientID` over the runes that are left, with the
name collected so far: `=` resets it, `,` ends the scan. -/
def scanCN : List Char → List Char → List Char
  | [], cn => cn
  | s :: rest, cn =>
    if s = '=' then scanCN rest []
    else if s = ',' then cn
    else scanCN rest (cn ++ [s])

def GetCNFromClientID (clientID : String) : Except String String :=
  match base64Decode clientID with
  | .error _ => .error "failed to decode client ID"
  | .ok decodedBytes => .ok (String.mk (scanCN (decodeRunes decodedBytes) []))

/-! ## The contract -/

/-- Replace the error of a failed step by the message of the enclosing
`fmt.Errorf`. -/
def orFail {α : Type} (r : Except String α) (msg : String) : Except String α :=
  match r with
  | .ok a => .ok a
  | .error _ => .error msg

def getKeyFromCN (cn : String) (round : Int) : Except String String :=
  let pfx := if cn = "appserver" then "Server" else "Client"
  orFail (CreateCompositeKey pfx [toString round, cn]) "failed to create composite key"

def InitLedger (w : World) (clientID : String) : Except String (Unit × World) := do
  let cn ← orFail (GetCNFromClientID clientID) "failed to get CN from client ID"
  let key ← orFail (getKeyFromCN cn 0) "failed to get key from CN"
  match w.state.get key with
  | some _ => .error ("the client data " ++ cn ++ " already exists")
  | none =>
    let clientData : ClientData :=
      { clientID := clientID,
        data := { layers := some [{ weights := Json.null, biases := Json.null }] },
        round := 0,
        epsilon := 0 }
    let currentData : CurrentData :=
      { latestRound := 0, tokens := 1, roundSeen := some [] }
    let currentDataKey ←
      orFail (CreateCompositeKey "CurrentData" [cn]) "failed to create composite key"
    let state := w.state.put key (encodeClientData clientData)
    let state := state.put currentDataKey (encodeCurrentData currentData)
    .ok ((), { w with state := state })

def getLatestRound (s : Store) (cn : String) : Except String Int := do
  let currentDataKey ←
    orFail (CreateCompositeKey "CurrentData" [cn]) "failed to create composite key"
  match s.get currentDataKey with
  | none => .error "the latest round data does not exist"
  | some doc =>
    let currentData ← orFail (decodeCurrentData doc) "failed to unmarshal latest round data"
    .ok currentData.latestRound

/-- The round number computed in `PutData` from the caller's latest round and
the server's latest round. -/
def roundNumber (latestRound serverRound : Int) : Int :=
  let roundNumber := wrap64 (latestRound + 1)
  if serverRound > latestRound then wrap64 (serverRound + 1) else roundNumber

/-- The argument `data` is the document that the text passed by the caller
parses to, `none` when the text is not JSON.  The argument `epsilon` is a
`float64`: a rational that is not a finite 64-bit float stands for a value
that `json.Marshal` rejects. -/
def PutData (w : World) (clientID : String) (data : Option Json) (epsilon : ℚ) :
    Except String (Unit × World) := do
  let cn ← orFail (GetCNFromClientID clientID) "failed to get CN from client ID"
  let latestRound ← orFail (getLatestRound w.state cn) "failed to get latest round"
  let key ← orFail (getKeyFromCN cn latestRound) "failed to get key from CN"
  let clientData ←
    orFail (unmarshal decodeClientData (w.state.get key)) "failed to unmarshal client data"
  let serverCN := "appserver"
  let serverRound ← orFail (getLatestRound w.state serverCN) "failed to get server round"
  let roundNumber := roundNumber latestRound serverRound
  let newModelData ← orFail (unmarshal decodeModel data) "failed to unmarshal data"
  let clientData := { clientData with data := newModelData, round := roundNumber, epsilon := epsilon }
  if isF64 epsilon = false then .error "failed to marshal client data" else
  let key ← orFail (getKeyFromCN cn roundNumber) "failed to get key from CN"
  let currentDataKey ←
    orFail (CreateCompositeKey "CurrentData" [cn]) "failed to create composite key"
  let currentData ← orFail (unmarshal decodeCurrentData (w.state.get currentDataKey))
    "failed to unmarshal latest round data"
  let currentData := { currentData with latestRound := roundNumber }
  let state := w.state.put key (encodeClientData clientData)
  let state := state.put currentDataKey (encodeCurrentData currentData)
  .ok ((), { w with state := state })

/-- The pseudo-random generator of `math/rand` lies outside the repository.
`rng seed n i` stands for the index that `rand.Shuffle` draws at step `i` of
shuffling `n` elements after `rand.Seed(seed)`. -/
abbrev Rng := Int → Nat → Nat → Nat

/-- Exchange the elements at two positions of a list. -/
def swapAt (l : List String) (i j : Nat) : List String :=
  match l.get? i, l.get? j with
  | some a, some b => (l.set i b).set j a
  | _, _ => l

/-- The loop of `rand.Shuffle` from position `i` down to 1: position `i` is
exchanged with a drawn position in `0..i`. -/
def shuffleFrom (rng : Rng) (seed : Int) (n : Nat) : Nat → List String → List String
  | 0, l => l
  | i + 1, l => shuffleFrom rng seed n i (swapAt l (i + 1) (rng seed n (i + 1) % (i + 2)))

/-- `rand.Shuffle(len(l), swap)` on the list `l`. -/
def Shuffle (rng : Rng) (seed : Int) (l : List String) : List String :=
  shuffleFrom rng seed l.length (l.length - 1) l

def SelectSubSet (rng : Rng) (s : Store) (num : Int) (seed : Int) (round : Int) :
    Except String (List String) := do
  let clientList ←
    orFail (GetStateByPartialCompositeKey s "Client" [toString round]) "failed to get all keys"
  if (clientList.length : Int) ≤ num then
    .ok clientList
  else
    let clientList := Shuffle rng seed clientList
    if num < 0 then .error "panic: slice bounds out of range"
    else .ok (clientList.take num.toNat)

/-- One iteration of the loop of `GetRoundData` over the selected keys: the
models collected and the state written so far are threaded through; reads go
to the committed state `s`. -/
def creditStep (s : Store) (round : Int) (acc : List NeuralNetworkModel × Store) (key : String) :
    Except String (List NeuralNetworkModel × Store) := do
  let clientData ←
    orFail (unmarshal decodeClientData (s.get key)) "failed to unmarshal3 client data"
  if clientData.round = round then
    let clientCN ← orFail (GetCNFromClientID clientData.clientID) "failed to get CN from client ID"
    let clientModelData := acc.1 ++ [clientData.data]
    let currentDataKey ←
      orFail (CreateCompositeKey "CurrentData" [clientCN]) "failed to create composite key"
    let currentData ← orFail (unmarshal decodeCurrentData (s.get currentDataKey))
      "failed to unmarshal latest round data"
    match credit64 currentData.tokens clientData.epsilon with
    | none => .error "failed to marshal client data"
    | some tokens =>
      let currentData := { currentData with tokens := tokens }
      .ok (clientModelData, acc.2.put currentDataKey (encodeCurrentData currentData))
  else
    .ok acc

/-- The loop of `GetRoundData` over the selected keys. -/
def creditLoop (s : Store) (round : Int) :
    List String → List NeuralNetworkModel × Store → Except String (List NeuralNetworkModel × Store)
  | [], acc => .ok acc
  | key :: rest, acc =>
    match creditStep s round acc key with
    | .error e => .error e
    | .ok acc' => creditLoop s round rest acc'

def GetRoundData (rng : Rng) (w : World) (serverID : String) (num : Int) (seed : Int) :
    Except String (List NeuralNetworkModel × World) := do
  let cn ← orFail (GetCNFromClientID serverID) "failed to get CN from server ID"
  let latestRound ← orFail (getLatestRound w.state cn) "failed to get latest round"
  let round := wrap64 (latestRound + 1)
  let selectedClients ← orFail (SelectSubSet rng w.state num seed round) "failed to select subset"
  let (clientModelData, state) ← creditLoop w.state round selectedClients ([], w.state)
  if clientModelData.length = 0 then
    .error ("no data for round " ++ toString round)
  else
    .ok (clientModelData, { w with state := state })

def PutGlobalWeights (w : World) (serverID : String) (data : String) (round : Int) :
    Except String (Unit × World) := do
  let serverData : ServerData := { data := data, round := round }
  let cn ← orFail (GetCNFromClientID serverID) "failed to get CN from client ID"
  let serverKey ← orFail (getKeyFromCN cn round) "failed to get key from CN"
  .ok ((), { w with state := w.state.put serverKey (encodeServerData serverData) })

def RequestKey (w : World) (clientID : String) (round : Int) : Except String (Unit × World) := do
  let cn ← orFail (GetCNFromClientID clientID) "failed to get CN from client ID"
  let keyRequestsData ← orFail (unmarshal decodeKeyRequests (w.state.get "KeyRequests"))
    "failed to unmarshal key requests"
  let keyRequestsData : KeyRequests :=
    { round := Slice.append keyRequestsData.round round,
      clientID := Slice.append keyRequestsData.clientID cn }
  .ok ((), { w with state := w.state.put "KeyRequests" (encodeKeyRequests keyRequestsData) })

def GetKeyRequests (w : World) : Except String (KeyRequests × World) := do
  let keyRequestsData ← orFail (unmarshal decodeKeyRequests (w.state.get "KeyRequests"))
    "failed to unmarshal key requests"
  let finalKeyRequests := keyRequestsData
  let keyRequestsData : KeyRequests := { round := some [], clientID := some [] }
  let state := w.state.put "KeyRequests" (encodeKeyRequests keyRequestsData)
  .ok (finalKeyRequests, { w with state := state })

/-- The entry of the transient map under a name, empty when there is none. -/
def transientField (transMap : List (String × String)) (name : String) : String :=
  match transMap.lookup name with
  | some v => v
  | none => ""

def PutSymmetricKey (w : World) (transMap : List (String × String)) (clientID : String)
    (round : Int) (privateDataCollection : String) : Except String (Unit × World) := do
  let password := transientField transMap "password"
  let iv := transientField transMap "iv"
  let symmetricKey : SymmetricKey := { password := password, iv := iv }
  let cn ← orFail (GetCNFromClientID clientID) "failed to get CN from client ID"
  let currentDataKey ←
    orFail (CreateCompositeKey "CurrentData" [cn]) "failed to create composite key"
  let currentData ← orFail (unmarshal decodeCurrentData (w.state.get currentDataKey))
    "failed to unmarshal latest round data"
  if currentData.tokens < 1 then
    .error ("client " ++ cn ++ " has no tokens")
  else
    let key := toString round
    let priv ← orFail (PutPrivateData w.priv privateDataCollection key
      (encodeSymmetricKey symmetricKey)) "failed to write to private data collection"
    match debit64 currentData.tokens with
    | none => .error "failed to marshal client data"
    | some tokens =>
      let currentData := { currentData with tokens := tokens }
      let state := w.state.put currentDataKey (encodeCurrentData currentData)
      .ok ((), { state := state, priv := priv })

def GetSymmetricKey (w : World) (round : Int) (privateDataCollection : String) :
    Except String (SymmetricKey × World) := do
  let key := toString round
  let symmetricKeyAsBytes ← orFail (GetPrivateData w.priv privateDataCollection key)
    "failed to read from private data collection"
  let symmetricKey ←
    orFail (unmarshal decodeSymmetricKey symmetricKeyAsBytes) "failed to unmarshal symmetric key"
  .ok (symmetricKey, w)

def getData (s : Store) (cn : String) (round : Int) : Except String ClientData := do
  let key ← orFail (getKeyFromCN cn round) "failed to get key from CN"
  match s.get key with
  | none => .error ("the client data " ++ cn ++ " does not exist")
  | some doc => orFail (decodeClientData doc) "failed to unmarshal client data"

def GetData (w : World) (clientID : String) : Except String (ClientData × World) := do
  let cn ← orFail (GetCNFromClientID clientID) "failed to get CN from client ID"
  let latestRound ← orFail (getLatestRound w.state cn) "failed to get latest round"
  let clientData ← getData w.state cn latestRound
  .ok (clientData, w)

def GetResult (w : World) (clientID : String) (round : Int) :
    Except String (NeuralNetworkModel × World) := do
  let clientCN ← orFail (GetCNFromClientID clientID) "failed to get CN from client ID"
  let serverCN := "appserver"
  let serverData ← orFail (getData w.state serverCN round) "failed to get server data"
  let currentDataKey ←
    orFail (CreateCompositeKey "CurrentData" [clientCN]) "failed to create composite key"
  let currentData ← orFail (unmarshal decodeCurrentData (w.state.get currentDataKey))
    "failed to unmarshal latest round data"
  if round ∈ Slice.toList currentData.roundSeen then
    .ok (serverData.data, w)
  else if currentData.tokens < 1 then
    .ok ({ layers := some [{ weights := Json.null, biases := Json.null }] }, w)
  else
    match debit64 currentData.tokens with
    | none => .error "failed to marshal client data"
    | some tokens =>
      let currentData :=
        { currentData with
          roundSeen := Slice.append currentData.roundSeen round,
          tokens := tokens }
      let state := w.state.put currentDataKey (encodeCurrentData currentData)
      .ok (serverData.data, { w with state := state })

/-- The ledger after a transaction: the writes of a transaction that returned
an error are not committed. -/
def commit {α : Type} (w : World) (r : Except String (α × World)) : World :=
  match r with
  | .ok (_, w') => w'
  | .error _ => w

/-! ## Example ledgers -/

/-- The identity `CN=alice` in base64. -/
def aliceID : String := "Q049YWxpY2U="

/-- The identity `CN=appserver` in base64. -/
def serverID : String := "Q049YXBwc2VydmVy"

/-- The identity `CN=bob` in base64. -/
def bobID : String := "Q049Ym9i"

/-- A freshly deployed ledger. -/
def emptyWorld : World := { state := [], priv := [] }

/-- The ledger after the server, alice and bob have registered. -/
def registeredWorld : World :=
  let w := commit emptyWorld (InitLedger emptyWorld serverID)
  let w := commit w (InitLedger w aliceID)
  commit w (InitLedger w bobID)

/-- A one-layer model. -/
def demoModel : Json :=
  .obj [("layers", .arr [.obj [("weights", .arr [.num 1, .num 2]), ("biases", .arr [.num 0])]])]

/-- The ledger after alice has submitted `demoModel` with privacy budget 10. -/
def submittedWorld : World :=
  commit registeredWorld (PutData registeredWorld aliceID (some demoModel) 10)

/-- The ledger after the server has then published `agg1` for round 1. -/
def publishedWorld : World :=
  commit submittedWorld (PutGlobalWeights submittedWorld serverID "agg1" 1)

/-- A generator that always draws position 0. -/
def zeroRng : Rng := fun _ _ _ => 0

/-- The ledger after the server has instead fetched the round data of round
1, selecting one client. -/
def creditedWorld : World :=
  commit submittedWorld (GetRoundData zeroRng submittedWorld serverID 1 42)

/-- The model that `demoModel` decodes to. -/
def demoDecoded : NeuralNetworkModel :=
  { layers := some [{ weights := .arr [.num 1, .num 2], biases := .arr [.num 0] }] }

/-- The record alice has stored for round 1 in `submittedWorld`. -/
def aliceRound1 : ClientData :=
  { clientID := aliceID, data := demoDecoded, round := 1, epsilon := 10 }

/-- Transient fields of a key issue. -/
def demoTransient : List (String × String) := [("password", "pw"), ("iv", "iv0")]

/-- The key material of `demoTransient`. -/
def demoKey : SymmetricKey := { password := "pw", iv := "iv0" }

/-- The ledger after a key for round 1 has been issued for alice in the
collection `collection1`. -/
def issuedWorld : World :=
  commit registeredWorld (PutSymmetricKey registeredWorld demoTransient aliceID 1 "collection1")

/-- The record that registration stores for the server under round 0. -/
def serverRound0 : ClientData :=
  { clientID := serverID,
    data := { layers := some [{ weights := Json.null, biases := Json.null }] },
    round := 0,
    epsilon := 0 }

/-- The participant state that registration stores. -/
def freshState : CurrentData := { latestRound := 0, tokens := 1, roundSeen := some [] }

/-! ## Observers used in the statements -/

/-- The participant state stored for a name, as the contract reads it. -/
def readCurrent (s : Store) (cn : String) : Except String CurrentData :=
  match CreateCompositeKey "CurrentData" [cn] with
  | .error e => .error e
  | .ok key => unmarshal decodeCurrentData (s.get key)

/-- A participant state whose integers are Go `int` values and whose balance
is a finite `float64` value. -/
def CurrentData.wf (c : CurrentData) : Prop :=
  inInt64 c.latestRound ∧ (∀ r ∈ Slice.toList c.roundSeen, inInt64 r) ∧ isF64 c.tokens = true

/-- The ledger after bob, too, has submitted for round 1. -/
def bothSubmittedWorld : World :=
  commit submittedWorld (PutData submittedWorld bobID (some demoModel) 3)

/-- The keys of the two records of round 1 in `bothSubmittedWorld`, in scan
order. -/
def round1Pool : List String :=
  [compositeKey "Client" ["1", "alice"], compositeKey "Client" ["1", "bob"]]

/-! ## Sequences of transactions -/

/-- One invocation of a transaction function of the contract, with the
identity of its caller and its arguments. -/
inductive Op where
  | initLedger (clientID : String)
  | putData (clientID : String) (data : Option Json) (epsilon : ℚ)
  | getRoundData (serverID : String) (num seed : Int)
  | putGlobalWeights (serverID : String) (data : String) (round : Int)
  | requestKey (clientID : String) (round : Int)
  | getKeyRequests
  | putSymmetricKey (transMap : List (String × String)) (clientID : String) (round : Int)
      (privateDataCollection : String)
  | getSymmetricKey (round : Int) (privateDataCollection : String)
  | getData (clientID : String)
  | getResult (clientID : String) (round : Int)

/-- The integer arguments of an invocation are Go `int` values. -/
def Op.valid : Op → Prop
  | .initLedger _ => True
  | .putData _ _ _ => True
  | .getRoundData _ num seed => inInt64 num ∧ inInt64 seed
  | .putGlobalWeights _ _ round => inInt64 round
  | .requestKey _ round => inInt64 round
  | .getKeyRequests => True
  | .putSymmetricKey _ _ round _ => inInt64 round
  | .getSymmetricKey round _ => inInt64 round
  | .getData _ => True
  | .getResult _ round => inInt64 round

/-- The ledger after one invocation has been executed and, if it returned
without an error, committed. -/
def step (rng : Rng) (w : World) : Op → World
  | .initLedger clientID => commit w (InitLedger w clientID)
  | .putData clientID data epsilon => commit w (PutData w clientID data epsilon)
  | .getRoundData serverID num seed => commit w (GetRoundData rng w serverID num seed)
  | .putGlobalWeights serverID data round => commit w (PutGlobalWeights w serverID data round)
  | .requestKey clientID round => commit w (RequestKey w clientID round)
  | .getKeyRequests => commit w (GetKeyRequests w)
  | .putSymmetricKey transMap clientID round coll =>
    commit w (PutSymmetricKey w transMap clientID round coll)
  | .getSymmetricKey round coll => commit w (GetSymmetricKey w round coll)
  | .getData clientID => commit w (GetData w clientID)
  | .getResult clientID round => commit w (GetResult w clientID round)

/-- The ledger after a sequence of invocations, executed one after the
other. -/
def run (rng : Rng) (w : World) (ops : List Op) : World :=
  ops.foldl (step rng) w

/-- The ways in which an invocation rewrites the state of a participant that
already has one: a credit, the consumption of a round, the debit of a key
issue, or the advance to a new round. -/
def CurChange (w : World) (op : Op) (cur cur' : CurrentData) : Prop :=
  (∃ e t : ℚ, credit64 cur.tokens e = some t ∧ cur' = { cur with tokens := t }) ∨
  (∃ clientID round t, op = .getResult clientID round ∧
    round ∉ Slice.toList cur.roundSeen ∧ 1 ≤ cur.tokens ∧ debit64 cur.tokens = some t ∧
    cur' = { cur with roundSeen := Slice.append cur.roundSeen round,
                      tokens := t }) ∨
  (∃ t, 1 ≤ cur.tokens ∧ debit64 cur.tokens = some t ∧ cur' = { cur with tokens := t }) ∨
  (∃ clientID data epsilon S, op = .putData clientID data epsilon ∧
    getLatestRound w.state "appserver" = .ok S ∧
    cur' = { cur with latestRound := roundNumber cur.latestRound S })

/-- Every participant state on the ledger comes with a record under the
round-0 key of the same name. -/
def Registered (w : World) : Prop :=
  ∀ cn, (w.state.get (compositeKey "CurrentData" [cn])).isSome = true →
    ∃ key, getKeyFromCN cn 0 = .ok key ∧ (w.state.get key).isSome = true

/-- The ledger after alice, at latest round 0, has seen the server publish
round 1 with `PutGlobalWeights` and has then submitted. -/
def submittedAfterPublish : World :=
  let w := commit registeredWorld (PutGlobalWeights registeredWorld serverID "agg1" 1)
  commit w (PutData w aliceID (some demoModel) 10)

/-- The ledger after the server has submitted once, so that its latest round
is 1, and alice, at latest round 0, has then submitted. -/
def submittedAfterServer : World :=
  let w := commit registeredWorld (PutData registeredWorld serverID (some demoModel) 0)
  commit w (PutData w aliceID (some demoModel) 10)

/-- The ledger after the server has submitted twice and alice has then
submitted once. -/
def submittedAfterServerTwice : World :=
  let w := commit registeredWorld (PutData registeredWorld serverID (some demoModel) 0)
  let w := commit w (PutData w serverID (some demoModel) 0)
  commit w (PutData w aliceID (some demoModel) 10)

/-- Every participant state that can be read has a latest round of at most
`n`. -/
def RoundsBelow (n : Int) (w : World) : Prop :=
  ∀ cn cur, readCurrent w.state cn = .ok cur → cur.latestRound ≤ n

/-- The ledger after registration and two submissions of the server. -/
def serverTwiceWorld : World :=
  let w := commit registeredWorld (PutData registeredWorld serverID (some demoModel) 0)
  commit w (PutData w serverID (some demoModel) 0)

/-- The registrations of the server and of alice. -/
def twoRegistrations : List Op := [Op.initLedger serverID, Op.initLedger aliceID]

/-- The consumed rounds of every participant state that can be read are
pairwise different. -/
def SeenNodup (w : World) : Prop :=
  ∀ cn cur, readCurrent w.state cn = .ok cur → (Slice.toList cur.roundSeen).Nodup

/-- Registration of the server and of alice, then alice's fetch of round 0. -/
def fetchOps : List Op :=
  [Op.initLedger serverID, Op.initLedger aliceID, Op.getResult aliceID 0]

/-- A second fetch of round 0 by alice, then a submission. -/
def laterOps : List Op :=
  [Op.getResult aliceID 0, Op.putData aliceID (some demoModel) 10]

/-! ## The identity parse as the specification words it -/

/-- The text up to, and not including, the first `,`; the whole text when it
has none. -/
def beforeFirstComma (text : List Char) : List Char :=
  text.takeWhile (fun c => decide (c ≠ ','))

/-- The part of a text after its last `=`; the whole text when it has none. -/
def afterLastEquals : List Char → List Char
  | [] => []
  | c :: rest =>
    if '=' ∈ rest then afterLastEquals rest
    else if c = '=' then rest
    else c :: rest

/-- The name the specification reads off a decoded identity text. -/
def cnOfText (text : List Char) : List Char :=
  afterLastEquals (beforeFirstComma text)

/-! ## ABstore (`src/go_chaincode_2/835.go`)

The payment chaincode keeps one holding per entity: the decimal text of a Go
`int` stored under the entity's name. -/

namespace ABstore

/-- The world state of the chaincode: the text stored under each key. A key
that is absent reads as nil bytes. -/
abbrev State := List (String × String)

/-- `stub.GetState`. -/
def GetState (s : State) (key : String) : Option String :=
  match s with
  | [] => none
  | (k, v) :: rest => if key = k then some v else GetState rest key

/-- `stub.PutState`: the shim rejects the empty key; a later write to a key
replaces an earlier one. -/
def PutState (s : State) (key : String) (value : String) : Except String State :=
  if key = "" then .error "key must not be an empty string"
  else .ok ((key, value) :: s.filter (fun p => decide (p.1 ≠ key)))

/-- `stub.DelState`. -/
def DelState (s : State) (key : String) : State :=
  s.filter (fun p => decide (p.1 ≠ key))

/-- The outcome of reading the digits of a number. -/
inductive Digits where
  | invalid : Digits
  | outOfRange : Digits
  | value (n : Nat) : Digits

/-- The digit loop of `strconv.ParseUint` in base 10 with 64 bits: it stops
at the first character that is not a digit and at the first digit with which
the number no longer fits. -/
def scanDigits : List Char → Nat → Digits
  | [], n => .value n
  | c :: rest, n =>
    if 48 ≤ c.toNat ∧ c.toNat ≤ 57 then
      if n * 10 + (c.toNat - 48) < 2 ^ 64 then scanDigits rest (n * 10 + (c.toNat - 48))
      else .outOfRange
    else .invalid

/-- `strconv.Atoi`: the number read and whether the error is nil. On a text
that is not a number the value is 0; on a number outside the range of an
`int` it is the nearest bound. -/
def Atoi (s : String) : Int × Bool :=
  let signed : Bool × List Char :=
    match s.data with
    | '-' :: rest => (true, rest)
    | '+' :: rest => (false, rest)
    | cs => (false, cs)
  if signed.2.isEmpty then (0, false)
  else
    match scanDigits signed.2 0 with
    | .invalid => (0, false)
    | .outOfRange => if signed.1 then (-(2 : Int) ^ 63, false) else ((2 : Int) ^ 63 - 1, false)
    | .value n =>
      if signed.1 then
        if 2 ^ 63 < n then (-(2 : Int) ^ 63, false) else (-(n : Int), true)
      else
        if 2 ^ 63 ≤ n then ((2 : Int) ^ 63 - 1, false) else ((n : Int), true)

/-- `strconv.Itoa`. -/
def Itoa (n : Int) : String := toString n

/-- `ABstore.invoke`: both holdings are read, then both are written, the
holding of `B` last. The result is the state to commit, or the message of
`shim.Error`. -/
def invoke (s : State) (args : List String) : Except String State :=
  match args with
  | [A, B, amount] =>
    match GetState s A with
    | none => .error "Entity not found"
    | some Avalbytes =>
      let Aval := (Atoi Avalbytes).1
      match GetState s B with
      | none => .error "Entity not found"
      | some Bvalbytes =>
        let Bval := (Atoi Bvalbytes).1
        let X := Atoi amount
        if X.2 = false then .error "Invalid transaction amount, expecting a integer value"
        else
          let Aval := wrap64 (Aval - X.1)
          let Bval := wrap64 (Bval + X.1)
          match PutState s A (Itoa Aval) with
          | .error e => .error e
          | .ok s1 => PutState s1 B (Itoa Bval)
  | _ => .error "Incorrect number of arguments. Expecting 3"

/-- The holding of an entity as `invoke` reads it. -/
def holding (s : State) (key : String) : Option Int :=
  match GetState s key with
  | none => none
  | some v => some (Atoi v).1

/-- The sum of all holdings on the ledger. -/
def total (s : State) : Int :=
  (s.map (fun p => (Atoi p.2).1)).sum

/-- A ledger on which `a` holds 100 and `b` holds 200. -/
def demoState : State := [("a", "100"), ("b", "200")]

end ABstore

/-! ## Asset ledger (`src/2024.3/code/1019.go`)

The contract stores one JSON document per asset under the asset's ID. -/

namespace Assets

structure Transaction where
  ID : String
  Type_ : String
  UPC : String
  From : String
  To : String

def encodeTransaction (t : Transaction) : Json :=
  .obj [("ID", .str t.ID), ("Type", .str t.Type_), ("UPC", .str t.UPC), ("From", .str t.From),
        ("To", .str t.To)]

def decodeTransaction : Json → Except String Transaction
  | .null => .ok { ID := "", Type_ := "", UPC := "", From := "", To := "" }
  | .obj fs =>
    match applyAll intoString (Json.values fs "ID") "" with
    | .error e => .error e
    | .ok id =>
      match applyAll intoString (Json.values fs "Type") "" with
      | .error e => .error e
      | .ok ty =>
        match applyAll intoString (Json.values fs "UPC") "" with
        | .error e => .error e
        | .ok upc =>
          match applyAll intoString (Json.values fs "From") "" with
          | .error e => .error e
          | .ok from_ =>
            match applyAll intoString (Json.values fs "To") "" with
            | .error e => .error e
            | .ok to_ => .ok { ID := id, Type_ := ty, UPC := upc, From := from_, To := to_ }
  | _ => .error "json: cannot unmarshal into Go value of type main.Transaction"

/-- `stub.PutState`: the shim rejects the empty key. -/
def PutState (s : Store) (key : String) (value : Json) : Except String Store :=
  if key = "" then .error "key must not be an empty string"
  else .ok (s.put key value)

/-- `stub.DelState`. -/
def DelState (s : Store) (key : String) : Store :=
  s.filter (fun p => decide (p.1 ≠ key))

/-- `stub.GetStateByRange`: the keys from `startKey` on and before `endKey`,
in key order, each with the document stored under it; an empty `endKey`
leaves the range open. -/
def GetStateByRange (s : Store) (startKey endKey : String) : List (String × Json) :=
  ((Store.keys s).filter
      (fun k => !keyLt k startKey && (decide (endKey = "") || keyLt k endKey))).filterMap
    (fun k => (s.get k).map (fun v => (k, v)))

/-- `AssetExists`. -/
def AssetExists (s : Store) (id : String) : Bool :=
  (s.get id).isSome

/-- `CreateAsset`: the state to commit, or the error returned. -/
def CreateAsset (s : Store) (ID Type_ UPC From To : String) : Except String Store :=
  if AssetExists s ID then .error ("the asset " ++ ID ++ " already exists")
  else
    let Tx : Transaction := { ID := ID, Type_ := Type_, UPC := UPC, From := From, To := To }
    PutState s ID (encodeTransaction Tx)

/-- `ReadAsset`. -/
def ReadAsset (s : Store) (id : String) : Except String Transaction :=
  match s.get id with
  | none => .error ("the asset " ++ id ++ " does not exist")
  | some doc => decodeTransaction doc

/-- `DeleteAsset`. -/
def DeleteAsset (s : Store) (id : String) : Except String Store :=
  if AssetExists s id then .ok (DelState s id)
  else .error ("the asset " ++ id ++ " does not exist")

/-- The loop of `GetAllAssets` over the results of the range query, with the
slice collected so far. -/
def collectAssets : List (String × Json) → Slice Transaction → Except String (Slice Transaction)
  | [], assets => .ok assets
  | (_, value) :: rest, assets =>
    match decodeTransaction value with
    | .error e => .error e
    | .ok asset => collectAssets rest (Slice.append assets asset)

/-- `GetAllAssets`: the range query runs from `Tx0` up to, and not
including, `Tx999`. -/
def GetAllAssets (s : Store) : Except String (Slice Transaction) :=
  collectAssets (GetStateByRange s "Tx0" "Tx999") none

/-- The ledger after `CreateAsset("Tx5", "Milk", "M1612", "Alice", "Bob")` on
an empty ledger. -/
def oneAsset : Store := [("Tx5", encodeTransaction
  { ID := "Tx5", Type_ := "Milk", UPC := "M1612", From := "Alice", To := "Bob" })]

end Assets

/-- The ledger after alice has fetched the result of round 0, which takes her
only token. -/
def consumedWorld : World :=
  commit registeredWorld (GetResult registeredWorld aliceID 0)

/-- The ledger after the server has then published `agg0` for round 0. -/
def republishedWorld : World :=
  commit consumedWorld (PutGlobalWeights consumedWorld serverID "agg0" 0)

/-- The ledger after the server has instead published `agg1` for round 1. -/
def brokeWorld : World :=
  commit consumedWorld (PutGlobalWeights consumedWorld serverID "agg1" 1)

/-- The fields of a map in ascending order of their keys. -/
def SortedFields (fs : List (String × Json)) : Prop :=
  fs.Pairwise (fun a b => keyLt a.1 b.1 = true)

/-- A value that decoding into an `interface{}` and marshalling leaves as it
is. -/
def Normal (j : Json) : Prop := normValue j = .ok j

/-- A layer whose weights and biases are as marshalling writes them. -/
def Layer.normal (l : Layer) : Prop := Normal l.weights ∧ Normal l.biases

/-- A model all of whose layers are as marshalling writes them. -/
def NeuralNetworkModel.normal (m : NeuralNetworkModel) : Prop :=
  ∀ l ∈ Slice.toList m.layers, l.normal

/-- A round record whose round is a Go `int`, whose privacy budget is a finite
`float64` value and whose model is as marshalling writes it. -/
def ClientData.wf (c : ClientData) : Prop :=
  inInt64 c.round ∧ isF64 c.epsilon = true ∧ c.data.normal

/-- The ledger after alice has submitted `demoModel` with privacy budget 1. -/
def budgetOneWorld : World :=
  commit registeredWorld (PutData registeredWorld aliceID (some demoModel) 1)

/-- The ledger after the server has then fetched the round data of round 1
twice, selecting one client each time. -/
def creditedTwiceWorld : World :=
  let w := commit budgetOneWorld (GetRoundData zeroRng budgetOneWorld serverID 1 42)
  commit w (GetRoundData zeroRng w serverID 1 42)

/-- The ledger after a third fetch of the round data of round 1. -/
def creditedThriceWorld : World :=
  commit creditedTwiceWorld (GetRoundData zeroRng creditedTwiceWorld serverID 1 42)

/-- The ledger after the server has fetched the round data of round 1 a
second time with the same count and seed. -/
def creditedAgainWorld : World :=
  commit creditedWorld (GetRoundData zeroRng creditedWorld serverID 1 42)

/-! ## Basic facts about the ledger stub and the codec -/

theorem Store.get_filter_ne (s : Store) (k k' : String) :
    Store.get (s.filter (fun p => decide (p.1 ≠ k))) k' = if k' = k then none else Store.get s k' := by
  induction s with
  | nil => simp [Store.get]
  | cons p rest ih =>
    obtain ⟨a, v⟩ := p
    by_cases ha : a = k
    · subst ha
      simp only [List.filter, ne_eq, not_true_eq_false, decide_False]
      rw [ih]
      by_cases hk : k' = a
      · simp [hk]
      · simp [hk, Store.get]
    · simp only [List.filter, ne_eq, ha, not_false_eq_true, decide_True, Store.get]
      rw [ih]
      by_cases hk : k' = a
      · subst hk
        simp [ha]
      · simp [hk]

theorem Store.get_put (s : Store) (k k' : String) (v : Json) :
    Store.get (s.put k v) k' = if k' = k then some v else Store.get s k' := by
  unfold Store.put
  simp only [Store.get]
  rw [Store.get_filter_ne]
  by_cases hk : k' = k
  · simp [hk]
  · simp [hk]

theorem Store.get_put_self (s : Store) (k : String) (v : Json) :
    Store.get (s.put k v) k = some v := by
  simp [Store.get_put]

theorem Store.get_put_of_ne (s : Store) (k k' : String) (v : Json) (h : k' ≠ k) :
    Store.get (s.put k v) k' = Store.get s k' := by
  simp [Store.get_put, h]

theorem CreateCompositeKey_eq_ok {objectType : String} {attributes : List String} {key : String}
    (h : CreateCompositeKey objectType attributes = .ok key) :
    key = compositeKey objectType attributes := by
  unfold CreateCompositeKey at h
  split at h
  · injection h with h; exact h.symm
  · cases h

theorem inInt64_zero : inInt64 0 := by
  unfold inInt64; constructor <;> norm_num

theorem round64_isF64 {q r : ℚ} (h : round64 q = some r) : isF64 r = true := by
  unfold round64 at h
  split at h
  · rename_i hq
    injection h with h
    rw [← h]; exact hq
  · split at h
    · rename_i hn
      injection h with h
      rw [← h]; exact hn
    · cases h

theorem round64_self {q : ℚ} (h : isF64 q = true) : round64 q = some q := by
  simp only [round64, h, if_true]

theorem isF64_zero : isF64 0 = true := by decide!

theorem isF64_one : isF64 1 = true := by decide!

theorem applyAll_inv {α : Type} {into : Json → α → Except String α} (P : α → Prop)
    (hstep : ∀ v a a', P a → into v a = .ok a' → P a') :
    ∀ (vs : List Json) (a r : α), P a → applyAll into vs a = .ok r → P r := by
  intro vs
  induction vs with
  | nil =>
    intro a r ha h
    simp only [applyAll, Except.ok.injEq] at h
    rw [← h]; exact ha
  | cons v rest ih =>
    intro a r ha h
    simp only [applyAll] at h
    cases hv : into v a with
    | error e => rw [hv] at h; cases h
    | ok a' =>
      rw [hv] at h
      exact ih a' r (hstep v a a' ha hv) h

theorem intoInt_inInt64 (v : Json) (old n : Int) (hold : inInt64 old)
    (h : intoInt v old = .ok n) : inInt64 n := by
  cases v with
  | null => simp only [intoInt, Except.ok.injEq] at h; rw [← h]; exact hold
  | num q =>
    simp only [intoInt] at h
    split at h
    · rename_i hq
      injection h with h
      subst h
      exact hq.2
    · cases h
  | bool b => simp [intoInt] at h
  | str s => simp [intoInt] at h
  | arr xs => simp [intoInt] at h
  | obj fs => simp [intoInt] at h

theorem intoInt_num {n : Int} (h : inInt64 n) (old : Int) :
    intoInt (.num (n : ℚ)) old = .ok n := by
  simp [intoInt, h]

theorem intoFloat_isF64 (v : Json) (old r : ℚ) (hold : isF64 old = true)
    (h : intoFloat v old = .ok r) : isF64 r = true := by
  cases v with
  | null => simp only [intoFloat, Except.ok.injEq] at h; rw [← h]; exact hold
  | num q =>
    simp only [intoFloat] at h
    split at h
    · rename_i r' hr
      injection h with h
      rw [← h]
      exact round64_isF64 hr
    · cases h
  | bool b => simp [intoFloat] at h
  | str s => simp [intoFloat] at h
  | arr xs => simp [intoFloat] at h
  | obj fs => simp [intoFloat] at h

theorem intoFloat_num {q : ℚ} (h : isF64 q = true) (old : ℚ) :
    intoFloat (.num q) old = .ok q := by
  simp only [intoFloat, round64_self h]

theorem intoElems_all {α : Type} {into : Json → α → Except String α} {zero : α} (P : α → Prop)
    (hzero : P zero) (hstep : ∀ v a a', P a → into v a = .ok a' → P a') :
    ∀ (xs : List Json) (backing as : List α), (∀ b ∈ backing, P b) →
      intoElems into zero xs backing = .ok as → ∀ a ∈ as, P a := by
  intro xs
  induction xs with
  | nil =>
    intro backing as _ h
    simp only [intoElems, Except.ok.injEq] at h
    rw [← h]
    intro a ha; cases ha
  | cons x rest ih =>
    intro backing as hb h
    simp only [intoElems] at h
    cases hx : into x (backing.headD zero) with
    | error e => rw [hx] at h; cases h
    | ok a' =>
      rw [hx] at h
      simp only at h
      cases hr : intoElems into zero rest backing.tail with
      | error e => rw [hr] at h; cases h
      | ok as' =>
        rw [hr] at h
        simp only [Except.ok.injEq] at h
        rw [← h]
        have hhead : P (backing.headD zero) := by
          cases backing with
          | nil => exact hzero
          | cons b bs => exact hb b (List.mem_cons_self _ _)
        have htail : ∀ b ∈ backing.tail, P b := fun b hbm => hb b (List.mem_of_mem_tail hbm)
        intro a ha
        rcases List.mem_cons.mp ha with ha | ha
        · rw [ha]; exact hstep x _ a' hhead hx
        · exact ih backing.tail as' htail hr a ha

theorem Buf.all_nil {α : Type} (P : α → Prop) : Buf.all P (Buf.nil : Buf α) := by
  constructor
  · intro a ha; cases ha
  · intro a ha; cases ha

theorem intoSlice_all {α : Type} {into : Json → α → Except String α} {zero : α} (P : α → Prop)
    (hzero : P zero) (hstep : ∀ v a a', P a → into v a = .ok a' → P a')
    (v : Json) (old new : Buf α) (hold : Buf.all P old)
    (h : intoSlice into zero v old = .ok new) : Buf.all P new := by
  cases v with
  | null =>
    simp only [intoSlice, Except.ok.injEq] at h
    rw [← h]
    exact ⟨fun a ha => (by cases ha), fun a ha => (by cases ha)⟩
  | arr xs =>
    cases xs with
    | nil =>
      simp only [intoSlice, Except.ok.injEq] at h
      rw [← h]
      exact ⟨fun a ha => (by cases ha), fun a ha => (by cases ha)⟩
    | cons x rest =>
      simp only [intoSlice] at h
      cases hr : intoElems into zero (x :: rest) old.backing with
      | error e => rw [hr] at h; cases h
      | ok as =>
        rw [hr] at h
        simp only [Except.ok.injEq] at h
        rw [← h]
        have has := intoElems_all P hzero hstep (x :: rest) old.backing as hold.1 hr
        refine ⟨?_, has⟩
        intro a ha
        rcases List.mem_append.mp ha with ha | ha
        · exact has a ha
        · exact hold.1 a (List.mem_of_mem_drop ha)
  | bool b => simp [intoSlice] at h
  | num q => simp [intoSlice] at h
  | str s => simp [intoSlice] at h
  | obj fs => simp [intoSlice] at h

theorem intoElems_int_map {ns : List Int} (h : ∀ n ∈ ns, inInt64 n) :
    intoElems intoInt 0 (ns.map (fun n : Int => Json.num n)) [] = .ok ns := by
  induction ns with
  | nil => simp [intoElems]
  | cons n rest ih =>
    have hn : inInt64 n := h n (List.mem_cons_self _ _)
    have hrest : ∀ m ∈ rest, inInt64 m := fun m hm => h m (List.mem_cons_of_mem _ hm)
    simp only [List.map, intoElems, List.headD_nil, intoInt_num hn, List.tail_nil, ih hrest]

theorem intoSlice_encodeSlice_int {seen : Slice Int}
    (h : ∀ n ∈ Slice.toList seen, inInt64 n) :
    ∃ b, intoSlice intoInt 0 (encodeSlice (fun n : Int => Json.num n) seen) Buf.nil = .ok b ∧
      b.slice = seen := by
  cases seen with
  | none => exact ⟨_, rfl, rfl⟩
  | some l =>
    cases l with
    | nil => exact ⟨_, rfl, rfl⟩
    | cons n rest =>
      have hl : ∀ m ∈ n :: rest, inInt64 m := h
      have he := intoElems_int_map hl
      simp only [List.map] at he
      refine ⟨{ backing := (n :: rest) ++ ([] : List Int).drop (n :: rest).length,
                slice := some (n :: rest) }, ?_, rfl⟩
      simp only [encodeSlice, List.map, intoSlice, Buf.nil, he]

theorem decodeCurrentData_wf {j : Json} {c : CurrentData}
    (h : decodeCurrentData j = .ok c) : c.wf := by
  cases j with
  | null =>
    simp only [decodeCurrentData, Except.ok.injEq] at h
    subst h
    exact ⟨inInt64_zero, by simp [Slice.toList], isF64_zero⟩
  | obj fs =>
    simp only [decodeCurrentData] at h
    cases hr : applyAll intoInt (Json.values fs "round") 0 with
    | error e => rw [hr] at h; cases h
    | ok r =>
      rw [hr] at h
      simp only at h
      cases ht : applyAll intoFloat (Json.values fs "tokens") 0 with
      | error e => rw [ht] at h; cases h
      | ok t =>
        rw [ht] at h
        simp only at h
        cases hs : applyAll (intoSlice intoInt 0) (Json.values fs "roundSeen") Buf.nil with
        | error e => rw [hs] at h; cases h
        | ok seen =>
          rw [hs] at h
          simp only [Except.ok.injEq] at h
          subst h
          refine ⟨?_, ?_, ?_⟩
          · exact applyAll_inv inInt64 (fun v a a' => intoInt_inInt64 v a a') _ 0 r
              inInt64_zero hr
          · exact (applyAll_inv (Buf.all inInt64)
              (fun v a a' => intoSlice_all inInt64 inInt64_zero
                (fun v a a' => intoInt_inInt64 v a a') v a a') _ Buf.nil seen
              (Buf.all_nil _) hs).2
          · exact applyAll_inv (fun q => isF64 q = true)
              (fun v a a' => intoFloat_isF64 v a a') _ 0 t isF64_zero ht
  | bool b => simp [decodeCurrentData] at h
  | num q => simp [decodeCurrentData] at h
  | str s => simp [decodeCurrentData] at h
  | arr xs => simp [decodeCurrentData] at h

theorem decodeCurrentData_encode {c : CurrentData} (h : c.wf) :
    decodeCurrentData (encodeCurrentData c) = .ok c := by
  have h1 : Json.values [("round", Json.num c.latestRound), ("tokens", Json.num c.tokens),
      ("roundSeen", encodeSlice (fun n : Int => Json.num n) c.roundSeen)] "round"
      = [Json.num c.latestRound] := rfl
  have h2 : Json.values [("round", Json.num c.latestRound), ("tokens", Json.num c.tokens),
      ("roundSeen", encodeSlice (fun n : Int => Json.num n) c.roundSeen)] "tokens"
      = [Json.num c.tokens] := rfl
  have h3 : Json.values [("round", Json.num c.latestRound), ("tokens", Json.num c.tokens),
      ("roundSeen", encodeSlice (fun n : Int => Json.num n) c.roundSeen)] "roundSeen"
      = [encodeSlice (fun n : Int => Json.num n) c.roundSeen] := rfl
  obtain ⟨b, hb, hbs⟩ := intoSlice_encodeSlice_int h.2.1
  simp only [encodeCurrentData, decodeCurrentData, h1, h2, h3, applyAll, intoInt_num h.1,
    intoFloat_num h.2.2, hb, hbs]

theorem readCurrent_ok {s : Store} {cn : String} {c : CurrentData}
    (h : readCurrent s cn = .ok c) :
    CreateCompositeKey "CurrentData" [cn] = .ok (compositeKey "CurrentData" [cn]) ∧
      ∃ doc, s.get (compositeKey "CurrentData" [cn]) = some doc ∧ decodeCurrentData doc = .ok c := by
  unfold readCurrent at h
  split at h
  · cases h
  · rename_i key hkey
    have hk := CreateCompositeKey_eq_ok hkey
    subst hk
    refine ⟨hkey, ?_⟩
    cases hg : s.get (compositeKey "CurrentData" [cn]) with
    | none => rw [hg] at h; simp [unmarshal] at h
    | some doc => rw [hg] at h; exact ⟨doc, rfl, h⟩

theorem readCurrent_wf {s : Store} {cn : String} {c : CurrentData}
    (h : readCurrent s cn = .ok c) : c.wf := by
  obtain ⟨_, doc, _, hdoc⟩ := readCurrent_ok h
  exact decodeCurrentData_wf hdoc

theorem readCurrent_put_self {s : Store} {cn : String} {c : CurrentData}
    (hkey : CreateCompositeKey "CurrentData" [cn] = .ok (compositeKey "CurrentData" [cn]))
    (h : c.wf) :
    readCurrent (s.put (compositeKey "CurrentData" [cn]) (encodeCurrentData c)) cn = .ok c := by
  unfold readCurrent
  rw [hkey]
  simp only [Store.get_put_self, unmarshal]
  exact decodeCurrentData_encode h

theorem currentKey_ne_roundKey (cn r cn' pfx : String) (h : pfx = "Server" ∨ pfx = "Client") :
    compositeKey pfx [r, cn'] ≠ compositeKey "CurrentData" [cn] := by
  have hS : "Server".data = ['S', 'e', 'r', 'v', 'e', 'r'] := rfl
  have hC : "Client".data = ['C', 'l', 'i', 'e', 'n', 't'] := rfl
  have hD : "CurrentData".data = ['C', 'u', 'r', 'r', 'e', 'n', 't', 'D', 'a', 't', 'a'] := rfl
  intro heq
  have hdata := congrArg String.data heq
  rcases h with h | h <;> subst h <;> simp [compositeKey, hS, hC, hD] at hdata

theorem getKeyFromCN_ok {cn : String} {round : Int} {key : String}
    (h : getKeyFromCN cn round = .ok key) :
    key = compositeKey (if cn = "appserver" then "Server" else "Client") [toString round, cn] := by
  simp only [getKeyFromCN, orFail] at h
  split at h
  · rename_i a ha
    injection h with h
    subst h
    exact CreateCompositeKey_eq_ok ha
  · cases h

theorem currentKey_ne_getKeyFromCN (cn : String) {cn' : String} {round : Int} {key : String}
    (h : getKeyFromCN cn' round = .ok key) : key ≠ compositeKey "CurrentData" [cn] := by
  rw [getKeyFromCN_ok h]
  apply currentKey_ne_roundKey
  by_cases hc : cn' = "appserver"
  · simp [hc]
  · simp [hc]

theorem getData_put_current {s : Store} {cn cn' : String} {round : Int} (doc : Json) :
    getData (s.put (compositeKey "CurrentData" [cn]) doc) cn' round = getData s cn' round := by
  unfold getData
  cases hk : getKeyFromCN cn' round with
  | error e => simp [orFail, bind, Except.bind]
  | ok key =>
    have hne := currentKey_ne_getKeyFromCN cn hk
    simp [orFail, bind, Except.bind, Store.get_put_of_ne _ _ _ _ hne]

/-- The outcomes of `GetResult` once the caller's name, the server record and
the caller's state have been read. -/
theorem GetResult_eq {w : World} {clientID cn : String} {round : Int}
    {serverData : ClientData} {cur : CurrentData}
    (hcn : GetCNFromClientID clientID = .ok cn)
    (hserver : getData w.state "appserver" round = .ok serverData)
    (hcur : readCurrent w.state cn = .ok cur) :
    GetResult w clientID round =
      if round ∈ Slice.toList cur.roundSeen then .ok (serverData.data, w)
      else if cur.tokens < 1 then
        .ok ({ layers := some [{ weights := Json.null, biases := Json.null }] }, w)
      else
        match debit64 cur.tokens with
        | none => .error "failed to marshal client data"
        | some t =>
          .ok (serverData.data,
            { w with state := (w.state.put (compositeKey "CurrentData" [cn])
                (encodeCurrentData { cur with
                  roundSeen := Slice.append cur.roundSeen round, tokens := t })) }) := by
  obtain ⟨hkey, doc, hdoc, hdec⟩ := readCurrent_ok hcur
  simp only [GetResult, hcn, hserver, hkey, hdoc, hdec, orFail, bind, Except.bind, unmarshal]

/-- Where the server record of `round` reads as a round record, a caller whose
balance is at least 1 and who has not consumed `round` gets the payload; the
state stored for the caller afterwards has the balance `t` that the binary64
subtraction of 1 gives, `round` appended to the consumed rounds and the same
latest round. -/
theorem GetResult_first_fetch_readable (w : World) (clientID cn : String) (round : Int)
    (serverData : ClientData) (cur : CurrentData) (t : ℚ)
    (hcn : GetCNFromClientID clientID = .ok cn)
    (hround : inInt64 round)
    (hserver : getData w.state "appserver" round = .ok serverData)
    (hcur : readCurrent w.state cn = .ok cur)
    (htokens : 1 ≤ cur.tokens)
    (hdebit : debit64 cur.tokens = some t)
    (hseen : round ∉ Slice.toList cur.roundSeen) :
    ∃ w', GetResult w clientID round = .ok (serverData.data, w') ∧
      readCurrent w'.state cn =
        .ok { latestRound := cur.latestRound,
              tokens := t,
              roundSeen := some (Slice.toList cur.roundSeen ++ [round]) } := by
  have hlt : ¬ cur.tokens < 1 := not_lt.mpr htokens
  refine ⟨{ w with state := (w.state.put (compositeKey "CurrentData" [cn])
    (encodeCurrentData { cur with
      roundSeen := Slice.append cur.roundSeen round, tokens := t })) }, ?_, ?_⟩
  · rw [GetResult_eq hcn hserver hcur, if_neg hseen, if_neg hlt, hdebit]
  · have hwf := readCurrent_wf hcur
    apply readCurrent_put_self (readCurrent_ok hcur).1
    refine ⟨hwf.1, ?_, round64_isF64 hdebit⟩
    intro r hr
    simp only [Slice.append, Slice.toList, List.mem_append, List.mem_singleton] at hr
    rcases hr with hr | hr
    · exact hwf.2.1 r hr
    · subst hr; exact hround

/-- C1, first fetch of a published round. The server has published `agg1` for
round 1, alice holds 1 token and has consumed no round: `GetResult` for round 1
returns an error instead of the payload, and her balance and consumed rounds
stay as they were. -/
theorem GetResult_first_fetch_fails :
    publishedWorld.state.get (compositeKey "Server" ["1", "appserver"])
      = some (encodeServerData { data := "agg1", round := 1 }) ∧
    readCurrent publishedWorld.state "alice"
      = .ok { latestRound := 1, tokens := 1, roundSeen := some [] } ∧
    GetResult publishedWorld aliceID 1 = .error "failed to get server data" ∧
    readCurrent (commit publishedWorld (GetResult publishedWorld aliceID 1)).state "alice"
      = .ok { latestRound := 1, tokens := 1, roundSeen := some [] } := by
  refine ⟨by with_unfolding_all rfl, by with_unfolding_all rfl, by with_unfolding_all rfl,
    by with_unfolding_all rfl⟩

/-- C2, replay after a publication. Alice has consumed round 0, for which she
paid her token; the server then publishes `agg0` for round 0. Round 0 is among
her consumed rounds and the server record exists, yet `GetResult` for round 0
returns an error instead of the payload. -/
theorem GetResult_replay_fails :
    GetResult registeredWorld aliceID 0 = .ok (serverRound0.data, consumedWorld) ∧
    readCurrent republishedWorld.state "alice"
      = .ok { latestRound := 0, tokens := 1 - 1, roundSeen := some [0] } ∧
    republishedWorld.state.get (compositeKey "Server" ["0", "appserver"])
      = some (encodeServerData { data := "agg0", round := 0 }) ∧
    GetResult republishedWorld aliceID 0 = .error "failed to get server data" := by
  refine ⟨by with_unfolding_all rfl, by with_unfolding_all rfl, by with_unfolding_all rfl,
    by with_unfolding_all rfl⟩

/-- C3, soft failure on a published round. Alice holds no token and has not
consumed round 1, for which the server has published `agg1`: `GetResult` for
round 1 returns an error, not the payload with one empty layer. -/
theorem GetResult_soft_failure_fails :
    readCurrent brokeWorld.state "alice"
      = .ok { latestRound := 0, tokens := 1 - 1, roundSeen := some [0] } ∧
    ((1 : ℚ) - 1 < 1) ∧
    brokeWorld.state.get (compositeKey "Server" ["1", "appserver"])
      = some (encodeServerData { data := "agg1", round := 1 }) ∧
    GetResult brokeWorld aliceID 1 = .error "failed to get server data" := by
  refine ⟨by with_unfolding_all rfl, by norm_num, by with_unfolding_all rfl,
    by with_unfolding_all rfl⟩

theorem PrivStore.get_empty (s : PrivStore) (k : String) : PrivStore.get s "" k = none := by
  cases s with
  | nil => rfl
  | cons p rest => simp [PrivStore.get]

theorem PrivStore.get_put_same (s : PrivStore) (coll k : String) (v : Json) (h : coll ≠ "") :
    PrivStore.get (s.put coll k v) coll k = some v := by
  simp [PrivStore.put, PrivStore.get, h]

theorem toDigitsCore_ne_nil : ∀ (fuel n : Nat) (ds : List Char), ds ≠ [] →
    Nat.toDigitsCore 10 fuel n ds ≠ [] := by
  intro fuel
  induction fuel with
  | zero => intro n ds h; exact h
  | succ fuel ih =>
    intro n ds _
    simp only [Nat.toDigitsCore]
    split
    · simp
    · exact ih _ _ (List.cons_ne_nil _ _)

theorem Nat_repr_ne_empty (n : Nat) : Nat.repr n ≠ "" := by
  intro h
  have hd : (Nat.repr n).data = [] := by rw [h]
  have h' : Nat.toDigitsCore 10 (n + 1) n [] = [] := by
    simpa [Nat.repr, List.asString, Nat.toDigits] using hd
  simp only [Nat.toDigitsCore] at h'
  split at h'
  · cases h'
  · exact toDigitsCore_ne_nil _ _ _ (List.cons_ne_nil _ _) h'

theorem Int_toString_ne_empty (a : Int) : toString a ≠ "" := by
  intro h
  cases a with
  | ofNat n =>
    have : Nat.repr n = "" := h
    exact Nat_repr_ne_empty n this
  | negSucc n =>
    have hdata := congrArg String.data h
    have h1 : '-' :: (Nat.repr (n + 1)).data = [] := hdata
    cases h1

theorem decodeSymmetricKey_encode (k : SymmetricKey) :
    decodeSymmetricKey (encodeSymmetricKey k) = .ok k := by
  have h1 : Json.values [("password", Json.str k.password), ("iv", Json.str k.iv)] "password"
      = [Json.str k.password] := rfl
  have h2 : Json.values [("password", Json.str k.password), ("iv", Json.str k.iv)] "iv"
      = [Json.str k.iv] := rfl
  simp only [encodeSymmetricKey, decodeSymmetricKey, h1, h2, applyAll, intoString]

/-- The outcomes of `PutSymmetricKey` once the named client's state has been
read. -/
theorem PutSymmetricKey_eq {w : World} {transMap : List (String × String)}
    {clientID cn : String} {round : Int} {coll : String} {cur : CurrentData}
    (hcn : GetCNFromClientID clientID = .ok cn)
    (hcur : readCurrent w.state cn = .ok cur) :
    PutSymmetricKey w transMap clientID round coll =
      if cur.tokens < 1 then .error ("client " ++ cn ++ " has no tokens")
      else if coll = "" then .error "failed to write to private data collection"
      else
        match debit64 cur.tokens with
        | none => .error "failed to marshal client data"
        | some t =>
          .ok ((),
            { state := w.state.put (compositeKey "CurrentData" [cn])
                (encodeCurrentData { cur with tokens := t }),
              priv := w.priv.put coll (toString round)
                (encodeSymmetricKey { password := transientField transMap "password",
                                      iv := transientField transMap "iv" }) }) := by
  obtain ⟨hkey, doc, hdoc, hdec⟩ := readCurrent_ok hcur
  by_cases ht : cur.tokens < 1
  · simp only [PutSymmetricKey, hcn, hkey, hdoc, hdec, orFail, bind, Except.bind, unmarshal, ht,
      if_true]
  · by_cases hc : coll = ""
    · simp only [PutSymmetricKey, hcn, hkey, hdoc, hdec, orFail, bind, Except.bind, unmarshal,
        ht, if_false, PutPrivateData, hc, if_true]
    · simp only [PutSymmetricKey, hcn, hkey, hdoc, hdec, orFail, bind, Except.bind, unmarshal,
        ht, if_false, PutPrivateData, hc, Int_toString_ne_empty round]

theorem GetSymmetricKey_of_get {w : World} {round : Int} {coll : String} {key : SymmetricKey}
    (hissued : w.priv.get coll (toString round) = some (encodeSymmetricKey key)) :
    GetSymmetricKey w round coll = .ok (key, w) := by
  have hc : coll ≠ "" := by
    intro hc
    rw [hc, PrivStore.get_empty] at hissued
    cases hissued
  simp only [GetSymmetricKey, GetPrivateData, hc, if_false, hissued, unmarshal,
    decodeSymmetricKey_encode, orFail, bind, Except.bind]

/-- C4, counterexample. In `issuedWorld` alice's balance is 0, yet fetching
the key of round 1 succeeds and returns the key material. -/
theorem GetSymmetricKey_not_token_gated :
    readCurrent issuedWorld.state "alice"
      = .ok { latestRound := 0, tokens := 1 - 1, roundSeen := some [] } ∧
    ((1 : ℚ) - 1 < 1) ∧
    GetSymmetricKey issuedWorld 1 "collection1" = .ok (demoKey, issuedWorld) := by
  refine ⟨by with_unfolding_all rfl, by norm_num, by with_unfolding_all rfl⟩

/-- C4, amended. `GetSymmetricKey` does not look at any balance: when key
material has been issued for `round` it is returned and the ledger is left
unchanged, also for a client whose balance is below 1.  The token gate sits in
`PutSymmetricKey`: issuing a key for a client whose balance is below 1 fails
with the "has no tokens" error, so nothing is stored and the balance stays. -/
theorem GetSymmetricKey_gate_at_issue (w : World) (transMap : List (String × String))
    (clientID cn : String) (round : Int) (coll : String) (cur : CurrentData)
    (key : SymmetricKey)
    (hcn : GetCNFromClientID clientID = .ok cn)
    (hcur : readCurrent w.state cn = .ok cur)
    (htokens : cur.tokens < 1)
    (hissued : w.priv.get coll (toString round) = some (encodeSymmetricKey key)) :
    GetSymmetricKey w round coll = .ok (key, w) ∧
    PutSymmetricKey w transMap clientID round coll = .error ("client " ++ cn ++ " has no tokens") ∧
    commit w (PutSymmetricKey w transMap clientID round coll) = w := by
  have hput : PutSymmetricKey w transMap clientID round coll
      = .error ("client " ++ cn ++ " has no tokens") := by
    rw [PutSymmetricKey_eq hcn hcur, if_pos htokens]
  refine ⟨GetSymmetricKey_of_get hissued, hput, ?_⟩
  rw [hput]
  rfl

theorem GetSymmetricKey_gate_at_issue_witness :
    GetSymmetricKey issuedWorld 1 "collection1" = .ok (demoKey, issuedWorld) ∧
    PutSymmetricKey issuedWorld demoTransient aliceID 1 "collection1"
      = .error ("client " ++ "alice" ++ " has no tokens") ∧
    commit issuedWorld (PutSymmetricKey issuedWorld demoTransient aliceID 1 "collection1")
      = issuedWorld :=
  GetSymmetricKey_gate_at_issue issuedWorld demoTransient aliceID "alice" 1 "collection1"
    { latestRound := 0, tokens := 1 - 1, roundSeen := some [] } demoKey
    (by rfl) (by with_unfolding_all rfl) (by norm_num) (by with_unfolding_all rfl)

/-- C5, counterexample. After the key of round 1 has been issued, bob, whose
balance is 1, fetches it: he gets the key material, and the ledger after the
fetch is the ledger before it, so his balance is still 1 and not 0. -/
theorem GetSymmetricKey_does_not_debit :
    readCurrent issuedWorld.state "bob" = .ok freshState ∧
    GetSymmetricKey issuedWorld 1 "collection1" = .ok (demoKey, issuedWorld) ∧
    readCurrent (commit issuedWorld (GetSymmetricKey issuedWorld 1 "collection1")).state "bob"
      = .ok freshState ∧
    freshState.tokens ≠ freshState.tokens - 1 := by
  refine ⟨by with_unfolding_all rfl, by with_unfolding_all rfl, by with_unfolding_all rfl,
    by norm_num [freshState]⟩

/-- C5, amended. `PutSymmetricKey` for a client whose balance is at least 1,
into a collection whose name is not empty, succeeds: it stores the transient
password and iv under `round` and takes 1 token from that client, at issue
time, leaving the balance `t` that the binary64 subtraction of 1 gives;
afterwards `GetSymmetricKey` returns exactly that password and iv and leaves
the ledger, hence every balance, unchanged. -/
theorem PutSymmetricKey_then_GetSymmetricKey (w : World) (transMap : List (String × String))
    (clientID cn : String) (round : Int) (coll : String) (cur : CurrentData) (t : ℚ)
    (hcn : GetCNFromClientID clientID = .ok cn)
    (hcur : readCurrent w.state cn = .ok cur)
    (htokens : 1 ≤ cur.tokens)
    (hcoll : coll ≠ "")
    (hdebit : debit64 cur.tokens = some t) :
    ∃ w1, PutSymmetricKey w transMap clientID round coll = .ok ((), w1) ∧
      readCurrent w1.state cn =
        .ok { latestRound := cur.latestRound, tokens := t, roundSeen := cur.roundSeen } ∧
      GetSymmetricKey w1 round coll =
        .ok ({ password := transientField transMap "password",
               iv := transientField transMap "iv" }, w1) ∧
      readCurrent (commit w1 (GetSymmetricKey w1 round coll)).state cn =
        .ok { latestRound := cur.latestRound, tokens := t, roundSeen := cur.roundSeen } := by
  have hlt : ¬ cur.tokens < 1 := not_lt.mpr htokens
  have hwf := readCurrent_wf hcur
  have hread : readCurrent (w.state.put (compositeKey "CurrentData" [cn])
      (encodeCurrentData { cur with tokens := t })) cn
      = .ok { latestRound := cur.latestRound, tokens := t, roundSeen := cur.roundSeen } :=
    readCurrent_put_self (readCurrent_ok hcur).1 ⟨hwf.1, hwf.2.1, round64_isF64 hdebit⟩
  have hget : GetSymmetricKey
      { state := w.state.put (compositeKey "CurrentData" [cn])
          (encodeCurrentData { cur with tokens := t }),
        priv := w.priv.put coll (toString round)
          (encodeSymmetricKey { password := transientField transMap "password",
                                iv := transientField transMap "iv" }) } round coll
      = .ok ({ password := transientField transMap "password",
               iv := transientField transMap "iv" },
          { state := w.state.put (compositeKey "CurrentData" [cn])
              (encodeCurrentData { cur with tokens := t }),
            priv := w.priv.put coll (toString round)
              (encodeSymmetricKey { password := transientField transMap "password",
                                    iv := transientField transMap "iv" }) }) :=
    GetSymmetricKey_of_get (PrivStore.get_put_same _ _ _ _ hcoll)
  refine ⟨{ state := w.state.put (compositeKey "CurrentData" [cn])
              (encodeCurrentData { cur with tokens := t }),
            priv := w.priv.put coll (toString round)
              (encodeSymmetricKey { password := transientField transMap "password",
                                    iv := transientField transMap "iv" }) }, ?_, hread, hget, ?_⟩
  · rw [PutSymmetricKey_eq hcn hcur, if_neg hlt, if_neg hcoll, hdebit]
  · rw [hget]
    exact hread

theorem PutSymmetricKey_then_GetSymmetricKey_witness :
    ∃ w1, PutSymmetricKey registeredWorld demoTransient aliceID 1 "collection1" = .ok ((), w1) ∧
      readCurrent w1.state "alice" =
        .ok { latestRound := freshState.latestRound, tokens := 1 - 1,
              roundSeen := freshState.roundSeen } ∧
      GetSymmetricKey w1 1 "collection1" =
        .ok ({ password := transientField demoTransient "password",
               iv := transientField demoTransient "iv" }, w1) ∧
      readCurrent (commit w1 (GetSymmetricKey w1 1 "collection1")).state "alice" =
        .ok { latestRound := freshState.latestRound, tokens := 1 - 1,
              roundSeen := freshState.roundSeen } :=
  PutSymmetricKey_then_GetSymmetricKey registeredWorld demoTransient aliceID "alice" 1
    "collection1" freshState (1 - 1) (by rfl) (by with_unfolding_all rfl) (by simp [freshState])
    (by decide) (by with_unfolding_all rfl)

theorem wrap64_of_inInt64 {n : Int} (h : inInt64 n) : wrap64 n = n := by
  unfold inInt64 at h
  unfold wrap64
  have h0 : 0 ≤ n + (2 : Int) ^ 63 := by linarith [h.1]
  have h1 : n + (2 : Int) ^ 63 < (2 : Int) ^ 64 := by
    have : (2 : Int) ^ 64 = (2 : Int) ^ 63 + (2 : Int) ^ 63 := by norm_num
    linarith [h.2]
  rw [Int.emod_eq_of_lt h0 h1]
  ring

theorem wrap64_inInt64 (n : Int) : inInt64 (wrap64 n) := by
  unfold inInt64 wrap64
  have h0 : 0 ≤ (n + (2 : Int) ^ 63) % (2 : Int) ^ 64 :=
    Int.emod_nonneg _ (by norm_num)
  have h1 : (n + (2 : Int) ^ 63) % (2 : Int) ^ 64 < (2 : Int) ^ 64 :=
    Int.emod_lt_of_pos _ (by norm_num)
  have h2 : (2 : Int) ^ 64 = (2 : Int) ^ 63 + (2 : Int) ^ 63 := by norm_num
  constructor <;> linarith

theorem roundNumber_eq (L S : Int) : roundNumber L S = wrap64 (max L S + 1) := by
  unfold roundNumber
  by_cases h : S > L
  · simp only [h, if_true]
    rw [max_eq_right (le_of_lt h)]
  · simp only [h, if_false]
    rw [max_eq_left (not_lt.mp h)]

theorem getLatestRound_ok {s : Store} {cn : String} {L : Int}
    (h : getLatestRound s cn = .ok L) :
    ∃ cur, readCurrent s cn = .ok cur ∧ cur.latestRound = L := by
  unfold readCurrent
  cases hkey : CreateCompositeKey "CurrentData" [cn] with
  | error e => simp [getLatestRound, hkey, orFail, bind, Except.bind] at h
  | ok key =>
    cases hget : s.get key with
    | none => simp [getLatestRound, hkey, hget, orFail, bind, Except.bind] at h
    | some doc =>
      cases hdec : decodeCurrentData doc with
      | error e => simp [getLatestRound, hkey, hget, hdec, orFail, bind, Except.bind] at h
      | ok cur =>
        simp [getLatestRound, hkey, hget, hdec, orFail, bind, Except.bind] at h
        exact ⟨cur, by simp [unmarshal, hget, hdec], h⟩

theorem getLatestRound_of_readCurrent {s : Store} {cn : String} {cur : CurrentData}
    (h : readCurrent s cn = .ok cur) : getLatestRound s cn = .ok cur.latestRound := by
  obtain ⟨hkey, doc, hdoc, hdec⟩ := readCurrent_ok h
  simp only [getLatestRound, hkey, hdoc, hdec, orFail, bind, Except.bind]

theorem char_eq_of_toNat_eq {a b : Char} (h : a.toNat = b.toNat) : a = b := by
  apply Char.ext
  apply UInt32.eq_of_val_eq
  exact Fin.ext h

theorem ltChars_irrefl : ∀ l : List Char, ltChars l l = false := by
  intro l
  induction l with
  | nil => rfl
  | cons a as ih => simp [ltChars, ih]

theorem ltChars_trans : ∀ a b c : List Char,
    ltChars a b = true → ltChars b c = true → ltChars a c = true := by
  intro a
  induction a with
  | nil =>
    intro b c hab hbc
    cases c with
    | nil => cases b <;> simp [ltChars] at hbc
    | cons z zs => rfl
  | cons x xs ih =>
    intro b c hab hbc
    cases b with
    | nil => simp [ltChars] at hab
    | cons y ys =>
      cases c with
      | nil => simp [ltChars] at hbc
      | cons z zs =>
        simp only [ltChars] at hab hbc ⊢
        by_cases hxy : x.toNat < y.toNat
        · by_cases hyz : y.toNat < z.toNat
          · have : x.toNat < z.toNat := by omega
            simp [this]
          · simp only [hyz, if_false] at hbc
            by_cases hzy : z.toNat < y.toNat
            · simp [hzy] at hbc
            · have : x.toNat < z.toNat := by omega
              simp [this]
        · simp only [hxy, if_false] at hab
          by_cases hyx : y.toNat < x.toNat
          · simp [hyx] at hab
          · simp only [hyx, if_false] at hab
            by_cases hyz : y.toNat < z.toNat
            · have : x.toNat < z.toNat := by omega
              simp [this]
            · simp only [hyz, if_false] at hbc
              by_cases hzy : z.toNat < y.toNat
              · simp [hzy] at hbc
              · simp only [hzy, if_false] at hbc
                have h1 : ¬ x.toNat < z.toNat := by omega
                have h2 : ¬ z.toNat < x.toNat := by omega
                simp only [h1, h2, if_false]
                exact ih ys zs hab hbc

theorem ltChars_total : ∀ a b : List Char,
    ltChars a b = false → a ≠ b → ltChars b a = true := by
  intro a
  induction a with
  | nil =>
    intro b hab hne
    cases b with
    | nil => exact absurd rfl hne
    | cons y ys => simp [ltChars] at hab
  | cons x xs ih =>
    intro b hab hne
    cases b with
    | nil => rfl
    | cons y ys =>
      simp only [ltChars] at hab ⊢
      by_cases hxy : x.toNat < y.toNat
      · simp [hxy] at hab
      · simp only [hxy, if_false] at hab
        by_cases hyx : y.toNat < x.toNat
        · simp [hyx]
        · simp only [hyx, if_false] at hab ⊢
          have hxyeq : x = y := char_eq_of_toNat_eq (by omega)
          subst hxyeq
          simp only [hxy, if_false]
          apply ih ys hab
          intro h
          exact hne (by rw [h])

theorem keyLt_irrefl (k : String) : keyLt k k = false := ltChars_irrefl _

theorem keyLt_trans {a b c : String} (h1 : keyLt a b = true) (h2 : keyLt b c = true) :
    keyLt a c = true := ltChars_trans _ _ _ h1 h2

theorem keyLt_total {a b : String} (h1 : keyLt a b = false) (h2 : a ≠ b) :
    keyLt b a = true := by
  apply ltChars_total _ _ h1
  intro h
  exact h2 (String.ext h)

theorem setKey_mem {k : String} {v : Json} : ∀ (acc : List (String × Json)) (p : String × Json),
    p ∈ setKey k v acc → p = (k, v) ∨ p ∈ acc := by
  intro acc
  induction acc with
  | nil =>
    intro p h
    simp only [setKey, List.mem_singleton] at h
    exact Or.inl h
  | cons q rest ih =>
    intro p h
    obtain ⟨k', v'⟩ := q
    simp only [setKey] at h
    split at h
    · rcases List.mem_cons.mp h with h | h
      · exact Or.inl h
      · exact Or.inr h
    · split at h
      · rcases List.mem_cons.mp h with h | h
        · exact Or.inl h
        · exact Or.inr (List.mem_cons_of_mem _ h)
      · rcases List.mem_cons.mp h with h | h
        · exact Or.inr (by rw [h]; exact List.mem_cons_self _ _)
        · rcases ih p h with h | h
          · exact Or.inl h
          · exact Or.inr (List.mem_cons_of_mem _ h)

theorem setKey_sorted (k : String) (v : Json) : ∀ acc : List (String × Json),
    SortedFields acc → SortedFields (setKey k v acc) := by
  intro acc
  induction acc with
  | nil => intro _; simp [setKey, SortedFields]
  | cons q rest ih =>
    intro h
    obtain ⟨k', v'⟩ := q
    unfold SortedFields at h
    rw [List.pairwise_cons] at h
    simp only [setKey]
    split
    · rename_i hlt
      unfold SortedFields
      rw [List.pairwise_cons]
      refine ⟨?_, List.pairwise_cons.mpr h⟩
      intro p hp
      rcases List.mem_cons.mp hp with hp | hp
      · rw [hp]; exact hlt
      · exact keyLt_trans hlt (h.1 p hp)
    · split
      · rename_i hkk
        unfold SortedFields
        rw [List.pairwise_cons]
        refine ⟨?_, h.2⟩
        intro p hp
        rw [hkk]
        exact h.1 p hp
      · rename_i hnlt hne
        unfold SortedFields
        rw [List.pairwise_cons]
        refine ⟨?_, ih h.2⟩
        intro p hp
        rcases setKey_mem rest p hp with hp | hp
        · rw [hp]
          exact keyLt_total (by simpa using hnlt) hne
        · exact h.1 p hp

theorem setKey_append (k : String) (v : Json) : ∀ acc : List (String × Json),
    (∀ p ∈ acc, keyLt p.1 k = true) → setKey k v acc = acc ++ [(k, v)] := by
  intro acc
  induction acc with
  | nil => intro _; rfl
  | cons q rest ih =>
    intro h
    obtain ⟨k', v'⟩ := q
    have hq : keyLt k' k = true := h (k', v') (List.mem_cons_self _ _)
    have hnlt : ¬ keyLt k k' = true := by
      intro hlt
      have := keyLt_trans hlt hq
      rw [keyLt_irrefl] at this
      cases this
    have hne : k ≠ k' := by
      intro he
      rw [he, keyLt_irrefl] at hq
      cases hq
    have hf : keyLt k k' = false := by simpa using hnlt
    simp only [setKey, hf, Bool.false_eq_true, hne, if_false, List.cons_append]
    rw [ih (fun p hp => h p (List.mem_cons_of_mem _ hp))]

theorem normFields_sorted_id : ∀ (gs acc : List (String × Json)),
    SortedFields (acc ++ gs) → (∀ p ∈ gs, Normal p.2) → normFields gs acc = .ok (acc ++ gs) := by
  intro gs
  induction gs with
  | nil => intro acc _ _; simp [normFields]
  | cons q rest ih =>
    intro acc hs hn
    obtain ⟨k, v⟩ := q
    have hv : normValue v = .ok v := hn (k, v) (List.mem_cons_self _ _)
    have hlt : ∀ p ∈ acc, keyLt p.1 k = true := by
      intro p hp
      unfold SortedFields at hs
      rw [List.pairwise_append] at hs
      exact hs.2.2 p hp (k, v) (List.mem_cons_self _ _)
    simp only [normFields, hv]
    rw [setKey_append k v acc hlt]
    have hs' : SortedFields ((acc ++ [(k, v)]) ++ rest) := by
      rw [List.append_assoc]
      exact hs
    rw [ih (acc ++ [(k, v)]) hs' (fun p hp => hn p (List.mem_cons_of_mem _ hp))]
    rw [List.append_assoc]
    rfl

mutual
theorem normValue_idem : ∀ (j j' : Json), normValue j = .ok j' → Normal j'
  | .null, j', h => by
    simp only [normValue, Except.ok.injEq] at h
    rw [← h]; rfl
  | .bool b, j', h => by
    simp only [normValue, Except.ok.injEq] at h
    rw [← h]; rfl
  | .str s, j', h => by
    simp only [normValue, Except.ok.injEq] at h
    rw [← h]; rfl
  | .num q, j', h => by
    simp only [normValue] at h
    split at h
    · rename_i r hr
      simp only [Except.ok.injEq] at h
      rw [← h]
      unfold Normal
      simp only [normValue, round64_self (round64_isF64 hr)]
    · cases h
  | .arr xs, j', h => by
    simp only [normValue] at h
    cases hl : normList xs with
    | error e => rw [hl] at h; cases h
    | ok ys =>
      rw [hl] at h
      simp only [Except.ok.injEq] at h
      rw [← h]
      unfold Normal
      simp only [normValue, normList_idem xs ys hl]
  | .obj fs, j', h => by
    simp only [normValue] at h
    cases hl : normFields fs [] with
    | error e => rw [hl] at h; cases h
    | ok gs =>
      rw [hl] at h
      simp only [Except.ok.injEq] at h
      rw [← h]
      have hg := normFields_idem fs [] gs hl (by simp [SortedFields])
        (fun p hp => (by cases hp))
      unfold Normal
      have := normFields_sorted_id gs [] (by simpa using hg.1) hg.2
      simp only [normValue, this, List.nil_append]
theorem normList_idem : ∀ (xs ys : List Json), normList xs = .ok ys → normList ys = .ok ys
  | [], ys, h => by
    simp only [normList, Except.ok.injEq] at h
    rw [← h]; rfl
  | x :: xs, ys, h => by
    simp only [normList] at h
    cases hx : normValue x with
    | error e => rw [hx] at h; cases h
    | ok y =>
      rw [hx] at h
      simp only at h
      cases hl : normList xs with
      | error e => rw [hl] at h; cases h
      | ok ys' =>
        rw [hl] at h
        simp only [Except.ok.injEq] at h
        rw [← h]
        have h1 : normValue y = .ok y := normValue_idem x y hx
        simp only [normList, h1, normList_idem xs ys' hl]
theorem normFields_idem : ∀ (fs acc gs : List (String × Json)), normFields fs acc = .ok gs →
    SortedFields acc → (∀ p ∈ acc, Normal p.2) → SortedFields gs ∧ ∀ p ∈ gs, Normal p.2
  | [], acc, gs, h, hs, hn => by
    simp only [normFields, Except.ok.injEq] at h
    rw [← h]
    exact ⟨hs, hn⟩
  | (k, v) :: rest, acc, gs, h, hs, hn => by
    simp only [normFields] at h
    cases hv : normValue v with
    | error e => rw [hv] at h; cases h
    | ok y =>
      rw [hv] at h
      simp only at h
      have hy : Normal y := normValue_idem v y hv
      refine normFields_idem rest (setKey k y acc) gs h (setKey_sorted k y acc hs) ?_
      intro p hp
      rcases setKey_mem acc p hp with hp | hp
      · rw [hp]; exact hy
      · exact hn p hp
end

theorem intoAny_normal (v old a : Json) (h : intoAny v old = .ok a) : Normal a :=
  normValue_idem v a h

theorem intoLayer_normal (v : Json) (old l : Layer) (hold : old.normal)
    (h : intoLayer v old = .ok l) : l.normal := by
  cases v with
  | null => simp only [intoLayer, Except.ok.injEq] at h; rw [← h]; exact hold
  | obj fs =>
    simp only [intoLayer] at h
    cases hw : applyAll intoAny (Json.values fs "weights") old.weights with
    | error e => rw [hw] at h; cases h
    | ok w =>
      rw [hw] at h
      simp only at h
      cases hb : applyAll intoAny (Json.values fs "biases") old.biases with
      | error e => rw [hb] at h; cases h
      | ok b =>
        rw [hb] at h
        simp only [Except.ok.injEq] at h
        rw [← h]
        exact ⟨applyAll_inv Normal (fun v a a' _ ha => intoAny_normal v a a' ha) _ _ w
            hold.1 hw,
          applyAll_inv Normal (fun v a a' _ ha => intoAny_normal v a a' ha) _ _ b hold.2 hb⟩
  | bool b => simp [intoLayer] at h
  | num q => simp [intoLayer] at h
  | str s => simp [intoLayer] at h
  | arr xs => simp [intoLayer] at h

theorem zeroLayer_normal : Layer.normal { weights := Json.null, biases := Json.null } :=
  ⟨rfl, rfl⟩

theorem intoModel_all (v : Json) (old b : Buf Layer) (hold : Buf.all Layer.normal old)
    (h : intoModel v old = .ok b) : Buf.all Layer.normal b := by
  cases v with
  | null => simp only [intoModel, Except.ok.injEq] at h; rw [← h]; exact hold
  | obj fs =>
    simp only [intoModel] at h
    exact applyAll_inv (Buf.all Layer.normal)
      (fun v a a' => intoSlice_all Layer.normal zeroLayer_normal intoLayer_normal v a a')
      _ old b hold h
  | bool b => simp [intoModel] at h
  | num q => simp [intoModel] at h
  | str s => simp [intoModel] at h
  | arr xs => simp [intoModel] at h

theorem decodeModel_normal {j : Json} {m : NeuralNetworkModel}
    (h : decodeModel j = .ok m) : m.normal := by
  unfold decodeModel at h
  cases hb : intoModel j Buf.nil with
  | error e => rw [hb] at h; cases h
  | ok b =>
    rw [hb] at h
    simp only [Except.ok.injEq] at h
    rw [← h]
    exact (intoModel_all j Buf.nil b (Buf.all_nil _) hb).2

theorem intoLayer_encode (l old : Layer) (h : l.normal) :
    intoLayer (encodeLayer l) old = .ok l := by
  have h1 : Json.values [("weights", l.weights), ("biases", l.biases)] "weights"
      = [l.weights] := rfl
  have h2 : Json.values [("weights", l.weights), ("biases", l.biases)] "biases"
      = [l.biases] := rfl
  have hw : normValue l.weights = .ok l.weights := h.1
  have hb : normValue l.biases = .ok l.biases := h.2
  simp only [encodeLayer, intoLayer, h1, h2, applyAll, intoAny, hw, hb]

theorem intoElems_layer_map : ∀ (ls : List Layer) (backing : List Layer),
    (∀ l ∈ ls, l.normal) →
    intoElems intoLayer { weights := Json.null, biases := Json.null } (ls.map encodeLayer)
      backing = .ok ls := by
  intro ls
  induction ls with
  | nil => intro backing _; simp [intoElems]
  | cons l rest ih =>
    intro backing h
    have hl : l.normal := h l (List.mem_cons_self _ _)
    simp only [List.map, intoElems, intoLayer_encode l _ hl,
      ih backing.tail (fun x hx => h x (List.mem_cons_of_mem _ hx))]

theorem intoModel_encode (m : NeuralNetworkModel) (h : m.normal) :
    ∃ b, intoModel (encodeModel m) Buf.nil = .ok b ∧ b.slice = m.layers := by
  obtain ⟨layers⟩ := m
  have h1 : ∀ x : Json, Json.values [("layers", x)] "layers" = [x] := fun _ => rfl
  cases layers with
  | none => exact ⟨_, rfl, rfl⟩
  | some ls =>
    cases ls with
    | nil => exact ⟨_, rfl, rfl⟩
    | cons l rest =>
      have he := intoElems_layer_map (l :: rest) [] h
      simp only [List.map] at he
      refine ⟨{ backing := (l :: rest) ++ ([] : List Layer).drop (l :: rest).length,
                slice := some (l :: rest) }, ?_, rfl⟩
      simp only [encodeModel, intoModel, h1, applyAll, encodeSlice, List.map, intoSlice,
        Buf.nil, he]

theorem decodeModel_encode (m : NeuralNetworkModel) (h : m.normal) :
    decodeModel (encodeModel m) = .ok m := by
  obtain ⟨b, hb, hs⟩ := intoModel_encode m h
  simp only [decodeModel, hb, hs]

theorem decodeClientData_wf {j : Json} {c : ClientData}
    (h : decodeClientData j = .ok c) : c.wf := by
  cases j with
  | null =>
    simp only [decodeClientData, Except.ok.injEq] at h
    subst h
    exact ⟨inInt64_zero, isF64_zero, fun l hl => (by cases hl)⟩
  | obj fs =>
    simp only [decodeClientData] at h
    cases hc : applyAll intoString (Json.values fs "clientID") "" with
    | error e => rw [hc] at h; cases h
    | ok cid =>
      rw [hc] at h
      simp only at h
      cases hd : applyAll intoModel (Json.values fs "data") Buf.nil with
      | error e => rw [hd] at h; cases h
      | ok d =>
        rw [hd] at h
        simp only at h
        cases hr : applyAll intoInt (Json.values fs "round") 0 with
        | error e => rw [hr] at h; cases h
        | ok r =>
          rw [hr] at h
          simp only at h
          cases he : applyAll intoFloat (Json.values fs "epsilon") 0 with
          | error e => rw [he] at h; cases h
          | ok eps =>
            rw [he] at h
            simp only [Except.ok.injEq] at h
            subst h
            refine ⟨?_, ?_, ?_⟩
            · exact applyAll_inv inInt64 (fun v a a' => intoInt_inInt64 v a a') _ 0 r
                inInt64_zero hr
            · exact applyAll_inv (fun q => isF64 q = true)
                (fun v a a' => intoFloat_isF64 v a a') _ 0 eps isF64_zero he
            · exact (applyAll_inv (Buf.all Layer.normal) intoModel_all _ Buf.nil d
                (Buf.all_nil _) hd).2
  | bool b => simp [decodeClientData] at h
  | num q => simp [decodeClientData] at h
  | str s => simp [decodeClientData] at h
  | arr xs => simp [decodeClientData] at h

theorem decodeClientData_encode {c : ClientData} (h : c.wf) :
    decodeClientData (encodeClientData c) = .ok c := by
  have h1 : Json.values [("clientID", Json.str c.clientID), ("data", encodeModel c.data),
      ("round", Json.num c.round), ("epsilon", Json.num c.epsilon)] "clientID"
      = [Json.str c.clientID] := rfl
  have h2 : Json.values [("clientID", Json.str c.clientID), ("data", encodeModel c.data),
      ("round", Json.num c.round), ("epsilon", Json.num c.epsilon)] "data"
      = [encodeModel c.data] := rfl
  have h3 : Json.values [("clientID", Json.str c.clientID), ("data", encodeModel c.data),
      ("round", Json.num c.round), ("epsilon", Json.num c.epsilon)] "round"
      = [Json.num c.round] := rfl
  have h4 : Json.values [("clientID", Json.str c.clientID), ("data", encodeModel c.data),
      ("round", Json.num c.round), ("epsilon", Json.num c.epsilon)] "epsilon"
      = [Json.num c.epsilon] := rfl
  obtain ⟨b, hb, hs⟩ := intoModel_encode c.data h.2.2
  simp only [encodeClientData, decodeClientData, h1, h2, h3, h4, applyAll, intoString, hb, hs,
    intoInt_num h.1, intoFloat_num h.2.1]

theorem unmarshal_decodeModel_normal {data : Option Json} {m : NeuralNetworkModel}
    (h : unmarshal decodeModel data = .ok m) : m.normal := by
  cases data with
  | none => simp [unmarshal] at h
  | some j => exact decodeModel_normal h

/-- What a successful `PutData` has read and what it has written. -/
theorem PutData_ok {w w' : World} {clientID cn : String} {data : Option Json} {eps : ℚ}
    {L S : Int}
    (hcn : GetCNFromClientID clientID = .ok cn)
    (hL : getLatestRound w.state cn = .ok L)
    (hS : getLatestRound w.state "appserver" = .ok S)
    (hok : PutData w clientID data eps = .ok ((), w')) :
    ∃ key0 prev model key cur,
      getKeyFromCN cn L = .ok key0 ∧
      unmarshal decodeClientData (w.state.get key0) = .ok prev ∧
      unmarshal decodeModel data = .ok model ∧
      getKeyFromCN cn (roundNumber L S) = .ok key ∧
      readCurrent w.state cn = .ok cur ∧ cur.latestRound = L ∧
      w' = { w with state := ((w.state.put key (encodeClientData
              { prev with data := model, round := roundNumber L S, epsilon := eps })).put
              (compositeKey "CurrentData" [cn])
              (encodeCurrentData { cur with latestRound := roundNumber L S })) } ∧
      isF64 eps = true := by
  obtain ⟨cur, hcur, hcurL⟩ := getLatestRound_ok hL
  obtain ⟨hkeyC, doc, hdoc, hdec⟩ := readCurrent_ok hcur
  cases hf : isF64 eps with
  | false =>
    cases hk0 : getKeyFromCN cn L with
    | error e => simp [PutData, hcn, hL, hk0, orFail, bind, Except.bind] at hok
    | ok key0 =>
      cases hprev : unmarshal decodeClientData (w.state.get key0) with
      | error e => simp [PutData, hcn, hL, hk0, hprev, orFail, bind, Except.bind] at hok
      | ok prev =>
        cases hmodel : unmarshal decodeModel data <;>
        simp [PutData, hcn, hL, hS, hk0, hprev, hmodel, hf, orFail, bind, Except.bind] at hok
  | true =>
  cases hk0 : getKeyFromCN cn L with
  | error e => simp [PutData, hcn, hL, hk0, orFail, bind, Except.bind] at hok
  | ok key0 =>
    cases hprev : unmarshal decodeClientData (w.state.get key0) with
    | error e => simp [PutData, hcn, hL, hk0, hprev, orFail, bind, Except.bind] at hok
    | ok prev =>
      cases hmodel : unmarshal decodeModel data with
      | error e =>
        simp [PutData, hcn, hL, hS, hk0, hprev, hmodel, orFail, bind, Except.bind] at hok
      | ok model =>
        cases hk : getKeyFromCN cn (roundNumber L S) with
        | error e =>
          simp [PutData, hcn, hL, hS, hk0, hprev, hmodel, hk, hf, orFail, bind, Except.bind] at hok
        | ok key =>
          have hcurU : unmarshal decodeCurrentData (w.state.get (compositeKey "CurrentData" [cn]))
              = .ok cur := by
            simp only [hdoc, unmarshal, hdec]
          simp only [PutData, hcn, hL, hS, hk0, hprev, hmodel, hk, hkeyC, hcurU, hf, orFail,
            bind, Except.bind, Except.ok.injEq, Prod.mk.injEq, true_and, Bool.true_eq_false,
            if_false] at hok
          exact ⟨key0, prev, model, key, cur, rfl, hprev, rfl, rfl, hcur, hcurL, hok.symm, rfl⟩

/-- C6. Round arbitration: with latest rounds `L` of the caller and `S` of
"appserver", a successful `PutData` stores the update under the round
`max L S + 1` (as a Go `int`, which is that number unless it overflows 64
bits) and sets the caller's latest round to it. -/
theorem PutData_round_arbitration (w w' : World) (clientID cn : String) (data : Option Json)
    (eps : ℚ) (L S : Int)
    (hcn : GetCNFromClientID clientID = .ok cn)
    (hL : getLatestRound w.state cn = .ok L)
    (hS : getLatestRound w.state "appserver" = .ok S)
    (hok : PutData w clientID data eps = .ok ((), w')) :
    getLatestRound w'.state cn = .ok (wrap64 (max L S + 1)) ∧
    (∃ record, getData w'.state cn (wrap64 (max L S + 1)) = .ok record ∧
      record.round = wrap64 (max L S + 1) ∧
      unmarshal decodeModel data = .ok record.data ∧ record.epsilon = eps) ∧
    (max L S < 2 ^ 63 - 1 → wrap64 (max L S + 1) = max L S + 1) := by
  obtain ⟨key0, prev, model, key, cur, _, _, hmodel, hk, hcur, hcurL, hw', heps⟩ :=
    PutData_ok hcn hL hS hok
  rw [roundNumber_eq] at hk hw'
  have hwf := readCurrent_wf hcur
  have hnormal : model.normal := unmarshal_decodeModel_normal hmodel
  have hstate : w'.state = (w.state.put key (encodeClientData
      { prev with data := model, round := wrap64 (max L S + 1), epsilon := eps })).put
      (compositeKey "CurrentData" [cn])
      (encodeCurrentData { cur with latestRound := wrap64 (max L S + 1) }) := by
    rw [hw']
  refine ⟨?_, ?_, ?_⟩
  · have hwf' : CurrentData.wf { cur with latestRound := wrap64 (max L S + 1) } :=
      ⟨wrap64_inInt64 _, hwf.2⟩
    have := readCurrent_put_self (s := w.state.put key (encodeClientData
      { prev with data := model, round := wrap64 (max L S + 1), epsilon := eps }))
      (readCurrent_ok hcur).1 hwf'
    rw [hstate]
    exact getLatestRound_of_readCurrent this
  · refine ⟨{ prev with data := model, round := wrap64 (max L S + 1), epsilon := eps },
      ?_, rfl, hmodel, rfl⟩
    have hne := currentKey_ne_getKeyFromCN cn hk
    rw [hstate]
    simp only [getData, hk, orFail, bind, Except.bind, Store.get_put_of_ne _ _ _ _ hne,
      Store.get_put_self]
    rw [decodeClientData_encode ⟨wrap64_inInt64 _, heps, hnormal⟩]
  · intro hmax
    apply wrap64_of_inInt64
    have hLr : inInt64 L := hcurL ▸ hwf.1
    unfold inInt64 at hLr ⊢
    constructor
    · have : L ≤ max L S := le_max_left _ _
      linarith [hLr.1]
    · linarith

theorem PutData_round_arbitration_witness :
    getLatestRound submittedWorld.state "alice" = .ok (wrap64 (max 0 0 + 1)) ∧
    (∃ record, getData submittedWorld.state "alice" (wrap64 (max 0 0 + 1)) = .ok record ∧
      record.round = wrap64 (max 0 0 + 1) ∧
      unmarshal decodeModel (some demoModel) = .ok record.data ∧ record.epsilon = 10) ∧
    ((max 0 0 : Int) < 2 ^ 63 - 1 → wrap64 (max 0 0 + 1) = max 0 0 + 1) :=
  PutData_round_arbitration registeredWorld submittedWorld aliceID "alice" (some demoModel) 10
    0 0 (by rfl) (by rfl) (by rfl) (by rfl)

theorem getData_of_unmarshal {s : Store} {cn : String} {round : Int} {key : String}
    {c : ClientData}
    (hkey : getKeyFromCN cn round = .ok key)
    (h : unmarshal decodeClientData (s.get key) = .ok c) : getData s cn round = .ok c := by
  cases hget : s.get key with
  | none => rw [hget] at h; simp [unmarshal] at h
  | some doc =>
    rw [hget] at h
    simp only [unmarshal] at h
    simp only [getData, hkey, hget, h, orFail, bind, Except.bind]

/-- C7. Frame of a successful `PutData`: the record of the new round is
written under the caller's round key (the `Client` key unless the caller is
"appserver") with the submitted payload, the round and the privacy budget;
the caller's state gets the new latest round and keeps its balance and its
consumed rounds; every other key of the world state and the private
collections are unchanged. -/
theorem PutData_frame (w w' : World) (clientID cn : String) (data : Option Json)
    (eps : ℚ) (L S : Int)
    (hcn : GetCNFromClientID clientID = .ok cn)
    (hL : getLatestRound w.state cn = .ok L)
    (hS : getLatestRound w.state "appserver" = .ok S)
    (hok : PutData w clientID data eps = .ok ((), w')) :
    ∃ key prev model cur,
      getKeyFromCN cn (wrap64 (max L S + 1)) = .ok key ∧
      (cn ≠ "appserver" → key = compositeKey "Client" [toString (wrap64 (max L S + 1)), cn]) ∧
      getData w.state cn L = .ok prev ∧
      unmarshal decodeModel data = .ok model ∧
      readCurrent w.state cn = .ok cur ∧
      w'.state.get key = some (encodeClientData
        { clientID := prev.clientID, data := model, round := wrap64 (max L S + 1),
          epsilon := eps }) ∧
      readCurrent w'.state cn =
        .ok { latestRound := wrap64 (max L S + 1), tokens := cur.tokens,
              roundSeen := cur.roundSeen } ∧
      (∀ k, k ≠ key → k ≠ compositeKey "CurrentData" [cn] → w'.state.get k = w.state.get k) ∧
      w'.priv = w.priv := by
  obtain ⟨key0, prev, model, key, cur, hk0, hprev, hmodel, hk, hcur, _, hw', _⟩ :=
    PutData_ok hcn hL hS hok
  rw [roundNumber_eq] at hk hw'
  have hwf := readCurrent_wf hcur
  have hstate : w'.state = (w.state.put key (encodeClientData
      { prev with data := model, round := wrap64 (max L S + 1), epsilon := eps })).put
      (compositeKey "CurrentData" [cn])
      (encodeCurrentData { cur with latestRound := wrap64 (max L S + 1) }) := by
    rw [hw']
  have hne := currentKey_ne_getKeyFromCN cn hk
  refine ⟨key, prev, model, cur, hk, ?_, getData_of_unmarshal hk0 hprev, hmodel, hcur,
    ?_, ?_, ?_, ?_⟩
  · intro hc
    have := getKeyFromCN_ok hk
    simpa [hc] using this
  · rw [hstate, Store.get_put_of_ne _ _ _ _ hne, Store.get_put_self]
  · rw [hstate]
    exact readCurrent_put_self (readCurrent_ok hcur).1 ⟨wrap64_inInt64 _, hwf.2⟩
  · intro k hk1 hk2
    rw [hstate, Store.get_put_of_ne _ _ _ _ hk2, Store.get_put_of_ne _ _ _ _ hk1]
  · rw [hw']

theorem PutData_frame_witness :
    ∃ key prev model cur,
      getKeyFromCN "alice" (wrap64 (max 0 0 + 1)) = .ok key ∧
      ("alice" ≠ "appserver" →
        key = compositeKey "Client" [toString (wrap64 (max 0 0 + 1)), "alice"]) ∧
      getData registeredWorld.state "alice" 0 = .ok prev ∧
      unmarshal decodeModel (some demoModel) = .ok model ∧
      readCurrent registeredWorld.state "alice" = .ok cur ∧
      submittedWorld.state.get key = some (encodeClientData
        { clientID := prev.clientID, data := model, round := wrap64 (max 0 0 + 1),
          epsilon := 10 }) ∧
      readCurrent submittedWorld.state "alice" =
        .ok { latestRound := wrap64 (max 0 0 + 1), tokens := cur.tokens,
              roundSeen := cur.roundSeen } ∧
      (∀ k, k ≠ key → k ≠ compositeKey "CurrentData" ["alice"] →
        submittedWorld.state.get k = registeredWorld.state.get k) ∧
      submittedWorld.priv = registeredWorld.priv :=
  PutData_frame registeredWorld submittedWorld aliceID "alice" (some demoModel) 10
    0 0 (by rfl) (by rfl) (by rfl) (by rfl)

/-- C8, counterexample. Alice has submitted for round 1 and is the sampler's
selection for round 1, yet after the server's `PutGlobalWeights` for round 1
her balance is the 1 it was before: nothing has been credited. -/
theorem PutGlobalWeights_credits_nobody :
    PutGlobalWeights submittedWorld serverID "agg1" 1 = .ok ((), publishedWorld) ∧
    SelectSubSet (fun _ _ _ => 0) publishedWorld.state 1 42 1
      = .ok [compositeKey "Client" ["1", "alice"]] ∧
    readCurrent submittedWorld.state "alice"
      = .ok { latestRound := 1, tokens := 1, roundSeen := some [] } ∧
    readCurrent publishedWorld.state "alice"
      = .ok { latestRound := 1, tokens := 1, roundSeen := some [] } := by
  refine ⟨by rfl, by rfl, by rfl, by rfl⟩

/-- C8, amended. A successful `PutGlobalWeights` stores the payload and the
round under the caller's round key and changes nothing else: every other key
of the world state, every participant state (so every balance) and the
private collections are as before. -/
theorem PutGlobalWeights_frame (w : World) (serverID cn data : String) (round : Int)
    (key : String)
    (hcn : GetCNFromClientID serverID = .ok cn)
    (hkey : getKeyFromCN cn round = .ok key) :
    ∃ w', PutGlobalWeights w serverID data round = .ok ((), w') ∧
      w'.state.get key = some (encodeServerData { data := data, round := round }) ∧
      (∀ k, k ≠ key → w'.state.get k = w.state.get k) ∧
      (∀ name, readCurrent w'.state name = readCurrent w.state name) ∧
      w'.priv = w.priv := by
  refine ⟨{ w with state := w.state.put key (encodeServerData { data := data, round := round }) },
    ?_, ?_, ?_, ?_, rfl⟩
  · simp only [PutGlobalWeights, hcn, hkey, orFail, bind, Except.bind]
  · exact Store.get_put_self _ _ _
  · intro k hk
    exact Store.get_put_of_ne _ _ _ _ hk
  · intro name
    have hne := currentKey_ne_getKeyFromCN name hkey
    unfold readCurrent
    cases hc : CreateCompositeKey "CurrentData" [name] with
    | error e => rfl
    | ok ck =>
      have hck := CreateCompositeKey_eq_ok hc
      subst hck
      simp only [Store.get_put_of_ne _ _ _ _ (Ne.symm hne)]

theorem PutGlobalWeights_frame_witness :
    ∃ w', PutGlobalWeights submittedWorld serverID "agg1" 1 = .ok ((), w') ∧
      w'.state.get (compositeKey "Server" ["1", "appserver"])
        = some (encodeServerData { data := "agg1", round := 1 }) ∧
      (∀ k, k ≠ compositeKey "Server" ["1", "appserver"] →
        w'.state.get k = submittedWorld.state.get k) ∧
      (∀ name, readCurrent w'.state name = readCurrent submittedWorld.state name) ∧
      w'.priv = submittedWorld.priv :=
  PutGlobalWeights_frame submittedWorld serverID "appserver" "agg1" 1
    (compositeKey "Server" ["1", "appserver"]) (by rfl) (by rfl)

/-- The record that `PutGlobalWeights` writes does not decode as the record
type `getData` reads: its `data` field is a JSON string, not a model. -/
theorem decodeClientData_encodeServerData (d : ServerData) :
    ∃ e, decodeClientData (encodeServerData d) = .error e := by
  have h1 : Json.values [("data", Json.str d.data), ("round", Json.num d.round)] "clientID"
      = [] := rfl
  have h2 : Json.values [("data", Json.str d.data), ("round", Json.num d.round)] "data"
      = [Json.str d.data] := rfl
  exact ⟨"json: cannot unmarshal into Go value of type main.NeuralNetworkModel",
    by simp only [encodeServerData, decodeClientData, h1, h2, applyAll, intoModel]⟩

/-- After a publication by "appserver", `GetResult` for the published round
fails for every caller. -/
theorem GetResult_after_PutGlobalWeights (w w' : World) (serverID data clientID : String)
    (round : Int)
    (hcn : GetCNFromClientID serverID = .ok "appserver")
    (hok : PutGlobalWeights w serverID data round = .ok ((), w')) :
    ∃ e, GetResult w' clientID round = .error e := by
  cases hkey : getKeyFromCN "appserver" round with
  | error e => simp [PutGlobalWeights, hcn, hkey, orFail, bind, Except.bind] at hok
  | ok key =>
    simp only [PutGlobalWeights, hcn, hkey, orFail, bind, Except.bind, Except.ok.injEq,
      Prod.mk.injEq, true_and] at hok
    obtain ⟨e, he⟩ := decodeClientData_encodeServerData { data := data, round := round }
    have hdata : getData w'.state "appserver" round = .error "failed to unmarshal client data" := by
      rw [← hok]
      simp only [getData, hkey, orFail, bind, Except.bind, Store.get_put_self, he]
    cases hc : GetCNFromClientID clientID with
    | error e' =>
      exact ⟨"failed to get CN from client ID",
        by simp only [GetResult, hc, orFail, bind, Except.bind]⟩
    | ok c =>
      exact ⟨"failed to get server data",
        by simp only [GetResult, hc, hdata, orFail, bind, Except.bind]⟩

/-- C10. The server publishes `agg1` for round 1; alice is registered and
has balance 1; her `GetResult` for round 1 fails, because the published
record does not decode. -/
theorem GetResult_published_round_fails :
    PutGlobalWeights submittedWorld serverID "agg1" 1 = .ok ((), publishedWorld) ∧
    readCurrent publishedWorld.state "alice"
      = .ok { latestRound := 1, tokens := 1, roundSeen := some [] } ∧
    GetResult publishedWorld aliceID 1 = .error "failed to get server data" := by
  refine ⟨by rfl, by rfl, by rfl⟩

theorem currentKey_injective {cn cn' : String}
    (h : compositeKey "CurrentData" [cn] = compositeKey "CurrentData" [cn']) : cn = cn' := by
  have hdata := congrArg String.data h
  simp only [compositeKey, List.foldr, List.cons.injEq, true_and, List.append_cancel_left_eq]
    at hdata
  have h2 : cn.data = cn'.data := List.append_cancel_right hdata
  exact String.ext h2

/-- The effect of one iteration of the loop of `GetRoundData`. -/
theorem creditStep_ok {s : Store} {round : Int} {acc acc1 : List NeuralNetworkModel × Store}
    {key : String} (h : creditStep s round acc key = .ok acc1) :
    ∃ cd, unmarshal decodeClientData (s.get key) = .ok cd ∧
      ((cd.round ≠ round ∧ acc1 = acc) ∨
       (cd.round = round ∧ ∃ cn cur t, GetCNFromClientID cd.clientID = .ok cn ∧
          readCurrent s cn = .ok cur ∧
          credit64 cur.tokens cd.epsilon = some t ∧
          acc1 = (acc.1 ++ [cd.data], acc.2.put (compositeKey "CurrentData" [cn])
            (encodeCurrentData { cur with tokens := t })))) := by
  cases hcd : unmarshal decodeClientData (s.get key) with
  | error e => simp [creditStep, hcd, orFail, bind, Except.bind] at h
  | ok cd =>
    refine ⟨cd, rfl, ?_⟩
    by_cases hr : cd.round = round
    · right
      refine ⟨hr, ?_⟩
      cases hcn : GetCNFromClientID cd.clientID with
      | error e => simp [creditStep, hcd, hr, hcn, orFail, bind, Except.bind] at h
      | ok cn =>
        cases hkey : CreateCompositeKey "CurrentData" [cn] with
        | error e => simp [creditStep, hcd, hr, hcn, hkey, orFail, bind, Except.bind] at h
        | ok ck =>
          have hck := CreateCompositeKey_eq_ok hkey
          subst hck
          cases hcur : unmarshal decodeCurrentData (s.get (compositeKey "CurrentData" [cn])) with
          | error e =>
            simp [creditStep, hcd, hr, hcn, hkey, hcur, orFail, bind, Except.bind] at h
          | ok cur =>
            cases ht : credit64 cur.tokens cd.epsilon with
            | none =>
              simp [creditStep, hcd, hr, hcn, hkey, hcur, ht, orFail, bind, Except.bind] at h
            | some t =>
              simp only [creditStep, hcd, hr, hcn, hkey, hcur, ht, orFail, bind, Except.bind,
                if_true, Except.ok.injEq] at h
              refine ⟨cn, cur, t, rfl, ?_, ht, h.symm⟩
              simp only [readCurrent, hkey, hcur]
    · left
      simp only [creditStep, hcd, hr, orFail, bind, Except.bind, if_false,
        Except.ok.injEq] at h
      exact ⟨hr, h.symm⟩

/-- Once the state of `cn` holds the credited document, the rest of the loop
keeps it, provided every record that credits `cn` carries the budget `e`. -/
theorem creditLoop_keep {s : Store} {round : Int} {cn : String} {cur : CurrentData} {e t : ℚ}
    (hcur : readCurrent s cn = .ok cur) (ht : credit64 cur.tokens e = some t) :
    ∀ (keys : List String) (acc acc' : List NeuralNetworkModel × Store),
      (∀ key ∈ keys, ∀ cd, unmarshal decodeClientData (s.get key) = .ok cd →
        cd.round = round → GetCNFromClientID cd.clientID = .ok cn → cd.epsilon = e) →
      creditLoop s round keys acc = .ok acc' →
      acc.2.get (compositeKey "CurrentData" [cn])
        = some (encodeCurrentData { cur with tokens := t }) →
      acc'.2.get (compositeKey "CurrentData" [cn])
        = some (encodeCurrentData { cur with tokens := t }) := by
  intro keys
  induction keys with
  | nil =>
    intro acc acc' _ hloop hget
    simp only [creditLoop, Except.ok.injEq] at hloop
    rw [← hloop]
    exact hget
  | cons key rest ih =>
    intro acc acc' hsame hloop hget
    simp only [creditLoop] at hloop
    cases hstep : creditStep s round acc key with
    | error e' => rw [hstep] at hloop; cases hloop
    | ok acc1 =>
      rw [hstep] at hloop
      simp only at hloop
      apply ih acc1 acc' (fun k hk => hsame k (List.mem_cons_of_mem _ hk)) hloop
      obtain ⟨cd, hcd, hcase⟩ := creditStep_ok hstep
      rcases hcase with ⟨_, hacc⟩ | ⟨hr, cn1, cur1, t1, hcn1, hcur1, ht1, hacc⟩
      · rw [hacc]
        exact hget
      · rw [hacc]
        by_cases hc : cn1 = cn
        · subst hc
          have he := hsame key (List.mem_cons_self _ _) cd hcd hr hcn1
          have hcc : cur1 = cur := by
            rw [hcur1] at hcur
            injection hcur
          rw [hcc, he, ht] at ht1
          injection ht1 with ht1
          rw [Store.get_put_self, hcc, ← ht1]
        · have hne : compositeKey "CurrentData" [cn] ≠ compositeKey "CurrentData" [cn1] :=
            fun h => hc (currentKey_injective h).symm
          rw [Store.get_put_of_ne _ _ _ _ hne]
          exact hget

/-- A selected record that credits `cn` leaves the credited document in the
state of `cn` at the end of the loop. -/
theorem creditLoop_credit {s : Store} {round : Int} {cn : String} {cur : CurrentData}
    {key : String} {cd : ClientData}
    (hcur : readCurrent s cn = .ok cur)
    (hcd : unmarshal decodeClientData (s.get key) = .ok cd)
    (hround : cd.round = round)
    (hname : GetCNFromClientID cd.clientID = .ok cn) :
    ∀ (keys : List String) (acc acc' : List NeuralNetworkModel × Store),
      key ∈ keys →
      (∀ key' ∈ keys, ∀ cd', unmarshal decodeClientData (s.get key') = .ok cd' →
        cd'.round = round → GetCNFromClientID cd'.clientID = .ok cn →
        cd'.epsilon = cd.epsilon) →
      creditLoop s round keys acc = .ok acc' →
      ∃ t, credit64 cur.tokens cd.epsilon = some t ∧
        acc'.2.get (compositeKey "CurrentData" [cn])
          = some (encodeCurrentData { cur with tokens := t }) := by
  intro keys
  induction keys with
  | nil => intro acc acc' hmem; cases hmem
  | cons k rest ih =>
    intro acc acc' hmem hsame hloop
    simp only [creditLoop] at hloop
    cases hstep : creditStep s round acc k with
    | error e' => rw [hstep] at hloop; cases hloop
    | ok acc1 =>
      rw [hstep] at hloop
      simp only at hloop
      have hsame' : ∀ key' ∈ rest, ∀ cd', unmarshal decodeClientData (s.get key') = .ok cd' →
          cd'.round = round → GetCNFromClientID cd'.clientID = .ok cn →
          cd'.epsilon = cd.epsilon :=
        fun k' hk' => hsame k' (List.mem_cons_of_mem _ hk')
      by_cases hk : key = k
      · subst hk
        obtain ⟨cd0, hcd0, hcase⟩ := creditStep_ok hstep
        have hcd00 : cd0 = cd := by
          rw [hcd0] at hcd
          injection hcd
        subst hcd00
        rcases hcase with ⟨hr, _⟩ | ⟨_, cn1, cur1, t, hcn1, hcur1, ht, hacc⟩
        · exact absurd hround hr
        · have hc : cn1 = cn := by
            rw [hcn1] at hname
            injection hname
          subst hc
          have hcc : cur1 = cur := by
            rw [hcur1] at hcur
            injection hcur
          subst hcc
          refine ⟨t, ht, ?_⟩
          apply creditLoop_keep hcur ht rest acc1 acc' hsame' hloop
          rw [hacc, Store.get_put_self]
      · have hmem' : key ∈ rest := by
          rcases List.mem_cons.mp hmem with h | h
          · exact absurd h hk
          · exact h
        exact ih acc1 acc' hmem' hsame' hloop

/-- What a successful `GetRoundData` has selected and written. -/
theorem GetRoundData_ok {rng : Rng} {w w' : World} {serverID scn : String} {num seed L : Int}
    {models : List NeuralNetworkModel}
    (hscn : GetCNFromClientID serverID = .ok scn)
    (hL : getLatestRound w.state scn = .ok L)
    (hok : GetRoundData rng w serverID num seed = .ok (models, w')) :
    ∃ selected acc',
      SelectSubSet rng w.state num seed (wrap64 (L + 1)) = .ok selected ∧
      creditLoop w.state (wrap64 (L + 1)) selected ([], w.state) = .ok acc' ∧
      w'.state = acc'.2 ∧ w'.priv = w.priv ∧ models = acc'.1 := by
  cases hsel : SelectSubSet rng w.state num seed (wrap64 (L + 1)) with
  | error e => simp [GetRoundData, hscn, hL, hsel, orFail, bind, Except.bind] at hok
  | ok selected =>
    cases hloop : creditLoop w.state (wrap64 (L + 1)) selected ([], w.state) with
    | error e => simp [GetRoundData, hscn, hL, hsel, hloop, orFail, bind, Except.bind] at hok
    | ok acc' =>
      obtain ⟨ms, st⟩ := acc'
      simp only [GetRoundData, hscn, hL, hsel, hloop, orFail, bind, Except.bind] at hok
      split at hok
      · cases hok
      · simp only [Except.ok.injEq, Prod.mk.injEq] at hok
        refine ⟨selected, (ms, st), rfl, hloop, ?_, ?_, hok.1.symm⟩
        · rw [← hok.2]
        · rw [← hok.2]

set_option maxRecDepth 1000000 in
/-- C9, counterexample. Alice holds the balance 1 and has submitted for round
1 with privacy budget 1. The credit of one `GetRoundData` leaves the balance
5854679515581645 / 2^52, which is not `1 + (1 + 5) / 20`; after three credits
the balance is 8556839292003943 / 2^52 (printed 1.9000000000000001), which is
neither `1 + 3 * ((1 + 5) / 20)` nor the 64-bit float nearest to it. -/
theorem GetRoundData_credit_inexact :
    readCurrent budgetOneWorld.state "alice"
      = .ok { latestRound := 1, tokens := 1, roundSeen := some [] } ∧
    getData budgetOneWorld.state "alice" 1
      = .ok { clientID := aliceID, data := demoDecoded, round := 1, epsilon := 1 } ∧
    SelectSubSet zeroRng budgetOneWorld.state 1 42 1
      = .ok [compositeKey "Client" ["1", "alice"]] ∧
    readCurrent (commit budgetOneWorld
        (GetRoundData zeroRng budgetOneWorld serverID 1 42)).state "alice"
      = .ok { latestRound := 1, tokens := mkRat 5854679515581645 (2 ^ 52),
              roundSeen := some [] } ∧
    mkRat 5854679515581645 (2 ^ 52) ≠ (1 : ℚ) + (1 + 5) / 20 ∧
    GetRoundData zeroRng creditedTwiceWorld serverID 1 42
      = .ok ([demoDecoded], creditedThriceWorld) ∧
    readCurrent creditedThriceWorld.state "alice"
      = .ok { latestRound := 1, tokens := mkRat 8556839292003943 (2 ^ 52),
              roundSeen := some [] } ∧
    mkRat 8556839292003943 (2 ^ 52) ≠ (1 : ℚ) + 3 * ((1 + 5) / 20) ∧
    round64 ((1 : ℚ) + 3 * ((1 + 5) / 20)) ≠ some (mkRat 8556839292003943 (2 ^ 52)) := by
  refine ⟨by with_unfolding_all rfl, by with_unfolding_all rfl, by with_unfolding_all rfl,
    by with_unfolding_all rfl, by decide!, by with_unfolding_all rfl,
    by with_unfolding_all rfl, by decide!, by decide!⟩

theorem credit64_isF64 {a e t : ℚ} (h : credit64 a e = some t) : isF64 t = true := by
  unfold credit64 at h
  cases h1 : round64 (e + 5) with
  | none => rw [h1] at h; cases h
  | some x =>
    rw [h1] at h
    simp only at h
    cases h2 : round64 (x / 20) with
    | none => rw [h2] at h; cases h
    | some y =>
      rw [h2] at h
      exact round64_isF64 h

/-- C9, amended. Credit amount: when `GetRoundData` succeeds and a selected
record of the round, with privacy budget `e`, resolves to the participant `cn`
(and any other selected record of the round that resolves to `cn` carries the
same budget), the state stored for `cn` afterwards has the balance that the
64-bit floating-point evaluation of `old + (e + 5) / 20` gives, each of the
three operations rounded to the nearest float, and the latest round and
consumed rounds it had. -/
theorem GetRoundData_credit_amount (rng : Rng) (w w' : World) (serverID scn : String)
    (num seed L : Int) (models : List NeuralNetworkModel) (selected : List String)
    (key : String) (cd : ClientData) (cn : String) (cur : CurrentData)
    (hscn : GetCNFromClientID serverID = .ok scn)
    (hL : getLatestRound w.state scn = .ok L)
    (hok : GetRoundData rng w serverID num seed = .ok (models, w'))
    (hsel : SelectSubSet rng w.state num seed (wrap64 (L + 1)) = .ok selected)
    (hkey : key ∈ selected)
    (hcd : unmarshal decodeClientData (w.state.get key) = .ok cd)
    (hround : cd.round = wrap64 (L + 1))
    (hname : GetCNFromClientID cd.clientID = .ok cn)
    (hcur : readCurrent w.state cn = .ok cur)
    (hsame : ∀ key' ∈ selected, ∀ cd', unmarshal decodeClientData (w.state.get key') = .ok cd' →
      cd'.round = wrap64 (L + 1) → GetCNFromClientID cd'.clientID = .ok cn →
      cd'.epsilon = cd.epsilon) :
    ∃ t, credit64 cur.tokens cd.epsilon = some t ∧
      readCurrent w'.state cn =
        .ok { latestRound := cur.latestRound, tokens := t, roundSeen := cur.roundSeen } := by
  obtain ⟨selected', acc', hsel', hloop, hstate, _, _⟩ := GetRoundData_ok hscn hL hok
  have hs : selected' = selected := by
    rw [hsel'] at hsel
    injection hsel
  subst hs
  obtain ⟨t, ht, hget⟩ :=
    creditLoop_credit hcur hcd hround hname selected' ([], w.state) acc' hkey hsame hloop
  have hwf := readCurrent_wf hcur
  refine ⟨t, ht, ?_⟩
  unfold readCurrent
  rw [(readCurrent_ok hcur).1, hstate]
  simp only [hget, unmarshal]
  exact decodeCurrentData_encode ⟨hwf.1, hwf.2.1, credit64_isF64 ht⟩

theorem GetRoundData_credit_amount_witness :
    ∃ t, credit64 1 aliceRound1.epsilon = some t ∧
      readCurrent creditedWorld.state "alice" =
        .ok { latestRound := 1, tokens := t, roundSeen := some [] } :=
  GetRoundData_credit_amount zeroRng submittedWorld creditedWorld serverID "appserver" 1 42 0
    [demoDecoded] [compositeKey "Client" ["1", "alice"]] (compositeKey "Client" ["1", "alice"])
    aliceRound1 "alice" { latestRound := 1, tokens := 1, roundSeen := some [] }
    (by rfl) (by with_unfolding_all rfl) (by with_unfolding_all rfl) (by with_unfolding_all rfl)
    (by simp) (by with_unfolding_all rfl) (by rfl) (by rfl) (by with_unfolding_all rfl)
    (by
      intro key' hk cd' hcd' _ _
      rw [List.mem_singleton] at hk
      subst hk
      have hrec : unmarshal decodeClientData
          (submittedWorld.state.get (compositeKey "Client" ["1", "alice"])) = .ok aliceRound1 := by
        with_unfolding_all rfl
      rw [hrec] at hcd'
      injection hcd' with h
      rw [← h])

theorem PrivStore.get_filter_other (s : PrivStore) (ck ck' : String × String) :
    PrivStore.get (s.filter (fun p => decide (p.1 ≠ ck))) ck'.1 ck'.2
      = if ck' = ck then none else PrivStore.get s ck'.1 ck'.2 := by
  by_cases hc : ck'.1 = ""
  · rw [hc, PrivStore.get_empty, PrivStore.get_empty]
    simp
  induction s with
  | nil => simp [PrivStore.get]
  | cons p rest ih =>
    obtain ⟨a, v⟩ := p
    by_cases ha : a = ck
    · subst ha
      simp only [List.filter, ne_eq, not_true_eq_false, decide_False]
      rw [ih]
      by_cases hk : ck' = a
      · simp [hk]
      · simp [hk, hc, PrivStore.get]
    · simp only [List.filter, ne_eq, ha, not_false_eq_true, decide_True, PrivStore.get]
      rw [ih]
      by_cases hk : ck' = a
      · subst hk
        simp [ha, hc]
      · simp [hk, hc]

theorem PrivStore.get_put_other (s : PrivStore) (coll k c' k' : String) (v : Json)
    (h : (c', k') ≠ (coll, k)) :
    PrivStore.get (s.put coll k v) c' k' = PrivStore.get s c' k' := by
  by_cases hc : c' = ""
  · rw [hc, PrivStore.get_empty, PrivStore.get_empty]
  unfold PrivStore.put
  simp only [PrivStore.get, h, hc, if_false]
  have := PrivStore.get_filter_other s (coll, k) (c', k')
  simp only [h, if_false] at this
  exact this

/-- The key under which `GetResult` looks for the server record of a round. -/
theorem getData_absent {s : Store} {round : Int}
    (habsent : s.get (compositeKey "Server" [toString round, "appserver"]) = none) :
    ∃ e, getData s "appserver" round = .error e := by
  cases hkey : getKeyFromCN "appserver" round with
  | error e =>
    exact ⟨"failed to get key from CN", by simp only [getData, hkey, orFail, bind, Except.bind]⟩
  | ok key =>
    have hk := getKeyFromCN_ok hkey
    simp only [if_true] at hk
    subst hk
    exact ⟨"the client data " ++ "appserver" ++ " does not exist",
      by simp only [getData, hkey, habsent, orFail, bind, Except.bind]⟩

/-- C16. RoundNotFound: when no record is stored under the server's key of
`round`, `GetResult` returns an error for every caller, with no condition on
the caller's state, and the ledger stays as it is. -/
theorem GetResult_round_not_found (w : World) (clientID : String) (round : Int)
    (habsent : w.state.get (compositeKey "Server" [toString round, "appserver"]) = none) :
    (∃ e, GetResult w clientID round = .error e) ∧
    commit w (GetResult w clientID round) = w := by
  obtain ⟨e, he⟩ := getData_absent habsent
  have herr : ∃ e, GetResult w clientID round = .error e := by
    cases hc : GetCNFromClientID clientID with
    | error e' =>
      exact ⟨"failed to get CN from client ID",
        by simp only [GetResult, hc, orFail, bind, Except.bind]⟩
    | ok c =>
      exact ⟨"failed to get server data",
        by simp only [GetResult, hc, he, orFail, bind, Except.bind]⟩
  refine ⟨herr, ?_⟩
  obtain ⟨e', he'⟩ := herr
  rw [he']
  rfl

theorem GetResult_round_not_found_witness :
    (∃ e, GetResult issuedWorld aliceID 5 = .error e) ∧
    commit issuedWorld (GetResult issuedWorld aliceID 5) = issuedWorld :=
  GetResult_round_not_found issuedWorld aliceID 5 (by with_unfolding_all rfl)

/-- C17, counterexample. Alice has balance 0 and has consumed no round. Her
fetch of round 0, whose server record exists, returns the null model without
an error; her fetch of round 5, which has no server record, returns an error.
The two outcomes differ. -/
theorem GetResult_reveals_existence :
    readCurrent issuedWorld.state "alice"
      = .ok { latestRound := 0, tokens := 1 - 1, roundSeen := some [] } ∧
    ((1 : ℚ) - 1 < 1) ∧
    GetResult issuedWorld aliceID 0
      = .ok ({ layers := some [{ weights := Json.null, biases := Json.null }] }, issuedWorld) ∧
    GetResult issuedWorld aliceID 5 = .error "failed to get server data" := by
  refine ⟨by with_unfolding_all rfl, by norm_num, by with_unfolding_all rfl, by with_unfolding_all rfl⟩

/-- C17, amended. For a caller with balance below 1 who has not consumed
`round`, the outcome of `GetResult` does not depend on the payload of the
server record: whenever the stored record reads as a round record, the null
model is returned without an error.  It does depend on whether a record is
stored: without one the call fails with an error. -/
theorem GetResult_hides_payload_only (w : World) (clientID cn : String) (round : Int)
    (cur : CurrentData)
    (hcn : GetCNFromClientID clientID = .ok cn)
    (hcur : readCurrent w.state cn = .ok cur)
    (htokens : cur.tokens < 1)
    (hseen : round ∉ Slice.toList cur.roundSeen) :
    (∀ serverData, getData w.state "appserver" round = .ok serverData →
      GetResult w clientID round =
        .ok ({ layers := some [{ weights := Json.null, biases := Json.null }] }, w)) ∧
    (w.state.get (compositeKey "Server" [toString round, "appserver"]) = none →
      GetResult w clientID round = .error "failed to get server data") := by
  constructor
  · intro serverData hserver
    rw [GetResult_eq hcn hserver hcur, if_neg hseen, if_pos htokens]
  · intro habsent
    obtain ⟨e, he⟩ := getData_absent habsent
    simp only [GetResult, hcn, he, orFail, bind, Except.bind]

theorem GetResult_hides_payload_only_witness :
    (∀ serverData, getData issuedWorld.state "appserver" 0 = .ok serverData →
      GetResult issuedWorld aliceID 0 =
        .ok ({ layers := some [{ weights := Json.null, biases := Json.null }] }, issuedWorld)) ∧
    (issuedWorld.state.get (compositeKey "Server" [toString (0 : Int), "appserver"]) = none →
      GetResult issuedWorld aliceID 0 = .error "failed to get server data") :=
  GetResult_hides_payload_only issuedWorld aliceID "alice" 0
    { latestRound := 0, tokens := 1 - 1, roundSeen := some [] }
    (by rfl) (by with_unfolding_all rfl) (by norm_num) (by simp [Slice.toList])

/-- C18, counterexample. Issuing the key of round 1 for alice turns the
public ledger `registeredWorld` into `issuedWorld`, in which alice's balance
is `1 - 1` and no longer 1. -/
theorem PutSymmetricKey_changes_public_ledger :
    PutSymmetricKey registeredWorld demoTransient aliceID 1 "collection1"
      = .ok ((), issuedWorld) ∧
    readCurrent registeredWorld.state "alice" = .ok freshState ∧
    readCurrent issuedWorld.state "alice"
      = .ok { latestRound := 0, tokens := freshState.tokens - 1, roundSeen := some [] } ∧
    freshState.tokens - 1 ≠ freshState.tokens := by
  refine ⟨by with_unfolding_all rfl, by rfl, by with_unfolding_all rfl, by norm_num [freshState]⟩

/-- C18, amended. For a collection with a non-empty name and a client whose
balance is at least 1, `PutSymmetricKey` succeeds when the balance less 1 is a
finite 64-bit float `t`; it stores exactly the transient password and iv
under `round` in the collection and leaves every other private entry; on the
public ledger it rewrites the state of the client it names, with the balance
`t`, and nothing else; the public ledger it leaves is the same for every
transient map. -/
theorem PutSymmetricKey_frame (w : World) (transMap : List (String × String))
    (clientID cn : String) (round : Int) (coll : String) (cur : CurrentData) (t : ℚ)
    (hcn : GetCNFromClientID clientID = .ok cn)
    (hcur : readCurrent w.state cn = .ok cur)
    (htokens : 1 ≤ cur.tokens)
    (hcoll : coll ≠ "")
    (hdebit : debit64 cur.tokens = some t) :
    ∃ w', PutSymmetricKey w transMap clientID round coll = .ok ((), w') ∧
      w'.priv.get coll (toString round) =
        some (encodeSymmetricKey { password := transientField transMap "password",
                                   iv := transientField transMap "iv" }) ∧
      (∀ c k, (c, k) ≠ (coll, toString round) → w'.priv.get c k = w.priv.get c k) ∧
      readCurrent w'.state cn =
        .ok { latestRound := cur.latestRound, tokens := t, roundSeen := cur.roundSeen } ∧
      (∀ k, k ≠ compositeKey "CurrentData" [cn] → w'.state.get k = w.state.get k) ∧
      (∀ transMap', (commit w (PutSymmetricKey w transMap' clientID round coll)).state
        = w'.state) := by
  have hlt : ¬ cur.tokens < 1 := not_lt.mpr htokens
  have hwf := readCurrent_wf hcur
  refine ⟨{ state := w.state.put (compositeKey "CurrentData" [cn])
              (encodeCurrentData { cur with tokens := t }),
            priv := w.priv.put coll (toString round)
              (encodeSymmetricKey { password := transientField transMap "password",
                                    iv := transientField transMap "iv" }) },
    ?_, ?_, ?_, ?_, ?_, ?_⟩
  · rw [PutSymmetricKey_eq hcn hcur, if_neg hlt, if_neg hcoll, hdebit]
  · exact PrivStore.get_put_same _ _ _ _ hcoll
  · intro c k hne
    exact PrivStore.get_put_other _ _ _ _ _ _ hne
  · exact readCurrent_put_self (readCurrent_ok hcur).1 ⟨hwf.1, hwf.2.1, round64_isF64 hdebit⟩
  · intro k hk
    exact Store.get_put_of_ne _ _ _ _ hk
  · intro transMap'
    rw [PutSymmetricKey_eq hcn hcur, if_neg hlt, if_neg hcoll, hdebit]
    rfl

theorem PutSymmetricKey_frame_witness :
    ∃ w', PutSymmetricKey registeredWorld demoTransient aliceID 1 "collection1" = .ok ((), w') ∧
      w'.priv.get "collection1" (toString (1 : Int)) =
        some (encodeSymmetricKey { password := transientField demoTransient "password",
                                   iv := transientField demoTransient "iv" }) ∧
      (∀ c k, (c, k) ≠ ("collection1", toString (1 : Int)) →
        w'.priv.get c k = registeredWorld.priv.get c k) ∧
      readCurrent w'.state "alice" =
        .ok { latestRound := freshState.latestRound, tokens := 0,
              roundSeen := freshState.roundSeen } ∧
      (∀ k, k ≠ compositeKey "CurrentData" ["alice"] →
        w'.state.get k = registeredWorld.state.get k) ∧
      (∀ transMap', (commit registeredWorld
          (PutSymmetricKey registeredWorld transMap' aliceID 1 "collection1")).state
        = w'.state) :=
  PutSymmetricKey_frame registeredWorld demoTransient aliceID "alice" 1 "collection1"
    freshState 0 (by rfl) (by with_unfolding_all rfl) (by simp [freshState]) (by decide)
    (by with_unfolding_all rfl)

/-- With count 0 the sampler returns the empty list. -/
theorem SelectSubSet_zero (rng : Rng) (s : Store) (seed round : Int) (pool : List String)
    (hpool : GetStateByPartialCompositeKey s "Client" [toString round] = .ok pool) :
    SelectSubSet rng s 0 seed round = .ok [] := by
  simp only [SelectSubSet, hpool, orFail, bind, Except.bind]
  by_cases hlen : (pool.length : Int) ≤ 0
  · have : pool = [] := by
      have h0 : pool.length = 0 := by omega
      exact List.length_eq_zero.mp h0
    simp [this]
  · simp [hlen]

/-- C13. With count -1 the sampler ends in the slice-bounds panic of
`clientList[:num]`, on a pool of one key and on the empty pool alike. -/
theorem SelectSubSet_negative_count :
    GetStateByPartialCompositeKey submittedWorld.state "Client" [toString (1 : Int)]
      = .ok [compositeKey "Client" ["1", "alice"]] ∧
    SelectSubSet zeroRng submittedWorld.state (-1) 42 1
      = .error "panic: slice bounds out of range" ∧
    GetStateByPartialCompositeKey emptyWorld.state "Client" [toString (1 : Int)] = .ok [] ∧
    SelectSubSet zeroRng emptyWorld.state (-1) 42 1
      = .error "panic: slice bounds out of range" := by
  refine ⟨by rfl, by rfl, by rfl, by rfl⟩

theorem perm_cons_set {x b : String} :
    ∀ (xs : List String) (j : Nat), xs.get? j = some b →
      (b :: xs.set j x).Perm (x :: xs) := by
  intro xs
  induction xs with
  | nil => intro j h; simp at h
  | cons y ys ih =>
    intro j h
    cases j with
    | zero =>
      simp only [List.get?_cons_zero, Option.some.injEq] at h
      subst h
      simp only [List.set_cons_zero]
      exact List.Perm.swap _ _ _
    | succ j =>
      simp only [List.get?_cons_succ] at h
      simp only [List.set_cons_succ]
      have h1 : (b :: y :: ys.set j x).Perm (y :: b :: ys.set j x) := List.Perm.swap _ _ _
      have h2 : (y :: b :: ys.set j x).Perm (y :: x :: ys) := List.Perm.cons _ (ih j h)
      have h3 : (y :: x :: ys).Perm (x :: y :: ys) := List.Perm.swap _ _ _
      exact (h1.trans h2).trans h3

theorem swapAt_perm : ∀ (l : List String) (i j : Nat), (swapAt l i j).Perm l := by
  intro l
  induction l with
  | nil => intro i j; simp [swapAt]
  | cons x xs ih =>
    intro i j
    cases i with
    | zero =>
      cases j with
      | zero => simp [swapAt]
      | succ j =>
        cases hj : xs.get? j with
        | none =>
          simp only [swapAt, List.get?_cons_zero, List.get?_cons_succ, hj]
          exact List.Perm.refl _
        | some b =>
          simp only [swapAt, List.get?_cons_zero, List.get?_cons_succ, hj, List.set_cons_zero,
            List.set_cons_succ]
          exact perm_cons_set xs j hj
    | succ i =>
      cases j with
      | zero =>
        cases hi : xs.get? i with
        | none =>
          simp only [swapAt, List.get?_cons_zero, List.get?_cons_succ, hi]
          exact List.Perm.refl _
        | some a =>
          simp only [swapAt, List.get?_cons_zero, List.get?_cons_succ, hi, List.set_cons_zero,
            List.set_cons_succ]
          exact perm_cons_set xs i hi
      | succ j =>
        have hrec := ih i j
        unfold swapAt at hrec ⊢
        simp only [List.get?_cons_succ]
        cases hi : xs.get? i with
        | none => simp
        | some a =>
          cases hj : xs.get? j with
          | none => simp
          | some b =>
            simp only [hi, hj] at hrec
            simp only [List.set_cons_succ]
            exact List.Perm.cons _ hrec

theorem shuffleFrom_perm (rng : Rng) (seed : Int) (n : Nat) :
    ∀ (i : Nat) (l : List String), (shuffleFrom rng seed n i l).Perm l := by
  intro i
  induction i with
  | zero => intro l; exact List.Perm.refl _
  | succ i ih =>
    intro l
    simp only [shuffleFrom]
    exact (ih _).trans (swapAt_perm _ _ _)

theorem Shuffle_perm (rng : Rng) (seed : Int) (l : List String) :
    (Shuffle rng seed l).Perm l :=
  shuffleFrom_perm rng seed _ _ l

theorem mem_insertKey {k x : String} : ∀ l : List String,
    x ∈ insertKey k l → x = k ∨ x ∈ l := by
  intro l
  induction l with
  | nil =>
    intro h
    simp only [insertKey, List.mem_singleton] at h
    exact Or.inl h
  | cons k' rest ih =>
    intro h
    simp only [insertKey] at h
    split at h
    · rcases List.mem_cons.mp h with h | h
      · exact Or.inl h
      · exact Or.inr h
    · split at h
      · exact Or.inr h
      · rcases List.mem_cons.mp h with h | h
        · exact Or.inr (by rw [h]; exact List.mem_cons_self _ _)
        · rcases ih h with h | h
          · exact Or.inl h
          · exact Or.inr (List.mem_cons_of_mem _ h)

theorem insertKey_sorted (k : String) : ∀ l : List String,
    l.Pairwise (fun a b => keyLt a b = true) →
    (insertKey k l).Pairwise (fun a b => keyLt a b = true) := by
  intro l
  induction l with
  | nil => intro _; simp [insertKey]
  | cons k' rest ih =>
    intro hl
    have hl' := List.pairwise_cons.mp hl
    simp only [insertKey]
    split
    · rename_i hlt
      apply List.pairwise_cons.mpr
      refine ⟨?_, hl⟩
      intro x hx
      rcases List.mem_cons.mp hx with hx | hx
      · rw [hx]; exact hlt
      · exact keyLt_trans hlt (hl'.1 x hx)
    · rename_i hlt
      split
      · exact hl
      · rename_i hne
        apply List.pairwise_cons.mpr
        refine ⟨?_, ih hl'.2⟩
        intro x hx
        rcases mem_insertKey rest hx with hx | hx
        · rw [hx]
          exact keyLt_total (by simpa using hlt) hne
        · exact hl'.1 x hx

theorem Store.keys_sorted (s : Store) :
    (Store.keys s).Pairwise (fun a b => keyLt a b = true) := by
  unfold Store.keys
  induction s with
  | nil => simp
  | cons p rest ih =>
    simp only [List.foldr]
    exact insertKey_sorted _ _ ih

theorem Store.keys_nodup (s : Store) : (Store.keys s).Nodup := by
  have h := Store.keys_sorted s
  unfold List.Nodup
  refine List.Pairwise.imp ?_ h
  intro a b hab heq
  rw [heq, keyLt_irrefl] at hab
  cases hab

theorem GetStateByPartialCompositeKey_nodup {s : Store} {objectType : String}
    {attributes pool : List String}
    (h : GetStateByPartialCompositeKey s objectType attributes = .ok pool) : pool.Nodup := by
  unfold GetStateByPartialCompositeKey at h
  split at h
  · cases h
  · injection h with h
    rw [← h]
    exact (Store.keys_nodup s).filter _

/-- C12. Sampler result shape: the pool that the scan returns has no repeated
key; for a count that is not negative `SelectSubSet` returns `min count n`
keys of the pool, none repeated, which are the first keys of a permutation of
the pool; when the count is at least the size of the pool the result is the
pool itself, in scan order. -/
theorem SelectSubSet_shape (rng : Rng) (s : Store) (num seed round : Int) (pool : List String)
    (hpool : GetStateByPartialCompositeKey s "Client" [toString round] = .ok pool)
    (hnum : 0 ≤ num) :
    pool.Nodup ∧
    ∃ result, SelectSubSet rng s num seed round = .ok result ∧
      result.length = min num.toNat pool.length ∧
      result.Nodup ∧
      (∀ k ∈ result, k ∈ pool) ∧
      (∃ p : List String, p.Perm pool ∧ result = p.take num.toNat) ∧
      ((pool.length : Int) ≤ num → result = pool) := by
  have hnodup := GetStateByPartialCompositeKey_nodup hpool
  refine ⟨hnodup, ?_⟩
  have hneg : ¬ num < 0 := not_lt.mpr hnum
  by_cases hlen : (pool.length : Int) ≤ num
  · have hle : pool.length ≤ num.toNat := by omega
    refine ⟨pool, ?_, ?_, hnodup, fun k hk => hk, ⟨pool, List.Perm.refl _, ?_⟩, fun _ => rfl⟩
    · simp only [SelectSubSet, hpool, orFail, bind, Except.bind, hlen, if_true]
    · exact (Nat.min_eq_right hle).symm
    · exact (List.take_of_length_le hle).symm
  · have hperm := Shuffle_perm rng seed pool
    refine ⟨(Shuffle rng seed pool).take num.toNat, ?_, ?_, ?_, ?_,
      ⟨Shuffle rng seed pool, hperm, rfl⟩, fun h => absurd h hlen⟩
    · simp only [SelectSubSet, hpool, orFail, bind, Except.bind, hlen, if_false, hneg]
    · rw [List.length_take, hperm.length_eq]
    · exact ((hperm.nodup_iff).mpr hnodup).sublist (List.take_sublist _ _)
    · intro k hk
      exact hperm.subset (List.mem_of_mem_take hk)

theorem SelectSubSet_shape_witness :
    round1Pool.Nodup ∧
    ∃ result, SelectSubSet zeroRng bothSubmittedWorld.state 1 42 1 = .ok result ∧
      result.length = min (1 : Int).toNat round1Pool.length ∧
      result.Nodup ∧
      (∀ k ∈ result, k ∈ round1Pool) ∧
      (∃ p : List String, p.Perm round1Pool ∧ result = p.take (1 : Int).toNat) ∧
      ((round1Pool.length : Int) ≤ 1 → result = round1Pool) :=
  SelectSubSet_shape zeroRng bothSubmittedWorld.state 1 42 1 round1Pool (by rfl) (by decide)

/-! ## Decimal text of integers -/

theorem digitChar_val (k : Nat) (hk : k < 10) : (Nat.digitChar k).toNat - 48 = k := by
  interval_cases k <;> rfl

theorem digitChar_ne_minus (k : Nat) (hk : k < 10) : Nat.digitChar k ≠ '-' := by
  interval_cases k <;> decide

theorem toDigitsCore_foldl : ∀ (fuel n : Nat) (ds : List Char), n < fuel →
    (Nat.toDigitsCore 10 fuel n ds).foldl (fun acc c => acc * 10 + (c.toNat - 48)) 0
      = ds.foldl (fun acc c => acc * 10 + (c.toNat - 48)) n := by
  intro fuel
  induction fuel with
  | zero => intro n ds h; omega
  | succ fuel ih =>
    intro n ds h
    simp only [Nat.toDigitsCore]
    have hmod : n % 10 < 10 := Nat.mod_lt _ (by decide)
    split
    · rename_i hdiv
      have hn : n % 10 = n := by omega
      simp only [List.foldl, Nat.zero_mul, Nat.zero_add]
      rw [digitChar_val _ hmod, hn]
    · rename_i hdiv
      have hlt : n / 10 < fuel := by omega
      rw [ih (n / 10) _ hlt]
      simp only [List.foldl, digitChar_val _ hmod]
      have : n / 10 * 10 + n % 10 = n := by omega
      rw [this]

theorem toDigitsCore_mem : ∀ (fuel n : Nat) (ds : List Char) (c : Char),
    c ∈ Nat.toDigitsCore 10 fuel n ds → c ∈ ds ∨ ∃ k, k < 10 ∧ c = Nat.digitChar k := by
  intro fuel
  induction fuel with
  | zero => intro n ds c h; exact Or.inl h
  | succ fuel ih =>
    intro n ds c h
    simp only [Nat.toDigitsCore] at h
    have hmod : n % 10 < 10 := Nat.mod_lt _ (by decide)
    split at h
    · rcases List.mem_cons.mp h with h | h
      · exact Or.inr ⟨_, hmod, h⟩
      · exact Or.inl h
    · rcases ih _ _ _ h with h | h
      · rcases List.mem_cons.mp h with h | h
        · exact Or.inr ⟨_, hmod, h⟩
        · exact Or.inl h
      · exact Or.inr h

theorem Nat_repr_injective {n m : Nat} (h : Nat.repr n = Nat.repr m) : n = m := by
  have hd : Nat.toDigits 10 n = Nat.toDigits 10 m := by
    have := congrArg String.data h
    simpa [Nat.repr, List.asString] using this
  have hn := toDigitsCore_foldl (n + 1) n [] (Nat.lt_succ_self _)
  have hm := toDigitsCore_foldl (m + 1) m [] (Nat.lt_succ_self _)
  unfold Nat.toDigits at hd
  rw [hd, hm] at hn
  simpa using hn.symm

theorem Nat_repr_no_minus (n : Nat) : '-' ∉ (Nat.repr n).data := by
  intro h
  have h' : '-' ∈ Nat.toDigitsCore 10 (n + 1) n [] := by
    simpa [Nat.repr, List.asString, Nat.toDigits] using h
  rcases toDigitsCore_mem _ _ _ _ h' with h1 | ⟨k, hk, hc⟩
  · cases h1
  · exact digitChar_ne_minus k hk hc.symm

theorem Int_toString_injective {a b : Int} (h : toString a = toString b) : a = b := by
  have hdata := congrArg String.data h
  cases a with
  | ofNat n =>
    cases b with
    | ofNat m =>
      have : Nat.repr n = Nat.repr m := h
      rw [Nat_repr_injective this]
    | negSucc m =>
      exfalso
      have h1 : (Nat.repr n).data = '-' :: (Nat.repr (m + 1)).data := hdata
      apply Nat_repr_no_minus n
      rw [h1]
      exact List.mem_cons_self _ _
  | negSucc n =>
    cases b with
    | ofNat m =>
      exfalso
      have h1 : '-' :: (Nat.repr (n + 1)).data = (Nat.repr m).data := hdata
      apply Nat_repr_no_minus m
      rw [← h1]
      exact List.mem_cons_self _ _
    | negSucc m =>
      have h1 : '-' :: (Nat.repr (n + 1)).data = '-' :: (Nat.repr (m + 1)).data := hdata
      have h2 : (Nat.repr (n + 1)).data = (Nat.repr (m + 1)).data := List.tail_eq_of_cons_eq h1
      have h3 : n + 1 = m + 1 := Nat_repr_injective (String.ext h2)
      have h4 : n = m := by omega
      rw [h4]

theorem split_at_separator {c0 : Char} : ∀ (l1 l2 r1 r2 : List Char),
    c0 ∉ l1 → c0 ∉ l2 → l1 ++ c0 :: r1 = l2 ++ c0 :: r2 → l1 = l2 ∧ r1 = r2 := by
  intro l1
  induction l1 with
  | nil =>
    intro l2 r1 r2 _ h2 h
    cases l2 with
    | nil =>
      simp only [List.nil_append, List.cons.injEq, true_and] at h
      exact ⟨rfl, h⟩
    | cons y ys =>
      simp only [List.nil_append, List.cons_append, List.cons.injEq] at h
      exact absurd (by rw [h.1]; exact List.mem_cons_self _ _) h2
  | cons x xs ih =>
    intro l2 r1 r2 h1 h2 h
    cases l2 with
    | nil =>
      simp only [List.nil_append, List.cons_append, List.cons.injEq] at h
      exact absurd (by rw [← h.1]; exact List.mem_cons_self _ _) h1
    | cons y ys =>
      simp only [List.cons_append, List.cons.injEq] at h
      have hx : c0 ∉ xs := fun hm => h1 (List.mem_cons_of_mem _ hm)
      have hy : c0 ∉ ys := fun hm => h2 (List.mem_cons_of_mem _ hm)
      obtain ⟨e1, e2⟩ := ih ys r1 r2 hx hy h.2
      exact ⟨by rw [h.1, e1], e2⟩

theorem validate_no_separator {s : String} (h : validateCompositeKeyAttribute s = true) :
    Char.ofNat 0 ∉ s.data := by
  intro hm
  unfold validateCompositeKeyAttribute at h
  have := List.all_eq_true.mp h _ hm
  simp at this

theorem CreateCompositeKey_valid {objectType : String} {attributes : List String}
    {key : String} (h : CreateCompositeKey objectType attributes = .ok key) :
    attributes.all validateCompositeKeyAttribute = true := by
  unfold CreateCompositeKey at h
  split at h
  · rename_i hv
    simp only [Bool.and_eq_true] at hv
    exact hv.2
  · cases h

theorem getKeyFromCN_valid {cn : String} {round : Int} {key : String}
    (h : getKeyFromCN cn round = .ok key) :
    validateCompositeKeyAttribute (toString round) = true ∧
    validateCompositeKeyAttribute cn = true := by
  simp only [getKeyFromCN, orFail] at h
  split at h
  · rename_i a ha
    have hv := CreateCompositeKey_valid ha
    simp only [List.all_cons, List.all_nil, Bool.and_true, Bool.and_eq_true] at hv
    exact hv
  · cases h

/-- C14. Key layout: two calls of `getKeyFromCN` that succeed with the same
key were made for the same name and the same round, hence with the same
role. -/
theorem getKeyFromCN_injective (cn cn' : String) (round round' : Int) (key : String)
    (h1 : getKeyFromCN cn round = .ok key)
    (h2 : getKeyFromCN cn' round' = .ok key) :
    cn = cn' ∧ round = round' ∧
    (if cn = "appserver" then "Server" else "Client")
      = (if cn' = "appserver" then "Server" else "Client") := by
  have hv1 := getKeyFromCN_valid h1
  have hv2 := getKeyFromCN_valid h2
  have hk1 := getKeyFromCN_ok h1
  have hk2 := getKeyFromCN_ok h2
  have hp : ∀ c : String,
      Char.ofNat 0 ∉ (if c = "appserver" then "Server" else "Client" : String).data := by
    intro c
    split <;> decide
  have heq := congrArg String.data (hk1.symm.trans hk2)
  simp only [compositeKey, List.foldr, List.cons.injEq, true_and] at heq
  obtain ⟨_, hrest⟩ := split_at_separator _ _ _ _ (hp cn) (hp cn') heq
  obtain ⟨hr, hc⟩ := split_at_separator _ _ _ _ (validate_no_separator hv1.1)
    (validate_no_separator hv2.1) hrest
  have hcn : cn = cn' := String.ext (List.append_cancel_right hc)
  have hround : round = round' := Int_toString_injective (String.ext hr)
  refine ⟨hcn, hround, ?_⟩
  rw [hcn]

theorem getKeyFromCN_injective_witness :
    "alice" = "alice" ∧ (1 : Int) = 1 ∧
    (if "alice" = "appserver" then "Server" else "Client")
      = (if "alice" = "appserver" then "Server" else "Client") :=
  getKeyFromCN_injective "alice" "alice" 1 1 (compositeKey "Client" ["1", "alice"])
    (by rfl) (by rfl)

/-- Round 1 of "1alice" and round 11 of "alice" concatenate to the same text
and still have different keys. -/
theorem getKeyFromCN_not_concatenation :
    toString (1 : Int) ++ "1alice" = toString (11 : Int) ++ "alice" ∧
    getKeyFromCN "1alice" 1 = .ok (compositeKey "Client" ["1", "1alice"]) ∧
    getKeyFromCN "alice" 11 = .ok (compositeKey "Client" ["11", "alice"]) ∧
    compositeKey "Client" ["1", "1alice"] ≠ compositeKey "Client" ["11", "alice"] := by
  refine ⟨by rfl, by rfl, by rfl, by decide⟩

/-- C20. Alice is registered with latest round 0 and the server's latest
round is 0.  After the server has published round 1 with `PutGlobalWeights`,
alice's next `PutData` is accepted and gives her round 1, not round 2: the
publication has not moved the server's latest round.  When the server
instead advances to round 1 through its own `PutData`, alice's next `PutData`
gives her round 2. -/
theorem PutData_after_publication :
    getLatestRound registeredWorld.state "alice" = .ok 0 ∧
    getLatestRound (commit registeredWorld
      (PutGlobalWeights registeredWorld serverID "agg1" 1)).state "appserver" = .ok 0 ∧
    getLatestRound submittedAfterPublish.state "alice" = .ok 1 ∧
    submittedAfterPublish.state.get (compositeKey "Client" ["2", "alice"]) = none ∧
    getLatestRound submittedAfterServer.state "appserver" = .ok 1 ∧
    getLatestRound submittedAfterServer.state "alice" = .ok 2 := by
  refine ⟨by rfl, by rfl, by rfl, by rfl, by rfl, by rfl⟩

/-! ## What one invocation does to the world state -/

theorem Store.isSome_get_put {s : Store} {k : String} (k' : String) (v : Json)
    (h : (s.get k).isSome = true) : ((s.put k' v).get k).isSome = true := by
  rw [Store.get_put]
  split
  · rfl
  · exact h

theorem keyRequests_ne_currentKey (cn : String) :
    "KeyRequests" ≠ compositeKey "CurrentData" [cn] := by
  intro h
  have hdata := congrArg String.data h
  have hK : "KeyRequests".data = ['K', 'e', 'y', 'R', 'e', 'q', 'u', 'e', 's', 't', 's'] := rfl
  simp [compositeKey, hK] at hdata

theorem commit_InitLedger (w : World) (clientID : String) :
    commit w (InitLedger w clientID) = w ∨
    ∃ cn key doc, GetCNFromClientID clientID = .ok cn ∧ getKeyFromCN cn 0 = .ok key ∧
      w.state.get key = none ∧
      commit w (InitLedger w clientID) =
        { w with state := ((w.state.put key doc).put (compositeKey "CurrentData" [cn])
            (encodeCurrentData freshState)) } := by
  cases hcn : GetCNFromClientID clientID with
  | error e => left; simp only [InitLedger, hcn, orFail, bind, Except.bind, commit]
  | ok cn =>
    cases hkey : getKeyFromCN cn 0 with
    | error e => left; simp only [InitLedger, hcn, hkey, orFail, bind, Except.bind, commit]
    | ok key =>
      cases hget : w.state.get key with
      | some d =>
        left
        simp only [InitLedger, hcn, hkey, hget, orFail, bind, Except.bind, commit]
      | none =>
        cases hck : CreateCompositeKey "CurrentData" [cn] with
        | error e =>
          left
          simp only [InitLedger, hcn, hkey, hget, hck, orFail, bind, Except.bind, commit]
        | ok ck =>
          right
          have hck' := CreateCompositeKey_eq_ok hck
          subst hck'
          refine ⟨cn, key, encodeClientData
            { clientID := clientID,
              data := { layers := some [{ weights := Json.null, biases := Json.null }] },
              round := 0, epsilon := 0 }, rfl, hkey, hget, ?_⟩
          simp only [InitLedger, hcn, hkey, hget, hck, orFail, bind, Except.bind, commit,
            freshState]

theorem commit_PutData (w : World) (clientID : String) (data : Option Json) (eps : ℚ) :
    commit w (PutData w clientID data eps) = w ∨
    ∃ cn S key doc cur, GetCNFromClientID clientID = .ok cn ∧
      getLatestRound w.state "appserver" = .ok S ∧
      getKeyFromCN cn (roundNumber cur.latestRound S) = .ok key ∧
      readCurrent w.state cn = .ok cur ∧
      PutData w clientID data eps = .ok ((), commit w (PutData w clientID data eps)) ∧
      commit w (PutData w clientID data eps) =
        { w with state := ((w.state.put key doc).put (compositeKey "CurrentData" [cn])
            (encodeCurrentData { cur with latestRound := roundNumber cur.latestRound S })) } := by
  cases hok : PutData w clientID data eps with
  | error e => left; rfl
  | ok r =>
    obtain ⟨u, w'⟩ := r
    right
    cases hcn : GetCNFromClientID clientID with
    | error e => simp [PutData, hcn, orFail, bind, Except.bind] at hok
    | ok cn =>
      cases hL : getLatestRound w.state cn with
      | error e => simp [PutData, hcn, hL, orFail, bind, Except.bind] at hok
      | ok L =>
        cases hS : getLatestRound w.state "appserver" with
        | error e =>
          exfalso
          simp only [PutData, hcn, hL, hS, orFail, bind, Except.bind] at hok
          split at hok
          · cases hok
          · split at hok
            · cases hok
            · cases hok
        | ok S =>
          obtain ⟨key0, prev, model, key, cur, _, _, _, hk, hcur, hcurL, hw', _⟩ :=
            PutData_ok hcn hL hS hok
          subst hcurL
          exact ⟨cn, S, key, _, cur, rfl, rfl, hk, hcur, rfl, hw'⟩

theorem commit_GetRoundData (rng : Rng) (w : World) (serverID : String) (num seed : Int) :
    commit w (GetRoundData rng w serverID num seed) = w ∨
    ∃ round selected acc',
      creditLoop w.state round selected ([], w.state) = .ok acc' ∧
      commit w (GetRoundData rng w serverID num seed) = { w with state := acc'.2 } := by
  cases hok : GetRoundData rng w serverID num seed with
  | error e => left; rfl
  | ok r =>
    obtain ⟨models, w'⟩ := r
    right
    cases hcn : GetCNFromClientID serverID with
    | error e => simp [GetRoundData, hcn, orFail, bind, Except.bind] at hok
    | ok scn =>
      cases hL : getLatestRound w.state scn with
      | error e => simp [GetRoundData, hcn, hL, orFail, bind, Except.bind] at hok
      | ok L =>
        obtain ⟨selected, acc', _, hloop, hstate, hpriv, _⟩ := GetRoundData_ok hcn hL hok
        refine ⟨_, selected, acc', hloop, ?_⟩
        simp only [commit]
        cases w'
        simp only at hstate hpriv
        rw [hstate, hpriv]

theorem commit_PutGlobalWeights (w : World) (serverID data : String) (round : Int) :
    commit w (PutGlobalWeights w serverID data round) = w ∨
    ∃ cn key, getKeyFromCN cn round = .ok key ∧
      commit w (PutGlobalWeights w serverID data round) =
        { w with state := w.state.put key (encodeServerData { data := data, round := round }) } := by
  cases hcn : GetCNFromClientID serverID with
  | error e => left; simp only [PutGlobalWeights, hcn, orFail, bind, Except.bind, commit]
  | ok cn =>
    cases hkey : getKeyFromCN cn round with
    | error e => left; simp only [PutGlobalWeights, hcn, hkey, orFail, bind, Except.bind, commit]
    | ok key =>
      right
      refine ⟨cn, key, hkey, ?_⟩
      simp only [PutGlobalWeights, hcn, hkey, orFail, bind, Except.bind, commit]

theorem commit_RequestKey (w : World) (clientID : String) (round : Int) :
    commit w (RequestKey w clientID round) = w ∨
    ∃ doc, commit w (RequestKey w clientID round) =
      { w with state := w.state.put "KeyRequests" doc } := by
  cases hcn : GetCNFromClientID clientID with
  | error e => left; simp only [RequestKey, hcn, orFail, bind, Except.bind, commit]
  | ok cn =>
    cases hreq : unmarshal decodeKeyRequests (w.state.get "KeyRequests") with
    | error e => left; simp only [RequestKey, hcn, hreq, orFail, bind, Except.bind, commit]
    | ok k =>
      right
      exact ⟨encodeKeyRequests
          { round := Slice.append k.round round, clientID := Slice.append k.clientID cn },
        by simp only [RequestKey, hcn, hreq, orFail, bind, Except.bind, commit]⟩

theorem commit_GetKeyRequests (w : World) :
    commit w (GetKeyRequests w) = w ∨
    ∃ doc, commit w (GetKeyRequests w) = { w with state := w.state.put "KeyRequests" doc } := by
  cases hreq : unmarshal decodeKeyRequests (w.state.get "KeyRequests") with
  | error e => left; simp only [GetKeyRequests, hreq, orFail, bind, Except.bind, commit]
  | ok k =>
    right
    exact ⟨encodeKeyRequests { round := some [], clientID := some [] },
      by simp only [GetKeyRequests, hreq, orFail, bind, Except.bind, commit]⟩

theorem commit_PutSymmetricKey (w : World) (transMap : List (String × String))
    (clientID : String) (round : Int) (coll : String) :
    commit w (PutSymmetricKey w transMap clientID round coll) = w ∨
    ∃ cn cur t doc, readCurrent w.state cn = .ok cur ∧ 1 ≤ cur.tokens ∧
      debit64 cur.tokens = some t ∧
      commit w (PutSymmetricKey w transMap clientID round coll) =
        { state := w.state.put (compositeKey "CurrentData" [cn])
            (encodeCurrentData { cur with tokens := t }),
          priv := w.priv.put coll (toString round) doc } := by
  cases hcn : GetCNFromClientID clientID with
  | error e => left; simp only [PutSymmetricKey, hcn, orFail, bind, Except.bind, commit]
  | ok cn =>
    cases hcur : readCurrent w.state cn with
    | error e =>
      left
      unfold readCurrent at hcur
      cases hck : CreateCompositeKey "CurrentData" [cn] with
      | error e' =>
        simp only [PutSymmetricKey, hcn, hck, orFail, bind, Except.bind, commit]
      | ok ck =>
        rw [hck] at hcur
        simp only at hcur
        simp only [PutSymmetricKey, hcn, hck, hcur, orFail, bind, Except.bind, commit]
    | ok cur =>
      rw [PutSymmetricKey_eq hcn hcur]
      by_cases ht : cur.tokens < 1
      · left
        simp only [ht, if_true, commit]
      · by_cases hc : coll = ""
        · left
          simp only [ht, hc, if_true, if_false, commit]
        · cases hd : debit64 cur.tokens with
          | none =>
            left
            simp only [ht, hc, if_false, commit]
          | some t =>
            right
            refine ⟨cn, cur, t, encodeSymmetricKey
              { password := transientField transMap "password",
                iv := transientField transMap "iv" }, hcur, not_lt.mp ht, hd, ?_⟩
            simp only [ht, hc, if_false, commit]

theorem commit_GetSymmetricKey (w : World) (round : Int) (coll : String) :
    commit w (GetSymmetricKey w round coll) = w := by
  by_cases hc : coll = ""
  · simp only [GetSymmetricKey, GetPrivateData, hc, if_true, orFail, bind, Except.bind, commit]
  · cases h : unmarshal decodeSymmetricKey (w.priv.get coll (toString round)) with
    | error e =>
      simp only [GetSymmetricKey, GetPrivateData, hc, if_false, h, orFail, bind, Except.bind,
        commit]
    | ok k =>
      simp only [GetSymmetricKey, GetPrivateData, hc, if_false, h, orFail, bind, Except.bind,
        commit]

theorem commit_GetData (w : World) (clientID : String) :
    commit w (GetData w clientID) = w := by
  cases hcn : GetCNFromClientID clientID with
  | error e => simp only [GetData, hcn, orFail, bind, Except.bind, commit]
  | ok cn =>
    cases hL : getLatestRound w.state cn with
    | error e => simp only [GetData, hcn, hL, orFail, bind, Except.bind, commit]
    | ok L =>
      cases hd : getData w.state cn L with
      | error e => simp only [GetData, hcn, hL, hd, orFail, bind, Except.bind, commit]
      | ok d => simp only [GetData, hcn, hL, hd, orFail, bind, Except.bind, commit]

theorem commit_GetResult (w : World) (clientID : String) (round : Int) :
    commit w (GetResult w clientID round) = w ∨
    ∃ cn cur t, readCurrent w.state cn = .ok cur ∧
      round ∉ Slice.toList cur.roundSeen ∧ 1 ≤ cur.tokens ∧
      debit64 cur.tokens = some t ∧
      commit w (GetResult w clientID round) =
        { w with state := (w.state.put (compositeKey "CurrentData" [cn])
            (encodeCurrentData { cur with
              roundSeen := Slice.append cur.roundSeen round, tokens := t })) } := by
  cases hcn : GetCNFromClientID clientID with
  | error e => left; simp only [GetResult, hcn, orFail, bind, Except.bind, commit]
  | ok cn =>
    cases hserver : getData w.state "appserver" round with
    | error e => left; simp only [GetResult, hcn, hserver, orFail, bind, Except.bind, commit]
    | ok serverData =>
      cases hcur : readCurrent w.state cn with
      | error e =>
        left
        unfold readCurrent at hcur
        cases hck : CreateCompositeKey "CurrentData" [cn] with
        | error e' =>
          simp only [GetResult, hcn, hserver, hck, orFail, bind, Except.bind, commit]
        | ok ck =>
          rw [hck] at hcur
          simp only at hcur
          simp only [GetResult, hcn, hserver, hck, hcur, orFail, bind, Except.bind, commit]
      | ok cur =>
        rw [GetResult_eq hcn hserver hcur]
        by_cases hseen : round ∈ Slice.toList cur.roundSeen
        · left
          simp only [hseen, if_true, commit]
        · by_cases ht : cur.tokens < 1
          · left
            simp only [hseen, ht, if_true, if_false, commit]
          · cases hd : debit64 cur.tokens with
            | none =>
              left
              simp only [hseen, ht, if_false, commit]
            | some t =>
              right
              refine ⟨cn, cur, t, hcur, hseen, not_lt.mp ht, hd, ?_⟩
              simp only [hseen, ht, if_false, commit]

theorem creditLoop_current {s : Store} {round : Int} (cn : String) :
    ∀ (keys : List String) (acc acc' : List NeuralNetworkModel × Store),
      creditLoop s round keys acc = .ok acc' →
      acc'.2.get (compositeKey "CurrentData" [cn]) = acc.2.get (compositeKey "CurrentData" [cn]) ∨
      ∃ cur e t, readCurrent s cn = .ok cur ∧ credit64 cur.tokens e = some t ∧
        acc'.2.get (compositeKey "CurrentData" [cn]) =
          some (encodeCurrentData { cur with tokens := t }) := by
  intro keys
  induction keys with
  | nil =>
    intro acc acc' hloop
    simp only [creditLoop, Except.ok.injEq] at hloop
    left
    rw [hloop]
  | cons key rest ih =>
    intro acc acc' hloop
    simp only [creditLoop] at hloop
    cases hstep : creditStep s round acc key with
    | error e' => rw [hstep] at hloop; cases hloop
    | ok acc1 =>
      rw [hstep] at hloop
      simp only at hloop
      obtain ⟨cd, _, hcase⟩ := creditStep_ok hstep
      rcases ih acc1 acc' hloop with hsame | hcred
      · rcases hcase with ⟨_, hacc⟩ | ⟨_, cn1, cur1, t1, _, hcur1, ht1, hacc⟩
        · left
          rw [hsame, hacc]
        · by_cases hc : cn1 = cn
          · subst hc
            right
            refine ⟨cur1, cd.epsilon, t1, hcur1, ht1, ?_⟩
            rw [hsame, hacc, Store.get_put_self]
          · left
            have hne : compositeKey "CurrentData" [cn] ≠ compositeKey "CurrentData" [cn1] :=
              fun h => hc (currentKey_injective h).symm
            rw [hsame, hacc, Store.get_put_of_ne _ _ _ _ hne]
      · exact Or.inr hcred

theorem creditLoop_keys {s : Store} {round : Int} (k : String) :
    ∀ (keys : List String) (acc acc' : List NeuralNetworkModel × Store),
      creditLoop s round keys acc = .ok acc' →
      (acc.2.get k).isSome = true → (acc'.2.get k).isSome = true := by
  intro keys
  induction keys with
  | nil =>
    intro acc acc' hloop h
    simp only [creditLoop, Except.ok.injEq] at hloop
    rw [← hloop]
    exact h
  | cons key rest ih =>
    intro acc acc' hloop h
    simp only [creditLoop] at hloop
    cases hstep : creditStep s round acc key with
    | error e' => rw [hstep] at hloop; cases hloop
    | ok acc1 =>
      rw [hstep] at hloop
      simp only at hloop
      apply ih acc1 acc' hloop
      obtain ⟨cd, _, hcase⟩ := creditStep_ok hstep
      rcases hcase with ⟨_, hacc⟩ | ⟨_, cn1, cur1, _, _, _, _, hacc⟩
      · rw [hacc]; exact h
      · rw [hacc]
        exact Store.isSome_get_put _ _ h

theorem creditLoop_other {s : Store} {round : Int} (k : String)
    (hk : ∀ cn, k ≠ compositeKey "CurrentData" [cn]) :
    ∀ (keys : List String) (acc acc' : List NeuralNetworkModel × Store),
      creditLoop s round keys acc = .ok acc' → acc'.2.get k = acc.2.get k := by
  intro keys
  induction keys with
  | nil =>
    intro acc acc' hloop
    simp only [creditLoop, Except.ok.injEq] at hloop
    rw [hloop]
  | cons key rest ih =>
    intro acc acc' hloop
    simp only [creditLoop] at hloop
    cases hstep : creditStep s round acc key with
    | error e' => rw [hstep] at hloop; cases hloop
    | ok acc1 =>
      rw [hstep] at hloop
      simp only at hloop
      rw [ih acc1 acc' hloop]
      obtain ⟨cd, _, hcase⟩ := creditStep_ok hstep
      rcases hcase with ⟨_, hacc⟩ | ⟨_, cn1, cur1, _, _, _, _, hacc⟩
      · rw [hacc]
      · rw [hacc, Store.get_put_of_ne _ _ _ _ (hk cn1)]

/-- No invocation removes a key from the world state. -/
theorem step_keys (rng : Rng) (w : World) (op : Op) (k : String)
    (h : (w.state.get k).isSome = true) : ((step rng w op).state.get k).isSome = true := by
  cases op with
  | initLedger clientID =>
    rcases commit_InitLedger w clientID with hc | ⟨cn, key, doc, _, _, _, hc⟩
    · simp only [step, hc]; exact h
    · simp only [step, hc]
      exact Store.isSome_get_put _ _ (Store.isSome_get_put _ _ h)
  | putData clientID data eps =>
    rcases commit_PutData w clientID data eps with hc | ⟨cn, S, key, doc, cur, _, _, _, _, _, hc⟩
    · simp only [step, hc]; exact h
    · simp only [step, hc]
      exact Store.isSome_get_put _ _ (Store.isSome_get_put _ _ h)
  | getRoundData serverID num seed =>
    rcases commit_GetRoundData rng w serverID num seed with hc | ⟨r, sel, acc', hloop, hc⟩
    · simp only [step, hc]; exact h
    · simp only [step, hc]
      exact creditLoop_keys k sel _ acc' hloop h
  | putGlobalWeights serverID data round =>
    rcases commit_PutGlobalWeights w serverID data round with hc | ⟨cn, key, _, hc⟩
    · simp only [step, hc]; exact h
    · simp only [step, hc]
      exact Store.isSome_get_put _ _ h
  | requestKey clientID round =>
    rcases commit_RequestKey w clientID round with hc | ⟨doc, hc⟩
    · simp only [step, hc]; exact h
    · simp only [step, hc]
      exact Store.isSome_get_put _ _ h
  | getKeyRequests =>
    rcases commit_GetKeyRequests w with hc | ⟨doc, hc⟩
    · simp only [step, hc]; exact h
    · simp only [step, hc]
      exact Store.isSome_get_put _ _ h
  | putSymmetricKey transMap clientID round coll =>
    rcases commit_PutSymmetricKey w transMap clientID round coll with
      hc | ⟨cn, cur, t, doc, _, _, _, hc⟩
    · simp only [step, hc]; exact h
    · simp only [step, hc]
      exact Store.isSome_get_put _ _ h
  | getSymmetricKey round coll =>
    simp only [step, commit_GetSymmetricKey]; exact h
  | getData clientID =>
    simp only [step, commit_GetData]; exact h
  | getResult clientID round =>
    rcases commit_GetResult w clientID round with hc | ⟨cn, cur, t, _, _, _, _, hc⟩
    · simp only [step, hc]; exact h
    · simp only [step, hc]
      exact Store.isSome_get_put _ _ h

/-- What one invocation does to the state stored for a participant: it leaves
the document, or rewrites the state it has read by one of the changes of
`CurChange`, or (registration) creates the initial state next to a new
round-0 record. -/
theorem step_current (rng : Rng) (w : World) (op : Op) (cn : String) :
    (step rng w op).state.get (compositeKey "CurrentData" [cn])
      = w.state.get (compositeKey "CurrentData" [cn]) ∨
    (∃ cur cur', readCurrent w.state cn = .ok cur ∧
      (step rng w op).state.get (compositeKey "CurrentData" [cn])
        = some (encodeCurrentData cur') ∧
      CurChange w op cur cur') ∨
    (∃ clientID key, op = .initLedger clientID ∧ getKeyFromCN cn 0 = .ok key ∧
      w.state.get key = none ∧
      (step rng w op).state.get (compositeKey "CurrentData" [cn])
        = some (encodeCurrentData freshState) ∧
      ((step rng w op).state.get key).isSome = true) := by
  cases op with
  | initLedger clientID =>
    rcases commit_InitLedger w clientID with hc | ⟨cn0, key, doc, _, hkey, hget, hc⟩
    · left; simp only [step, hc]
    · have hne := currentKey_ne_getKeyFromCN cn0 hkey
      by_cases hcn : cn0 = cn
      · subst hcn
        right; right
        refine ⟨clientID, key, rfl, hkey, hget, ?_, ?_⟩
        · simp only [step, hc, Store.get_put_self]
        · simp only [step, hc, Store.get_put_of_ne _ _ _ _ hne, Store.get_put_self]
          rfl
      · left
        have hne1 : compositeKey "CurrentData" [cn] ≠ compositeKey "CurrentData" [cn0] :=
          fun h => hcn (currentKey_injective h).symm
        have hne2 := currentKey_ne_getKeyFromCN cn hkey
        simp only [step, hc, Store.get_put_of_ne _ _ _ _ hne1,
          Store.get_put_of_ne _ _ _ _ (Ne.symm hne2)]
  | putData clientID data eps =>
    rcases commit_PutData w clientID data eps with
      hc | ⟨cn0, S, key, doc, cur, _, hS, hkey, hcur, _, hc⟩
    · left; simp only [step, hc]
    · by_cases hcn : cn0 = cn
      · subst hcn
        right; left
        refine ⟨cur, { cur with latestRound := roundNumber cur.latestRound S }, hcur, ?_, ?_⟩
        · simp only [step, hc, Store.get_put_self]
        · right; right; right
          exact ⟨clientID, data, eps, S, rfl, hS, rfl⟩
      · left
        have hne1 : compositeKey "CurrentData" [cn] ≠ compositeKey "CurrentData" [cn0] :=
          fun h => hcn (currentKey_injective h).symm
        have hne2 := currentKey_ne_getKeyFromCN cn hkey
        simp only [step, hc, Store.get_put_of_ne _ _ _ _ hne1,
          Store.get_put_of_ne _ _ _ _ (Ne.symm hne2)]
  | getRoundData serverID num seed =>
    rcases commit_GetRoundData rng w serverID num seed with hc | ⟨r, sel, acc', hloop, hc⟩
    · left; simp only [step, hc]
    · rcases creditLoop_current cn sel _ acc' hloop with hsame | ⟨cur, e, t, hcur, ht, hget⟩
      · left; simp only [step, hc]; exact hsame
      · right; left
        refine ⟨cur, { cur with tokens := t }, hcur, ?_, Or.inl ⟨e, t, ht, rfl⟩⟩
        simp only [step, hc]
        exact hget
  | putGlobalWeights serverID data round =>
    rcases commit_PutGlobalWeights w serverID data round with hc | ⟨cn0, key, hkey, hc⟩
    · left; simp only [step, hc]
    · left
      have hne := currentKey_ne_getKeyFromCN cn hkey
      simp only [step, hc, Store.get_put_of_ne _ _ _ _ (Ne.symm hne)]
  | requestKey clientID round =>
    rcases commit_RequestKey w clientID round with hc | ⟨doc, hc⟩
    · left; simp only [step, hc]
    · left
      simp only [step, hc, Store.get_put_of_ne _ _ _ _ (Ne.symm (keyRequests_ne_currentKey cn))]
  | getKeyRequests =>
    rcases commit_GetKeyRequests w with hc | ⟨doc, hc⟩
    · left; simp only [step, hc]
    · left
      simp only [step, hc, Store.get_put_of_ne _ _ _ _ (Ne.symm (keyRequests_ne_currentKey cn))]
  | putSymmetricKey transMap clientID round coll =>
    rcases commit_PutSymmetricKey w transMap clientID round coll with
      hc | ⟨cn0, cur, t, doc, hcur, htok, hd, hc⟩
    · left; simp only [step, hc]
    · by_cases hcn : cn0 = cn
      · subst hcn
        right; left
        refine ⟨cur, { cur with tokens := t }, hcur, ?_,
          Or.inr (Or.inr (Or.inl ⟨t, htok, hd, rfl⟩))⟩
        simp only [step, hc, Store.get_put_self]
      · left
        have hne1 : compositeKey "CurrentData" [cn] ≠ compositeKey "CurrentData" [cn0] :=
          fun h => hcn (currentKey_injective h).symm
        simp only [step, hc, Store.get_put_of_ne _ _ _ _ hne1]
  | getSymmetricKey round coll =>
    left; simp only [step, commit_GetSymmetricKey]
  | getData clientID =>
    left; simp only [step, commit_GetData]
  | getResult clientID round =>
    rcases commit_GetResult w clientID round with hc | ⟨cn0, cur, t, hcur, hseen, htok, hd, hc⟩
    · left; simp only [step, hc]
    · by_cases hcn : cn0 = cn
      · subst hcn
        right; left
        refine ⟨cur, { cur with
            roundSeen := Slice.append cur.roundSeen round, tokens := t }, hcur, ?_,
          Or.inr (Or.inl ⟨clientID, round, t, rfl, hseen, htok, hd, rfl⟩)⟩
        simp only [step, hc, Store.get_put_self]
      · left
        have hne1 : compositeKey "CurrentData" [cn] ≠ compositeKey "CurrentData" [cn0] :=
          fun h => hcn (currentKey_injective h).symm
        simp only [step, hc, Store.get_put_of_ne _ _ _ _ hne1]

theorem readCurrent_isSome {s : Store} {cn : String} {cur : CurrentData}
    (h : readCurrent s cn = .ok cur) :
    (s.get (compositeKey "CurrentData" [cn])).isSome = true := by
  obtain ⟨_, doc, hdoc, _⟩ := readCurrent_ok h
  rw [hdoc]
  rfl

/-- Registration keeps its round-0 record: the invariant `Registered` is
kept by every invocation. -/
theorem Registered_step (rng : Rng) (w : World) (op : Op) (h : Registered w) :
    Registered (step rng w op) := by
  intro cn hcn
  rcases step_current rng w op cn with hsame | ⟨cur, cur', hcur, _, _⟩ |
      ⟨clientID, key, _, hkey, _, _, hsome⟩
  · rw [hsame] at hcn
    obtain ⟨key, hkey, hk⟩ := h cn hcn
    exact ⟨key, hkey, step_keys rng w op key hk⟩
  · obtain ⟨key, hkey, hk⟩ := h cn (readCurrent_isSome hcur)
    exact ⟨key, hkey, step_keys rng w op key hk⟩
  · exact ⟨key, hkey, hsome⟩

theorem Registered_run (rng : Rng) (ops : List Op) :
    ∀ w, Registered w → Registered (run rng w ops) := by
  induction ops with
  | nil => intro w h; exact h
  | cons op rest ih =>
    intro w h
    exact ih _ (Registered_step rng w op h)

theorem Registered_empty : Registered emptyWorld := by
  intro cn h
  simp [emptyWorld, Store.get] at h

/-- C15. Register cannot reset state: on every ledger reached from the empty
ledger by invocations of the contract, `InitLedger` by a caller whose name
already has a participant state fails with the "already exists" error and
leaves the ledger as it is. -/
theorem InitLedger_cannot_reset (rng : Rng) (ops : List Op) (clientID cn : String)
    (hcn : GetCNFromClientID clientID = .ok cn)
    (hexists : ((run rng emptyWorld ops).state.get (compositeKey "CurrentData" [cn])).isSome
      = true) :
    InitLedger (run rng emptyWorld ops) clientID
      = .error ("the client data " ++ cn ++ " already exists") ∧
    commit (run rng emptyWorld ops) (InitLedger (run rng emptyWorld ops) clientID)
      = run rng emptyWorld ops := by
  obtain ⟨key, hkey, hk⟩ := Registered_run rng ops emptyWorld Registered_empty cn hexists
  have herr : InitLedger (run rng emptyWorld ops) clientID
      = .error ("the client data " ++ cn ++ " already exists") := by
    cases hget : (run rng emptyWorld ops).state.get key with
    | none => rw [hget] at hk; cases hk
    | some d => simp only [InitLedger, hcn, hkey, hget, orFail, bind, Except.bind]
  refine ⟨herr, ?_⟩
  rw [herr]
  rfl

theorem InitLedger_cannot_reset_witness :
    InitLedger (run zeroRng emptyWorld [Op.initLedger aliceID, Op.getResult aliceID 0]) aliceID
      = .error ("the client data " ++ "alice" ++ " already exists") ∧
    commit (run zeroRng emptyWorld [Op.initLedger aliceID, Op.getResult aliceID 0])
      (InitLedger (run zeroRng emptyWorld [Op.initLedger aliceID, Op.getResult aliceID 0])
        aliceID)
      = run zeroRng emptyWorld [Op.initLedger aliceID, Op.getResult aliceID 0] :=
  InitLedger_cannot_reset zeroRng [Op.initLedger aliceID, Op.getResult aliceID 0] aliceID
    "alice" (by rfl) (by rfl)

/-! ## Latest rounds along a sequence of invocations -/

theorem intoInt_num_eq {n m old : Int} (h : intoInt (.num (n : ℚ)) old = .ok m) : m = n := by
  simp only [intoInt] at h
  split at h
  · injection h with h
    rw [← h]
    simp
  · cases h

theorem intoElems_int_map_eq : ∀ (ns ms backing : List Int),
    intoElems intoInt 0 (ns.map (fun n : Int => Json.num n)) backing = .ok ms → ms = ns := by
  intro ns
  induction ns with
  | nil =>
    intro ms backing h
    simp only [List.map, intoElems, Except.ok.injEq] at h
    exact h.symm
  | cons n rest ih =>
    intro ms backing h
    simp only [List.map, intoElems] at h
    cases ha : intoInt (Json.num (n : ℚ)) (backing.headD 0) with
    | error e => rw [ha] at h; cases h
    | ok a =>
      rw [ha] at h
      simp only at h
      cases has : intoElems intoInt 0 (rest.map (fun n : Int => Json.num n)) backing.tail with
      | error e => rw [has] at h; cases h
      | ok as =>
        rw [has] at h
        injection h with h
        rw [← h, intoInt_num_eq ha, ih as backing.tail has]

theorem intoSlice_encodeSlice_int_eq {seen : Slice Int} {b : Buf Int}
    (h : intoSlice intoInt 0 (encodeSlice (fun n : Int => Json.num n) seen) Buf.nil = .ok b) :
    b.slice = seen := by
  cases seen with
  | none =>
    simp only [encodeSlice, intoSlice, Except.ok.injEq] at h
    rw [← h]
  | some l =>
    cases l with
    | nil =>
      simp only [encodeSlice, List.map, intoSlice, Except.ok.injEq] at h
      rw [← h]
    | cons n rest =>
      simp only [encodeSlice, List.map, intoSlice] at h
      cases has : intoElems intoInt 0 (Json.num (n : ℚ) :: rest.map (fun n : Int => Json.num n))
          (Buf.nil : Buf Int).backing with
      | error e => rw [has] at h; cases h
      | ok as =>
        rw [has] at h
        injection h with h
        rw [← h]
        have := intoElems_int_map_eq (n :: rest) as _ has
        rw [this]

/-- A participant state with a finite balance is read back as it was written,
whenever it is read back at all. -/
theorem decodeCurrentData_encode_eq {c c' : CurrentData} (hf : isF64 c.tokens = true)
    (h : decodeCurrentData (encodeCurrentData c) = .ok c') : c' = c := by
  have h1 : Json.values [("round", Json.num c.latestRound), ("tokens", Json.num c.tokens),
      ("roundSeen", encodeSlice (fun n : Int => Json.num n) c.roundSeen)] "round"
      = [Json.num c.latestRound] := rfl
  have h2 : Json.values [("round", Json.num c.latestRound), ("tokens", Json.num c.tokens),
      ("roundSeen", encodeSlice (fun n : Int => Json.num n) c.roundSeen)] "tokens"
      = [Json.num c.tokens] := rfl
  have h3 : Json.values [("round", Json.num c.latestRound), ("tokens", Json.num c.tokens),
      ("roundSeen", encodeSlice (fun n : Int => Json.num n) c.roundSeen)] "roundSeen"
      = [encodeSlice (fun n : Int => Json.num n) c.roundSeen] := rfl
  simp only [encodeCurrentData, decodeCurrentData, h1, h2, h3, applyAll,
    intoFloat_num hf] at h
  cases hr : intoInt (Json.num (c.latestRound : ℚ)) 0 with
  | error e => rw [hr] at h; cases h
  | ok r =>
    rw [hr] at h
    simp only at h
    cases hs : intoSlice intoInt 0 (encodeSlice (fun n : Int => Json.num n) c.roundSeen)
        Buf.nil with
    | error e => rw [hs] at h; cases h
    | ok seen =>
      rw [hs] at h
      simp only at h
      injection h with h
      rw [← h, intoInt_num_eq hr, intoSlice_encodeSlice_int_eq hs]

theorem readCurrent_of_get {s : Store} {cn : String} {c c' : CurrentData}
    (hf : isF64 c.tokens = true)
    (hget : s.get (compositeKey "CurrentData" [cn]) = some (encodeCurrentData c))
    (h : readCurrent s cn = .ok c') : c' = c := by
  obtain ⟨_, doc, hdoc, hdec⟩ := readCurrent_ok h
  rw [hget] at hdoc
  injection hdoc with hdoc
  rw [← hdoc] at hdec
  exact decodeCurrentData_encode_eq hf hdec

/-- Every change of `CurChange` leaves a finite balance. -/
theorem CurChange_isF64 {w : World} {op : Op} {cur cur' : CurrentData}
    (hf : isF64 cur.tokens = true) (h : CurChange w op cur cur') : isF64 cur'.tokens = true := by
  rcases h with ⟨e, t, ht, hc⟩ | ⟨_, _, t, _, _, _, ht, hc⟩ | ⟨t, _, ht, hc⟩ | ⟨_, _, _, _, _, _, hc⟩
  · rw [hc]; exact credit64_isF64 ht
  · rw [hc]; exact round64_isF64 ht
  · rw [hc]; exact round64_isF64 ht
  · rw [hc]; exact hf

theorem readCurrent_congr {s s' : Store} (cn : String)
    (h : s'.get (compositeKey "CurrentData" [cn]) = s.get (compositeKey "CurrentData" [cn])) :
    readCurrent s' cn = readCurrent s cn := by
  unfold readCurrent
  cases hc : CreateCompositeKey "CurrentData" [cn] with
  | error e => rfl
  | ok ck =>
    have hck := CreateCompositeKey_eq_ok hc
    subst hck
    simp only [h]

theorem roundNumber_of_le {L S n : Int} (hL : inInt64 L) (hLn : L ≤ n) (hSn : S ≤ n)
    (hn : n + 1 < 2 ^ 63) : roundNumber L S = max L S + 1 := by
  rw [roundNumber_eq]
  apply wrap64_of_inInt64
  unfold inInt64 at hL ⊢
  have h1 : L ≤ max L S := le_max_left _ _
  have h2 : max L S ≤ n := max_le hLn hSn
  constructor
  · linarith [hL.1]
  · linarith

/-- One invocation raises the bound on the latest rounds by at most 1. -/
theorem RoundsBelow_step (rng : Rng) (w : World) (op : Op) (n : Int)
    (h : RoundsBelow n w) (h0 : 0 ≤ n) (hn : n + 1 < 2 ^ 63) :
    RoundsBelow (n + 1) (step rng w op) := by
  intro cn c'' hread
  rcases step_current rng w op cn with hsame | ⟨cur, cur', hcur, hget, hchange⟩ |
      ⟨clientID, key, _, _, _, hget, _⟩
  · rw [readCurrent_congr cn hsame] at hread
    have := h cn c'' hread
    linarith
  · have hc := readCurrent_of_get (CurChange_isF64 (readCurrent_wf hcur).2.2 hchange) hget hread
    subst hc
    have hb := h cn cur hcur
    rcases hchange with ⟨e, _, _, he⟩ | ⟨_, _, _, _, _, _, _, he⟩ | ⟨_, _, _, he⟩ |
        ⟨_, _, _, S, _, hS, he⟩
    · rw [he]; simp only; linarith
    · rw [he]; simp only; linarith
    · rw [he]; simp only; linarith
    · obtain ⟨scur, hscur, hsL⟩ := getLatestRound_ok hS
      have hSb := h "appserver" scur hscur
      rw [hsL] at hSb
      have hwf := readCurrent_wf hcur
      rw [he]
      simp only
      rw [roundNumber_of_le hwf.1 hb hSb hn]
      have : max cur.latestRound S ≤ n := max_le hb hSb
      linarith
  · have hc := readCurrent_of_get isF64_one hget hread
    subst hc
    simp only [freshState]
    linarith

theorem RoundsBelow_run (rng : Rng) (ops : List Op) :
    ∀ (w : World) (n : Int), RoundsBelow n w → 0 ≤ n → n + ops.length < 2 ^ 63 →
      RoundsBelow (n + ops.length) (run rng w ops) := by
  induction ops with
  | nil =>
    intro w n h _ _
    simpa [run] using h
  | cons op rest ih =>
    intro w n h h0 hn
    simp only [List.length_cons, Nat.cast_add, Nat.cast_one] at hn ⊢
    have hstep := RoundsBelow_step rng w op n h h0 (by linarith [Int.natCast_nonneg rest.length])
    have := ih (step rng w op) (n + 1) hstep (by linarith) (by linarith)
    have heq : n + (↑rest.length + 1) = n + 1 + ↑rest.length := by ring
    rw [heq]
    exact this

theorem RoundsBelow_empty : RoundsBelow 0 emptyWorld := by
  intro cn cur h
  obtain ⟨_, doc, hdoc, _⟩ := readCurrent_ok h
  simp [emptyWorld, Store.get] at hdoc

theorem wrap64_inInt64' (L S : Int) : inInt64 (roundNumber L S) := by
  rw [roundNumber_eq]
  exact wrap64_inInt64 _

theorem readCurrent_of_get_wf {s : Store} {cn : String} {c : CurrentData}
    (hkey : CreateCompositeKey "CurrentData" [cn] = .ok (compositeKey "CurrentData" [cn]))
    (hget : s.get (compositeKey "CurrentData" [cn]) = some (encodeCurrentData c))
    (hwf : c.wf) : readCurrent s cn = .ok c := by
  unfold readCurrent
  rw [hkey]
  simp only [hget, unmarshal]
  exact decodeCurrentData_encode hwf

/-- C19, counterexample. The server has submitted twice, so its latest round
is 2; alice's latest round is 0.  Her `PutData` is accepted and her latest
round becomes 3: an increase by 3, not by 1. -/
theorem PutData_jumps_to_server_round :
    getLatestRound serverTwiceWorld.state "appserver" = .ok 2 ∧
    getLatestRound serverTwiceWorld.state "alice" = .ok 0 ∧
    PutData serverTwiceWorld aliceID (some demoModel) 10 = .ok ((), submittedAfterServerTwice) ∧
    getLatestRound submittedAfterServerTwice.state "alice" = .ok 3 := by
  refine ⟨by rfl, by rfl, by rfl, by rfl⟩

/-- C19, amended. On a ledger reached from the empty ledger by fewer than
2^63 - 1 invocations, no invocation lowers the latest round of a participant;
an accepted `PutData` of the participant sets it to `max L S + 1`, where `L`
was its latest round and `S` the latest round of "appserver": an increase of
at least 1, and of more than 1 when the server is ahead. -/
theorem latestRound_progression (rng : Rng) (ops : List Op) (op : Op) (cn : String)
    (cur : CurrentData)
    (hlen : (ops.length : Int) + 1 < 2 ^ 63)
    (hvalid : op.valid)
    (hcur : readCurrent (run rng emptyWorld ops).state cn = .ok cur) :
    (∃ cur', readCurrent (step rng (run rng emptyWorld ops) op).state cn = .ok cur' ∧
      cur.latestRound ≤ cur'.latestRound) ∧
    (∀ clientID data eps w', GetCNFromClientID clientID = .ok cn →
      PutData (run rng emptyWorld ops) clientID data eps = .ok ((), w') →
      ∃ S, getLatestRound (run rng emptyWorld ops).state "appserver" = .ok S ∧
        readCurrent w'.state cn =
          .ok { latestRound := max cur.latestRound S + 1, tokens := cur.tokens,
                roundSeen := cur.roundSeen } ∧
        cur.latestRound + 1 ≤ max cur.latestRound S + 1) := by
  have hreg := Registered_run rng ops emptyWorld Registered_empty
  have hbound : RoundsBelow (ops.length : Int) (run rng emptyWorld ops) := by
    have := RoundsBelow_run rng ops emptyWorld 0 RoundsBelow_empty (le_refl _) (by linarith)
    simpa using this
  have hwf := readCurrent_wf hcur
  have hkey := (readCurrent_ok hcur).1
  have hb := hbound cn cur hcur
  constructor
  · rcases step_current rng (run rng emptyWorld ops) op cn with
      hsame | ⟨cur0, cur', hcur0, hget, hchange⟩ | ⟨clientID, key, _, hk, hnone, _, _⟩
    · exact ⟨cur, by rw [readCurrent_congr cn hsame]; exact hcur, le_refl _⟩
    · have hc : cur0 = cur := by
        rw [hcur0] at hcur
        injection hcur
      subst hc
      have hF := CurChange_isF64 hwf.2.2 hchange
      rcases hchange with ⟨e, t, _, he⟩ | ⟨cid, round, t, hop, _, _, _, he⟩ | ⟨t, _, _, he⟩ |
          ⟨_, _, _, S, _, hS, he⟩
      · refine ⟨cur', readCurrent_of_get_wf hkey hget ?_, ?_⟩
        · rw [he] at hF ⊢; exact ⟨hwf.1, hwf.2.1, hF⟩
        · rw [he]
      · have hr : inInt64 round := by
          rw [hop] at hvalid
          exact hvalid
        refine ⟨cur', readCurrent_of_get_wf hkey hget ?_, ?_⟩
        · rw [he] at hF ⊢
          refine ⟨hwf.1, ?_, hF⟩
          intro r hmem
          simp only [Slice.append, Slice.toList, List.mem_append, List.mem_singleton] at hmem
          rcases hmem with hmem | hmem
          · exact hwf.2.1 r hmem
          · rw [hmem]; exact hr
        · rw [he]
      · refine ⟨cur', readCurrent_of_get_wf hkey hget ?_, ?_⟩
        · rw [he] at hF ⊢; exact ⟨hwf.1, hwf.2.1, hF⟩
        · rw [he]
      · obtain ⟨scur, hscur, hsL⟩ := getLatestRound_ok hS
        have hSb := hbound "appserver" scur hscur
        rw [hsL] at hSb
        have hrn := roundNumber_of_le hwf.1 hb hSb hlen
        refine ⟨cur', readCurrent_of_get_wf hkey hget ?_, ?_⟩
        · rw [he]; exact ⟨wrap64_inInt64' cur0.latestRound S, hwf.2⟩
        · rw [he]
          simp only
          rw [hrn]
          have : cur0.latestRound ≤ max cur0.latestRound S := le_max_left _ _
          linarith
    · exfalso
      obtain ⟨key', hk', hsome⟩ := hreg cn (readCurrent_isSome hcur)
      rw [hk] at hk'
      injection hk' with hk'
      rw [← hk', hnone] at hsome
      cases hsome
  · intro clientID data eps w' hcn hok
    have hL := getLatestRound_of_readCurrent hcur
    cases hS : getLatestRound (run rng emptyWorld ops).state "appserver" with
    | error e =>
      exfalso
      simp only [PutData, hcn, hL, hS, orFail, bind, Except.bind] at hok
      split at hok
      · cases hok
      · split at hok
        · cases hok
        · cases hok
    | ok S =>
      obtain ⟨key0, prev, model, key, cur1, _, _, _, _, hcur1, _, hw', _⟩ :=
        PutData_ok hcn hL hS hok
      have hc : cur1 = cur := by
        rw [hcur1] at hcur
        injection hcur
      subst hc
      obtain ⟨scur, hscur, hsL⟩ := getLatestRound_ok hS
      have hSb := hbound "appserver" scur hscur
      rw [hsL] at hSb
      have hrn := roundNumber_of_le hwf.1 hb hSb hlen
      rw [hrn] at hw'
      refine ⟨S, rfl, ?_, ?_⟩
      · rw [hw']
        apply readCurrent_put_self hkey
        refine ⟨?_, hwf.2⟩
        rw [← hrn]
        exact wrap64_inInt64' cur1.latestRound S
      · have : cur1.latestRound ≤ max cur1.latestRound S := le_max_left _ _
        linarith

theorem latestRound_progression_witness :
    (∃ cur', readCurrent (step zeroRng (run zeroRng emptyWorld twoRegistrations)
        (Op.putData aliceID (some demoModel) 10)).state "alice" = .ok cur' ∧
      freshState.latestRound ≤ cur'.latestRound) ∧
    (∀ clientID data eps w', GetCNFromClientID clientID = .ok "alice" →
      PutData (run zeroRng emptyWorld twoRegistrations) clientID data eps = .ok ((), w') →
      ∃ S, getLatestRound (run zeroRng emptyWorld twoRegistrations).state "appserver" = .ok S ∧
        readCurrent w'.state "alice" =
          .ok { latestRound := max freshState.latestRound S + 1, tokens := freshState.tokens,
                roundSeen := freshState.roundSeen } ∧
        freshState.latestRound + 1 ≤ max freshState.latestRound S + 1) :=
  latestRound_progression zeroRng twoRegistrations (Op.putData aliceID (some demoModel) 10)
    "alice" freshState (by simp [twoRegistrations]) trivial (by rfl)

/-! ## Debits -/

theorem scale_nonneg (m : Nat) (e : Int) : 0 ≤ scale m e := by
  unfold scale
  split
  · exact Nat.cast_nonneg _
  · rw [Rat.mkRat_eq_div]
    positivity

theorem nearest64_nonneg {q : ℚ} (h : 0 ≤ q) : 0 ≤ nearest64 q := by
  unfold nearest64
  split
  · exact le_refl 0
  · have hn : ¬ q.num < 0 := not_lt.mpr (Rat.num_nonneg.mpr h)
    simp only [hn, if_false]
    exact scale_nonneg _ _

/-- Rounding keeps the sign of a number that is not negative. -/
theorem round64_nonneg {q r : ℚ} (h : 0 ≤ q) (hr : round64 q = some r) : 0 ≤ r := by
  unfold round64 at hr
  split at hr
  · injection hr with hr
    rw [← hr]; exact h
  · split at hr
    · injection hr with hr
      rw [← hr]; exact nearest64_nonneg h
    · cases hr

/-- C21. Debits are pre-checked: the result fetch and the key issue, the
two transaction functions that take a token, lower the balance of a
participant only when it is at least 1, and then to the 64-bit float that
`balance - 1` rounds to; so a balance that is not negative stays so and a
balance below 1 is left as it is. -/
theorem debits_prechecked (rng : Rng) (w : World) (op : Op) (cn : String)
    (cur cur' : CurrentData)
    (hop : (∃ clientID round, op = .getResult clientID round) ∨
      (∃ transMap clientID round coll, op = .putSymmetricKey transMap clientID round coll))
    (hcur : readCurrent w.state cn = .ok cur)
    (hcur' : readCurrent (step rng w op).state cn = .ok cur') :
    (cur'.tokens = cur.tokens ∨ (1 ≤ cur.tokens ∧ debit64 cur.tokens = some cur'.tokens)) ∧
    (0 ≤ cur.tokens → 0 ≤ cur'.tokens) ∧
    (cur.tokens < 1 → cur'.tokens = cur.tokens) := by
  have hmain : cur'.tokens = cur.tokens ∨
      (1 ≤ cur.tokens ∧ debit64 cur.tokens = some cur'.tokens) := by
    rcases hop with ⟨clientID, round, hop⟩ | ⟨transMap, clientID, round, coll, hop⟩
    · subst hop
      rcases commit_GetResult w clientID round with hc | ⟨cn0, cur0, t, hcur0, _, htok, hd, hc⟩
      · simp only [step, hc] at hcur'
        rw [hcur] at hcur'
        injection hcur' with h
        left; rw [h]
      · by_cases hcn : cn0 = cn
        · subst hcn
          rw [hcur0] at hcur
          injection hcur with h
          subst h
          simp only [step, hc] at hcur'
          have hF : isF64 t = true := round64_isF64 hd
          have := readCurrent_of_get hF (Store.get_put_self _ _ _) hcur'
          right
          rw [this]
          exact ⟨htok, hd⟩
        · have hne : compositeKey "CurrentData" [cn] ≠ compositeKey "CurrentData" [cn0] :=
            fun h => hcn (currentKey_injective h).symm
          simp only [step, hc] at hcur'
          rw [readCurrent_congr cn (Store.get_put_of_ne _ _ _ _ hne), hcur] at hcur'
          injection hcur' with h
          left; rw [h]
    · subst hop
      rcases commit_PutSymmetricKey w transMap clientID round coll with
        hc | ⟨cn0, cur0, t, doc, hcur0, htok, hd, hc⟩
      · simp only [step, hc] at hcur'
        rw [hcur] at hcur'
        injection hcur' with h
        left; rw [h]
      · by_cases hcn : cn0 = cn
        · subst hcn
          rw [hcur0] at hcur
          injection hcur with h
          subst h
          simp only [step, hc] at hcur'
          have hF : isF64 t = true := round64_isF64 hd
          have := readCurrent_of_get hF (Store.get_put_self _ _ _) hcur'
          right
          rw [this]
          exact ⟨htok, hd⟩
        · have hne : compositeKey "CurrentData" [cn] ≠ compositeKey "CurrentData" [cn0] :=
            fun h => hcn (currentKey_injective h).symm
          simp only [step, hc] at hcur'
          rw [readCurrent_congr cn (Store.get_put_of_ne _ _ _ _ hne), hcur] at hcur'
          injection hcur' with h
          left; rw [h]
  refine ⟨hmain, ?_, ?_⟩
  · intro h0
    rcases hmain with h | ⟨h1, h2⟩
    · rw [h]; exact h0
    · exact round64_nonneg (by linarith) h2
  · intro hlt
    rcases hmain with h | ⟨h1, _⟩
    · exact h
    · exact absurd h1 (not_le.mpr hlt)

theorem debits_prechecked_witness :
    (((0 : ℚ) = freshState.tokens) ∨
      (1 ≤ freshState.tokens ∧ debit64 freshState.tokens = some 0)) ∧
    (0 ≤ freshState.tokens → (0 : ℚ) ≤ 0) ∧
    (freshState.tokens < 1 → (0 : ℚ) = freshState.tokens) :=
  debits_prechecked zeroRng registeredWorld (Op.getResult aliceID 0) "alice" freshState
    { latestRound := 0, tokens := 0, roundSeen := some [0] }
    (Or.inl ⟨aliceID, 0, rfl⟩) (by with_unfolding_all rfl) (by with_unfolding_all rfl)

/-! ## Consumed rounds along a sequence of invocations -/

theorem CurChange_wf {w : World} {op : Op} {cur cur' : CurrentData}
    (hvalid : op.valid) (hwf : cur.wf) (h : CurChange w op cur cur') : cur'.wf := by
  have hF := CurChange_isF64 hwf.2.2 h
  rcases h with ⟨e, t, _, he⟩ | ⟨cid, round, t, hop, _, _, _, he⟩ | ⟨t, _, _, he⟩ |
      ⟨_, _, _, S, _, _, he⟩
  · rw [he] at hF ⊢; exact ⟨hwf.1, hwf.2.1, hF⟩
  · have hr : inInt64 round := by
      rw [hop] at hvalid
      exact hvalid
    rw [he] at hF ⊢
    refine ⟨hwf.1, ?_, hF⟩
    intro r hmem
    simp only [Slice.append, Slice.toList, List.mem_append, List.mem_singleton] at hmem
    rcases hmem with hmem | hmem
    · exact hwf.2.1 r hmem
    · rw [hmem]; exact hr
  · rw [he] at hF ⊢; exact ⟨hwf.1, hwf.2.1, hF⟩
  · rw [he]; exact ⟨wrap64_inInt64' cur.latestRound S, hwf.2⟩

theorem CurChange_seen {w : World} {op : Op} {cur cur' : CurrentData}
    (h : CurChange w op cur cur') :
    (∀ r ∈ Slice.toList cur.roundSeen, r ∈ Slice.toList cur'.roundSeen) ∧
    ((Slice.toList cur.roundSeen).Nodup → (Slice.toList cur'.roundSeen).Nodup) := by
  rcases h with ⟨e, _, _, he⟩ | ⟨cid, round, _, _, hseen, _, _, he⟩ | ⟨_, _, _, he⟩ |
      ⟨_, _, _, S, _, _, he⟩
  · rw [he]; exact ⟨fun r hr => hr, fun hn => hn⟩
  · rw [he]
    simp only [Slice.append, Slice.toList]
    refine ⟨fun r hr => List.mem_append_left _ hr, fun hn => ?_⟩
    apply List.Nodup.append hn (List.nodup_singleton _)
    intro x hx hx'
    rw [List.mem_singleton] at hx'
    rw [hx'] at hx
    exact hseen hx
  · rw [he]; exact ⟨fun r hr => hr, fun hn => hn⟩
  · rw [he]; exact ⟨fun r hr => hr, fun hn => hn⟩

/-- On a ledger that satisfies `Registered`, a participant state that can be
read can still be read after any invocation with Go `int` arguments, and it
is the old state or one of the changes of `CurChange`. -/
theorem step_readable (rng : Rng) (w : World) (op : Op) (cn : String) (cur : CurrentData)
    (hreg : Registered w) (hvalid : op.valid)
    (hcur : readCurrent w.state cn = .ok cur) :
    ∃ cur', readCurrent (step rng w op).state cn = .ok cur' ∧
      (cur' = cur ∨ CurChange w op cur cur') := by
  have hwf := readCurrent_wf hcur
  have hkey := (readCurrent_ok hcur).1
  rcases step_current rng w op cn with
    hsame | ⟨cur0, cur', hcur0, hget, hchange⟩ | ⟨clientID, key, _, hk, hnone, _, _⟩
  · exact ⟨cur, by rw [readCurrent_congr cn hsame]; exact hcur, Or.inl rfl⟩
  · have hc : cur0 = cur := by
      rw [hcur0] at hcur
      injection hcur
    rw [hc] at hchange
    exact ⟨cur', readCurrent_of_get_wf hkey hget (CurChange_wf hvalid hwf hchange),
      Or.inr hchange⟩
  · exfalso
    obtain ⟨key', hk', hsome⟩ := hreg cn (readCurrent_isSome hcur)
    rw [hk] at hk'
    injection hk' with hk'
    rw [← hk', hnone] at hsome
    cases hsome

theorem SeenNodup_step (rng : Rng) (w : World) (op : Op) (h : SeenNodup w) :
    SeenNodup (step rng w op) := by
  intro cn c'' hread
  rcases step_current rng w op cn with hsame | ⟨cur, cur', hcur, hget, hchange⟩ |
      ⟨clientID, key, _, _, _, hget, _⟩
  · rw [readCurrent_congr cn hsame] at hread
    exact h cn c'' hread
  · have hc := readCurrent_of_get (CurChange_isF64 (readCurrent_wf hcur).2.2 hchange) hget hread
    rw [hc]
    exact (CurChange_seen hchange).2 (h cn cur hcur)
  · have hc := readCurrent_of_get isF64_one hget hread
    rw [hc]
    simp [freshState, Slice.toList]

theorem SeenNodup_run (rng : Rng) (ops : List Op) :
    ∀ w, SeenNodup w → SeenNodup (run rng w ops) := by
  induction ops with
  | nil => intro w h; exact h
  | cons op rest ih =>
    intro w h
    exact ih _ (SeenNodup_step rng w op h)

theorem SeenNodup_empty : SeenNodup emptyWorld := by
  intro cn cur h
  obtain ⟨_, doc, hdoc, _⟩ := readCurrent_ok h
  simp [emptyWorld, Store.get] at hdoc

theorem run_seen_grows (rng : Rng) (later : List Op) :
    ∀ (w : World) (cn : String) (cur : CurrentData), Registered w →
      (∀ op ∈ later, op.valid) → readCurrent w.state cn = .ok cur →
      ∃ cur', readCurrent (run rng w later).state cn = .ok cur' ∧
        ∀ r ∈ Slice.toList cur.roundSeen, r ∈ Slice.toList cur'.roundSeen := by
  induction later with
  | nil =>
    intro w cn cur _ _ hcur
    exact ⟨cur, hcur, fun r hr => hr⟩
  | cons op rest ih =>
    intro w cn cur hreg hvalid hcur
    obtain ⟨cur1, hcur1, hcase⟩ :=
      step_readable rng w op cn cur hreg (hvalid op (List.mem_cons_self _ _)) hcur
    obtain ⟨cur', hcur', hsub⟩ := ih (step rng w op) cn cur1 (Registered_step rng w op hreg)
      (fun o ho => hvalid o (List.mem_cons_of_mem _ ho)) hcur1
    refine ⟨cur', hcur', ?_⟩
    intro r hr
    apply hsub
    rcases hcase with hc | hc
    · rw [hc]; exact hr
    · exact (CurChange_seen hc).1 r hr

theorem run_append (rng : Rng) (w : World) (ops later : List Op) :
    run rng w (ops ++ later) = run rng (run rng w ops) later := by
  simp [run, List.foldl_append]

/-- C22. Consumed rounds: on every ledger reached from the empty ledger the
consumed rounds of a participant contain no round twice, and after any
further invocations the participant's state still contains every round it
contained, again without repetition. -/
theorem roundSeen_nodup_and_grows (rng : Rng) (ops later : List Op) (cn : String)
    (cur : CurrentData)
    (hvalid : ∀ op ∈ later, op.valid)
    (hcur : readCurrent (run rng emptyWorld ops).state cn = .ok cur) :
    (Slice.toList cur.roundSeen).Nodup ∧
    ∃ cur', readCurrent (run rng emptyWorld (ops ++ later)).state cn = .ok cur' ∧
      (Slice.toList cur'.roundSeen).Nodup ∧
      ∀ r ∈ Slice.toList cur.roundSeen, r ∈ Slice.toList cur'.roundSeen := by
  have hnd := SeenNodup_run rng ops emptyWorld SeenNodup_empty
  have hreg := Registered_run rng ops emptyWorld Registered_empty
  refine ⟨hnd cn cur hcur, ?_⟩
  obtain ⟨cur', hcur', hsub⟩ :=
    run_seen_grows rng later (run rng emptyWorld ops) cn cur hreg hvalid hcur
  rw [run_append]
  refine ⟨cur', hcur', ?_, hsub⟩
  exact SeenNodup_run rng later _ hnd cn cur' hcur'

theorem roundSeen_nodup_and_grows_witness :
    (Slice.toList (some [(0 : Int)])).Nodup ∧
    ∃ cur', readCurrent (run zeroRng emptyWorld (fetchOps ++ laterOps)).state "alice"
        = .ok cur' ∧
      (Slice.toList cur'.roundSeen).Nodup ∧
      ∀ r ∈ Slice.toList (some [(0 : Int)]), r ∈ Slice.toList cur'.roundSeen :=
  roundSeen_nodup_and_grows zeroRng fetchOps laterOps "alice"
    { latestRound := 0, tokens := 1 - 1, roundSeen := some [0] }
    (by
      intro op hop
      simp only [laterOps, List.mem_cons, List.mem_singleton, List.mem_nil_iff, or_false] at hop
      rcases hop with h | h
      · rw [h]; exact (by decide : inInt64 0)
      · rw [h]; trivial)
    (by with_unfolding_all rfl)

/-! ## Round records along a sequence of invocations -/

theorem roundKey_eq {cn cn' : String} {round round' : Int} {key : String}
    (h1 : getKeyFromCN cn round = .ok key) (h2 : getKeyFromCN cn' round' = .ok key) :
    cn = cn' ∧ round = round' := by
  have hv1 := getKeyFromCN_valid h1
  have hv2 := getKeyFromCN_valid h2
  have hk1 := getKeyFromCN_ok h1
  have hk2 := getKeyFromCN_ok h2
  have hp : ∀ c : String,
      Char.ofNat 0 ∉ (if c = "appserver" then "Server" else "Client" : String).data := by
    intro c
    split <;> decide
  have heq := congrArg String.data (hk1.symm.trans hk2)
  simp only [compositeKey, List.foldr, List.cons.injEq, true_and] at heq
  obtain ⟨_, hrest⟩ := split_at_separator _ _ _ _ (hp cn) (hp cn') heq
  obtain ⟨hr, hc⟩ := split_at_separator _ _ _ _ (validate_no_separator hv1.1)
    (validate_no_separator hv2.1) hrest
  exact ⟨String.ext (List.append_cancel_right hc), Int_toString_injective (String.ext hr)⟩

theorem keyRequests_ne_roundKey {cn : String} {round : Int} {key : String}
    (h : getKeyFromCN cn round = .ok key) : "KeyRequests" ≠ key := by
  intro heq
  have hk := getKeyFromCN_ok h
  rw [← heq] at hk
  have hdata := congrArg String.data hk
  have hK : "KeyRequests".data = ['K', 'e', 'y', 'R', 'e', 'q', 'u', 'e', 's', 't', 's'] := rfl
  simp [compositeKey, hK] at hdata

theorem commit_PutGlobalWeights_caller (w : World) (serverID data : String) (round : Int) :
    commit w (PutGlobalWeights w serverID data round) = w ∨
    ∃ cn key, GetCNFromClientID serverID = .ok cn ∧ getKeyFromCN cn round = .ok key ∧
      commit w (PutGlobalWeights w serverID data round) =
        { w with state := w.state.put key (encodeServerData { data := data, round := round }) } := by
  cases hcn : GetCNFromClientID serverID with
  | error e => left; simp only [PutGlobalWeights, hcn, orFail, bind, Except.bind, commit]
  | ok cn =>
    cases hkey : getKeyFromCN cn round with
    | error e => left; simp only [PutGlobalWeights, hcn, hkey, orFail, bind, Except.bind, commit]
    | ok key =>
      right
      refine ⟨cn, key, rfl, hkey, ?_⟩
      simp only [PutGlobalWeights, hcn, hkey, orFail, bind, Except.bind, commit]

/-- C23, counterexample. The server record of round 1 holds `agg1`; a second
`PutGlobalWeights` for round 1 replaces it by `agg2`.  Alice's own record of
round 1 is replaced when she calls `PutGlobalWeights` for round 1. -/
theorem PutGlobalWeights_overwrites :
    publishedWorld.state.get (compositeKey "Server" ["1", "appserver"])
      = some (encodeServerData { data := "agg1", round := 1 }) ∧
    (commit publishedWorld (PutGlobalWeights publishedWorld serverID "agg2" 1)).state.get
        (compositeKey "Server" ["1", "appserver"])
      = some (encodeServerData { data := "agg2", round := 1 }) ∧
    encodeServerData { data := "agg1", round := 1 }
      ≠ encodeServerData { data := "agg2", round := 1 } ∧
    submittedWorld.state.get (compositeKey "Client" ["1", "alice"])
      = some (encodeClientData aliceRound1) ∧
    (commit submittedWorld (PutGlobalWeights submittedWorld aliceID "x" 1)).state.get
        (compositeKey "Client" ["1", "alice"])
      = some (encodeServerData { data := "x", round := 1 }) := by
  refine ⟨by rfl, by rfl, ?_, by rfl, by rfl⟩
  intro h
  simp [encodeServerData] at h

/-- C23, amended. The value stored under the round key of a name and a round
is left unchanged by every invocation except three: `PutGlobalWeights` by
that name for that round, `PutData` by that name when that round is the round
it computes, and `InitLedger` by that name for round 0 when nothing is stored
under the key yet.  Hence a record that exists is never changed by
registration, selection, result fetch or the key operations, nor by the
submissions and publications of other names or for other rounds. -/
theorem round_record_changes (rng : Rng) (w : World) (op : Op) (cn : String) (round : Int)
    (key : String)
    (hkey : getKeyFromCN cn round = .ok key) :
    (step rng w op).state.get key = w.state.get key ∨
    (∃ serverID data, op = .putGlobalWeights serverID data round ∧
      GetCNFromClientID serverID = .ok cn) ∨
    (∃ clientID data eps cur S, op = .putData clientID data eps ∧
      GetCNFromClientID clientID = .ok cn ∧ readCurrent w.state cn = .ok cur ∧
      getLatestRound w.state "appserver" = .ok S ∧ round = roundNumber cur.latestRound S) ∨
    (∃ clientID, op = .initLedger clientID ∧ GetCNFromClientID clientID = .ok cn ∧
      round = 0 ∧ w.state.get key = none) := by
  have hne : key ≠ compositeKey "CurrentData" [cn] := currentKey_ne_getKeyFromCN cn hkey
  have hneAll : ∀ c, key ≠ compositeKey "CurrentData" [c] :=
    fun c => currentKey_ne_getKeyFromCN c hkey
  cases op with
  | initLedger clientID =>
    rcases commit_InitLedger w clientID with hc | ⟨cn0, key0, doc, hcn0, hkey0, hget, hc⟩
    · left; simp only [step, hc]
    · by_cases hk : key = key0
      · subst hk
        obtain ⟨h1, h2⟩ := roundKey_eq hkey hkey0
        right; right; right
        exact ⟨clientID, rfl, by rw [h1]; exact hcn0, h2, hget⟩
      · left
        simp only [step, hc, Store.get_put_of_ne _ _ _ _ (hneAll cn0),
          Store.get_put_of_ne _ _ _ _ hk]
  | putData clientID data eps =>
    rcases commit_PutData w clientID data eps with
      hc | ⟨cn0, S, key0, doc, cur, hcn0, hS, hkey0, hcur, _, hc⟩
    · left; simp only [step, hc]
    · by_cases hk : key = key0
      · subst hk
        obtain ⟨h1, h2⟩ := roundKey_eq hkey hkey0
        right; right; left
        subst h1
        exact ⟨clientID, data, eps, cur, S, rfl, hcn0, hcur, hS, h2⟩
      · left
        simp only [step, hc, Store.get_put_of_ne _ _ _ _ (hneAll cn0),
          Store.get_put_of_ne _ _ _ _ hk]
  | getRoundData serverID num seed =>
    rcases commit_GetRoundData rng w serverID num seed with hc | ⟨r, sel, acc', hloop, hc⟩
    · left; simp only [step, hc]
    · left
      simp only [step, hc]
      exact creditLoop_other key hneAll sel _ acc' hloop
  | putGlobalWeights serverID data round0 =>
    rcases commit_PutGlobalWeights_caller w serverID data round0 with
      hc | ⟨cn0, key0, hcn0, hkey0, hc⟩
    · left; simp only [step, hc]
    · by_cases hk : key = key0
      · subst hk
        obtain ⟨h1, h2⟩ := roundKey_eq hkey hkey0
        right; left
        subst h1 h2
        exact ⟨serverID, data, rfl, hcn0⟩
      · left
        simp only [step, hc, Store.get_put_of_ne _ _ _ _ hk]
  | requestKey clientID round0 =>
    rcases commit_RequestKey w clientID round0 with hc | ⟨doc, hc⟩
    · left; simp only [step, hc]
    · left
      simp only [step, hc, Store.get_put_of_ne _ _ _ _ (Ne.symm (keyRequests_ne_roundKey hkey))]
  | getKeyRequests =>
    rcases commit_GetKeyRequests w with hc | ⟨doc, hc⟩
    · left; simp only [step, hc]
    · left
      simp only [step, hc, Store.get_put_of_ne _ _ _ _ (Ne.symm (keyRequests_ne_roundKey hkey))]
  | putSymmetricKey transMap clientID round0 coll =>
    rcases commit_PutSymmetricKey w transMap clientID round0 coll with
      hc | ⟨cn0, cur, doc, _, _, hc⟩
    · left; simp only [step, hc]
    · left
      simp only [step, hc, Store.get_put_of_ne _ _ _ _ (hneAll cn0)]
  | getSymmetricKey round0 coll =>
    left; simp only [step, commit_GetSymmetricKey]
  | getData clientID =>
    left; simp only [step, commit_GetData]
  | getResult clientID round0 =>
    rcases commit_GetResult w clientID round0 with hc | ⟨cn0, cur, _, _, _, hc⟩
    · left; simp only [step, hc]
    · left
      simp only [step, hc, Store.get_put_of_ne _ _ _ _ (hneAll cn0)]

theorem round_record_changes_witness :
    (step zeroRng submittedWorld (Op.getResult aliceID 0)).state.get
        (compositeKey "Client" ["1", "alice"])
      = submittedWorld.state.get (compositeKey "Client" ["1", "alice"]) ∨
    (∃ serverID data, Op.getResult aliceID 0 = .putGlobalWeights serverID data 1 ∧
      GetCNFromClientID serverID = .ok "alice") ∨
    (∃ clientID data eps cur S, Op.getResult aliceID 0 = .putData clientID data eps ∧
      GetCNFromClientID clientID = .ok "alice" ∧
      readCurrent submittedWorld.state "alice" = .ok cur ∧
      getLatestRound submittedWorld.state "appserver" = .ok S ∧
      (1 : Int) = roundNumber cur.latestRound S) ∨
    (∃ clientID, Op.getResult aliceID 0 = .initLedger clientID ∧
      GetCNFromClientID clientID = .ok "alice" ∧
      (1 : Int) = 0 ∧ submittedWorld.state.get (compositeKey "Client" ["1", "alice"]) = none) :=
  round_record_changes zeroRng submittedWorld (Op.getResult aliceID 0) "alice" 1
    (compositeKey "Client" ["1", "alice"]) (by rfl)

/-! ## The key request queue -/

theorem step_keyRequests_absent (rng : Rng) (w : World) (op : Op)
    (h : w.state.get "KeyRequests" = none) : (step rng w op).state.get "KeyRequests" = none := by
  have hcur : ∀ c, "KeyRequests" ≠ compositeKey "CurrentData" [c] := keyRequests_ne_currentKey
  cases op with
  | initLedger clientID =>
    rcases commit_InitLedger w clientID with hc | ⟨cn0, key0, doc, hcn0, hkey0, hget, hc⟩
    · simp only [step, hc, h]
    · simp only [step, hc, Store.get_put_of_ne _ _ _ _ (hcur cn0),
        Store.get_put_of_ne _ _ _ _ (keyRequests_ne_roundKey hkey0), h]
  | putData clientID data eps =>
    rcases commit_PutData w clientID data eps with
      hc | ⟨cn0, S, key0, doc, cur, hcn0, hS, hkey0, hcur0, _, hc⟩
    · simp only [step, hc, h]
    · simp only [step, hc, Store.get_put_of_ne _ _ _ _ (hcur cn0),
        Store.get_put_of_ne _ _ _ _ (keyRequests_ne_roundKey hkey0), h]
  | getRoundData serverID num seed =>
    rcases commit_GetRoundData rng w serverID num seed with hc | ⟨r, sel, acc', hloop, hc⟩
    · simp only [step, hc, h]
    · simp only [step, hc]
      rw [creditLoop_other "KeyRequests" hcur sel _ acc' hloop]
      exact h
  | putGlobalWeights serverID data round0 =>
    rcases commit_PutGlobalWeights_caller w serverID data round0 with
      hc | ⟨cn0, key0, hcn0, hkey0, hc⟩
    · simp only [step, hc, h]
    · simp only [step, hc, Store.get_put_of_ne _ _ _ _ (keyRequests_ne_roundKey hkey0), h]
  | requestKey clientID round0 =>
    have hc : commit w (RequestKey w clientID round0) = w := by
      cases hcn : GetCNFromClientID clientID with
      | error e => simp only [RequestKey, hcn, orFail, bind, Except.bind, commit]
      | ok cn => simp only [RequestKey, hcn, h, unmarshal, orFail, bind, Except.bind, commit]
    simp only [step, hc, h]
  | getKeyRequests =>
    have hc : commit w (GetKeyRequests w) = w := by
      simp only [GetKeyRequests, h, unmarshal, orFail, bind, Except.bind, commit]
    simp only [step, hc, h]
  | putSymmetricKey transMap clientID round0 coll =>
    rcases commit_PutSymmetricKey w transMap clientID round0 coll with
      hc | ⟨cn0, cur, t, doc, _, _, _, hc⟩
    · simp only [step, hc, h]
    · simp only [step, hc, Store.get_put_of_ne _ _ _ _ (hcur cn0), h]
  | getSymmetricKey round0 coll =>
    simp only [step, commit_GetSymmetricKey, h]
  | getData clientID =>
    simp only [step, commit_GetData, h]
  | getResult clientID round0 =>
    rcases commit_GetResult w clientID round0 with hc | ⟨cn0, cur, t, _, _, _, _, hc⟩
    · simp only [step, hc, h]
    · simp only [step, hc, Store.get_put_of_ne _ _ _ _ (hcur cn0), h]

theorem run_keyRequests_absent (rng : Rng) (ops : List Op) :
    ∀ w : World, w.state.get "KeyRequests" = none →
      (run rng w ops).state.get "KeyRequests" = none := by
  induction ops with
  | nil => intro w h; exact h
  | cons op rest ih =>
    intro w h
    exact ih (step rng w op) (step_keyRequests_absent rng w op h)

/-- C24, the append never happens. After every sequence of invocations from
the freshly deployed ledger, `RequestKey` fails, whoever calls and whatever
the round, and the ledger holds no queue document after the call: no round
and no name has been appended.  So it is for bob asking for the key of round
3 after the three registrations. -/
theorem RequestKey_never_appends :
    RequestKey registeredWorld bobID 3 = .error "failed to unmarshal key requests" ∧
    ∀ (rng : Rng) (ops : List Op) (clientID : String) (round : Int),
      (∃ e, RequestKey (run rng emptyWorld ops) clientID round = .error e) ∧
      (step rng (run rng emptyWorld ops) (.requestKey clientID round)).state.get "KeyRequests"
        = none := by
  refine ⟨by with_unfolding_all rfl, ?_⟩
  intro rng ops clientID round
  have h := run_keyRequests_absent rng ops emptyWorld (by rfl)
  refine ⟨?_, step_keyRequests_absent rng _ _ h⟩
  cases hcn : GetCNFromClientID clientID with
  | error e =>
    exact ⟨"failed to get CN from client ID",
      by simp only [RequestKey, hcn, orFail, bind, Except.bind]⟩
  | ok cn =>
    exact ⟨"failed to unmarshal key requests",
      by simp only [RequestKey, hcn, h, unmarshal, orFail, bind, Except.bind]⟩

/-- C25, the drain never returns. After every sequence of invocations from
the freshly deployed ledger, `GetKeyRequests` fails on decoding the absent
queue document: it returns no snapshot, and the ledger holds no queue
document after the call, so a drain that follows fails the same way. -/
theorem GetKeyRequests_never_drains :
    ∀ (rng : Rng) (ops : List Op),
      GetKeyRequests (run rng emptyWorld ops) = .error "failed to unmarshal key requests" ∧
      (step rng (run rng emptyWorld ops) .getKeyRequests).state.get "KeyRequests" = none ∧
      GetKeyRequests (step rng (run rng emptyWorld ops) .getKeyRequests)
        = .error "failed to unmarshal key requests" := by
  intro rng ops
  have h := run_keyRequests_absent rng ops emptyWorld (by rfl)
  have h' := step_keyRequests_absent rng _ Op.getKeyRequests h
  refine ⟨?_, h', ?_⟩
  · simp only [GetKeyRequests, h, unmarshal, orFail, bind, Except.bind]
  · simp only [GetKeyRequests, h', unmarshal, orFail, bind, Except.bind]

/-- C26, the queue is never created. On the freshly deployed ledger, and on
the ledger after the three registrations, `RequestKey` by a registered caller
fails on decoding the absent queue document and `GetKeyRequests` fails the
same way; and after every sequence of invocations from the empty ledger
every `RequestKey` call fails, whoever calls and whatever the round. -/
theorem RequestKey_fails_without_queue :
    RequestKey emptyWorld aliceID 1 = .error "failed to unmarshal key requests" ∧
    RequestKey registeredWorld aliceID 1 = .error "failed to unmarshal key requests" ∧
    GetKeyRequests registeredWorld = .error "failed to unmarshal key requests" ∧
    ∀ (rng : Rng) (ops : List Op) (clientID : String) (round : Int),
      ∃ e, RequestKey (run rng emptyWorld ops) clientID round = .error e := by
  refine ⟨by rfl, by rfl, by rfl, ?_⟩
  intro rng ops clientID round
  have h := run_keyRequests_absent rng ops emptyWorld (by rfl)
  cases hcn : GetCNFromClientID clientID with
  | error e =>
    exact ⟨"failed to get CN from client ID",
      by simp only [RequestKey, hcn, orFail, bind, Except.bind]⟩
  | ok cn =>
    exact ⟨"failed to unmarshal key requests",
      by simp only [RequestKey, hcn, h, unmarshal, orFail, bind, Except.bind]⟩

/-! ## Repeated selection -/

theorem mem_insertKey_iff {k x : String} : ∀ l : List String,
    x ∈ insertKey k l ↔ x = k ∨ x ∈ l := by
  intro l
  refine ⟨mem_insertKey l, ?_⟩
  induction l with
  | nil =>
    intro h
    simp only [insertKey, List.mem_singleton]
    rcases h with h | h
    · exact h
    · cases h
  | cons k' rest ih =>
    intro h
    simp only [insertKey]
    split
    · rcases h with h | h
      · rw [h]; exact List.mem_cons_self _ _
      · exact List.mem_cons_of_mem _ h
    · split
      · rename_i hkk
        rcases h with h | h
        · rw [h, hkk]; exact List.mem_cons_self _ _
        · exact h
      · rcases h with h | h
        · exact List.mem_cons_of_mem _ (ih (Or.inl h))
        · rcases List.mem_cons.mp h with h | h
          · rw [h]; exact List.mem_cons_self _ _
          · exact List.mem_cons_of_mem _ (ih (Or.inr h))

theorem Store.mem_keys (s : Store) (k : String) :
    k ∈ Store.keys s ↔ (s.get k).isSome = true := by
  induction s with
  | nil => simp [Store.keys, Store.get]
  | cons p rest ih =>
    obtain ⟨k', v⟩ := p
    have hkeys : Store.keys ((k', v) :: rest) = insertKey k' (Store.keys rest) := rfl
    rw [hkeys, mem_insertKey_iff, ih]
    simp only [Store.get]
    by_cases hk : k = k'
    · simp [hk]
    · simp [hk]

theorem Store.keys_congr {s s' : Store}
    (h : ∀ k, (s'.get k).isSome = (s.get k).isSome) : Store.keys s' = Store.keys s := by
  haveI : IsAntisymm String (fun a b => keyLt a b = true) :=
    ⟨fun a b hab hba => by
      have h := keyLt_trans hab hba
      rw [keyLt_irrefl] at h
      cases h⟩
  apply List.eq_of_perm_of_sorted _ (Store.keys_sorted s') (Store.keys_sorted s)
  rw [List.perm_ext_iff_of_nodup (Store.keys_nodup s') (Store.keys_nodup s)]
  intro k
  rw [Store.mem_keys, Store.mem_keys, h k]

theorem creditLoop_isSome {s : Store} {round : Int} {keys : List String}
    {acc' : List NeuralNetworkModel × Store}
    (hloop : creditLoop s round keys ([], s) = .ok acc') (k : String) :
    (acc'.2.get k).isSome = (s.get k).isSome := by
  by_cases hk : ∃ cn, k = compositeKey "CurrentData" [cn]
  · obtain ⟨cn, hcn⟩ := hk
    subst hcn
    rcases creditLoop_current cn keys _ acc' hloop with h | ⟨cur, e, t, hcur, _, h⟩
    · rw [h]
    · obtain ⟨_, doc, hdoc, _⟩ := readCurrent_ok hcur
      rw [h, hdoc]
      rfl
  · have hne : ∀ cn, k ≠ compositeKey "CurrentData" [cn] := fun cn h => hk ⟨cn, h⟩
    rw [creditLoop_other k hne keys _ acc' hloop]

theorem SelectSubSet_congr (rng : Rng) {s s' : Store} (num seed round : Int)
    (h : Store.keys s' = Store.keys s) :
    SelectSubSet rng s' num seed round = SelectSubSet rng s num seed round := by
  simp only [SelectSubSet, GetStateByPartialCompositeKey, h]

theorem currentKey_not_in_pool (cn r : String) :
    (!keyLt (compositeKey "CurrentData" [cn]) (compositeKey "Client" [r]) &&
      keyLt (compositeKey "CurrentData" [cn])
        (compositeKey "Client" [r] ++ String.singleton (Char.ofNat 0x10FFFF))) = false := by
  have hC : "Client".data = ['C', 'l', 'i', 'e', 'n', 't'] := rfl
  have hD : "CurrentData".data = ['C', 'u', 'r', 'r', 'e', 'n', 't', 'D', 'a', 't', 'a'] := rfl
  have h2 : keyLt (compositeKey "CurrentData" [cn])
      (compositeKey "Client" [r] ++ String.singleton (Char.ofNat 0x10FFFF)) = false := by
    have n0 : ¬ (Char.ofNat 0).toNat < (Char.ofNat 0).toNat := by decide
    have nC : ¬ 'C'.toNat < 'C'.toNat := by decide
    have nu : ¬ 'u'.toNat < 'l'.toNat := by decide
    have pl : 'l'.toNat < 'u'.toNat := by decide
    simp only [keyLt, compositeKey, String.data_append, hC, hD, List.cons_append, ltChars,
      n0, nC, nu, pl, if_true, if_false]
  rw [h2, Bool.and_false]

theorem SelectSubSet_not_current {rng : Rng} {s : Store} {num seed round : Int}
    {selected : List String}
    (hsel : SelectSubSet rng s num seed round = .ok selected) :
    ∀ key ∈ selected, ∀ cn, key ≠ compositeKey "CurrentData" [cn] := by
  cases hpool : GetStateByPartialCompositeKey s "Client" [toString round] with
  | error e => simp [SelectSubSet, hpool, orFail, bind, Except.bind] at hsel
  | ok pool =>
    have hmem : ∀ key ∈ selected, key ∈ pool := by
      intro key hkey
      simp only [SelectSubSet, hpool, orFail, bind, Except.bind] at hsel
      split at hsel
      · injection hsel with hsel
        rw [hsel]; exact hkey
      · split at hsel
        · cases hsel
        · injection hsel with hsel
          rw [← hsel] at hkey
          exact (Shuffle_perm rng seed pool).subset (List.mem_of_mem_take hkey)
    intro key hkey cn heq
    have hp := hmem key hkey
    unfold GetStateByPartialCompositeKey at hpool
    split at hpool
    · cases hpool
    · rename_i start hstart
      have hst := CreateCompositeKey_eq_ok hstart
      injection hpool with hpool
      rw [← hpool, List.mem_filter, heq, hst, currentKey_not_in_pool] at hp
      cases hp.2

theorem creditLoop_readable {s : Store} {round : Int} {keys : List String}
    {acc' : List NeuralNetworkModel × Store} {cn : String} {cur : CurrentData}
    (hloop : creditLoop s round keys ([], s) = .ok acc')
    (hcur : readCurrent s cn = .ok cur) :
    ∃ cur', readCurrent acc'.2 cn = .ok cur' ∧ cur'.latestRound = cur.latestRound ∧
      cur'.roundSeen = cur.roundSeen := by
  rcases creditLoop_current cn keys _ acc' hloop with h | ⟨cur0, e, t, hcur0, ht, h⟩
  · exact ⟨cur, by rw [readCurrent_congr cn h]; exact hcur, rfl, rfl⟩
  · rw [hcur] at hcur0
    injection hcur0 with hcur0
    subst hcur0
    have hwf := readCurrent_wf hcur
    exact ⟨{ cur with tokens := t },
      readCurrent_of_get_wf (readCurrent_ok hcur).1 h ⟨hwf.1, hwf.2.1, credit64_isF64 ht⟩,
      rfl, rfl⟩

/-- Two runs of the loop over the same keys, on ledgers that hold the same
records under these keys, collect the same models. -/
theorem creditLoop_models {s s' : Store} {round : Int} :
    ∀ (keys : List String) (acc acc' acc2 acc2' : List NeuralNetworkModel × Store),
      (∀ key ∈ keys, s'.get key = s.get key) →
      creditLoop s round keys acc = .ok acc' →
      creditLoop s' round keys acc2 = .ok acc2' →
      ∃ ms, acc'.1 = acc.1 ++ ms ∧ acc2'.1 = acc2.1 ++ ms := by
  intro keys
  induction keys with
  | nil =>
    intro acc acc' acc2 acc2' _ hloop hloop2
    simp only [creditLoop, Except.ok.injEq] at hloop hloop2
    refine ⟨[], ?_, ?_⟩
    · rw [hloop, List.append_nil]
    · rw [hloop2, List.append_nil]
  | cons key rest ih =>
    intro acc acc' acc2 acc2' hrec hloop hloop2
    simp only [creditLoop] at hloop hloop2
    have hrest : ∀ k ∈ rest, s'.get k = s.get k := fun k hk => hrec k (List.mem_cons_of_mem _ hk)
    cases hstep : creditStep s round acc key with
    | error e' => rw [hstep] at hloop; cases hloop
    | ok acc1 =>
      cases hstep2 : creditStep s' round acc2 key with
      | error e' => rw [hstep2] at hloop2; cases hloop2
      | ok acc21 =>
        rw [hstep] at hloop
        rw [hstep2] at hloop2
        simp only at hloop hloop2
        obtain ⟨ms, h1, h2⟩ := ih acc1 acc' acc21 acc2' hrest hloop hloop2
        obtain ⟨cd, hcd, hcase⟩ := creditStep_ok hstep
        obtain ⟨cd2, hcd2, hcase2⟩ := creditStep_ok hstep2
        have hcdeq : cd2 = cd := by
          rw [hrec key (List.mem_cons_self _ _), hcd] at hcd2
          injection hcd2 with h
          exact h.symm
        subst hcdeq
        rcases hcase with ⟨hr, hacc⟩ | ⟨hr, _, _, _, _, _, _, hacc⟩
        · rcases hcase2 with ⟨_, hacc2⟩ | ⟨hr2, _⟩
          · refine ⟨ms, ?_, ?_⟩
            · rw [h1, hacc]
            · rw [h2, hacc2]
          · exact absurd hr2 hr
        · rcases hcase2 with ⟨hr2, _⟩ | ⟨_, _, _, _, _, _, _, hacc2⟩
          · exact absurd hr hr2
          · refine ⟨cd2.data :: ms, ?_, ?_⟩
            · rw [h1, hacc]
              simp only [List.append_assoc, List.singleton_append]
            · rw [h2, hacc2]
              simp only [List.append_assoc, List.singleton_append]

theorem GetRoundData_nonempty {rng : Rng} {w w' : World} {serverID : String} {num seed : Int}
    {models : List NeuralNetworkModel}
    (hok : GetRoundData rng w serverID num seed = .ok (models, w')) : models.length ≠ 0 := by
  cases hscn : GetCNFromClientID serverID with
  | error e => simp [GetRoundData, hscn, orFail, bind, Except.bind] at hok
  | ok scn =>
    cases hL : getLatestRound w.state scn with
    | error e => simp [GetRoundData, hscn, hL, orFail, bind, Except.bind] at hok
    | ok L =>
      cases hsel : SelectSubSet rng w.state num seed (wrap64 (L + 1)) with
      | error e => simp [GetRoundData, hscn, hL, hsel, orFail, bind, Except.bind] at hok
      | ok selected =>
        cases hloop : creditLoop w.state (wrap64 (L + 1)) selected ([], w.state) with
        | error e => simp [GetRoundData, hscn, hL, hsel, hloop, orFail, bind, Except.bind] at hok
        | ok acc' =>
          obtain ⟨ms, st⟩ := acc'
          simp only [GetRoundData, hscn, hL, hsel, hloop, orFail, bind, Except.bind] at hok
          split at hok
          · cases hok
          · rename_i hlen
            simp only [Except.ok.injEq, Prod.mk.injEq] at hok
            rw [← hok.1]
            exact hlen

theorem GetRoundData_of_loop {rng : Rng} {w : World} {serverID scn : String} {num seed L : Int}
    {selected : List String} {ms : List NeuralNetworkModel} {st : Store}
    (hscn : GetCNFromClientID serverID = .ok scn)
    (hL : getLatestRound w.state scn = .ok L)
    (hsel : SelectSubSet rng w.state num seed (wrap64 (L + 1)) = .ok selected)
    (hloop : creditLoop w.state (wrap64 (L + 1)) selected ([], w.state) = .ok (ms, st))
    (hlen : ms.length ≠ 0) :
    GetRoundData rng w serverID num seed = .ok (ms, { w with state := st }) := by
  simp only [GetRoundData, hscn, hL, hsel, hloop, orFail, bind, Except.bind, hlen, if_false]

/-- C29, counterexample. Alice holds 1 token and one record of round 1 with
privacy budget 10.  The first `GetRoundData` by the server with count 1 and
seed 42 lifts her balance to `1 + 15/20`; the second call with the same
arguments succeeds with the same model and lifts it to `1 + 15/20 + 15/20`,
so her credit for the one record exceeds `15/20`. -/
theorem GetRoundData_credits_again :
    readCurrent submittedWorld.state "alice"
      = .ok { latestRound := 1, tokens := 1, roundSeen := some [] } ∧
    GetRoundData zeroRng submittedWorld serverID 1 42 = .ok ([demoDecoded], creditedWorld) ∧
    readCurrent creditedWorld.state "alice"
      = .ok { latestRound := 1, tokens := 1 + (10 + 5) / 20, roundSeen := some [] } ∧
    (∃ w2, GetRoundData zeroRng creditedWorld serverID 1 42 = .ok ([demoDecoded], w2) ∧
      readCurrent w2.state "alice"
        = .ok { latestRound := 1, tokens := 1 + (10 + 5) / 20 + (10 + 5) / 20,
                roundSeen := some [] }) ∧
    ((10 + 5) / 20 : ℚ) < (1 + (10 + 5) / 20 + (10 + 5) / 20) - 1 := by
  refine ⟨by rfl, by with_unfolding_all rfl, by with_unfolding_all rfl, ⟨_, by with_unfolding_all rfl, by with_unfolding_all rfl⟩, by norm_num⟩

/-- C29, amended. For a fixed pool of round records a second `GetRoundData`
by the same caller with the same count and seed reads the same server round
and selects the same keys; when it succeeds it returns the same models and
credits again: a participant `cn` with a selected record of the round with
privacy budget `e` (any other selected record of the round that resolves to
`cn` carrying the same budget) holds the 64-bit float `t1` that
`old + (e + 5) / 20` evaluates to after the first call, and the float `t2`
that `t1 + (e + 5) / 20` evaluates to after the second. -/
theorem GetRoundData_repeat_credits (rng : Rng) (w w1 w2 : World) (serverID scn : String)
    (num seed L : Int) (models models2 : List NeuralNetworkModel) (selected : List String)
    (key : String) (cd : ClientData) (cn : String) (cur : CurrentData)
    (hscn : GetCNFromClientID serverID = .ok scn)
    (hL : getLatestRound w.state scn = .ok L)
    (hok : GetRoundData rng w serverID num seed = .ok (models, w1))
    (hok2 : GetRoundData rng w1 serverID num seed = .ok (models2, w2))
    (hsel : SelectSubSet rng w.state num seed (wrap64 (L + 1)) = .ok selected)
    (hkey : key ∈ selected)
    (hcd : unmarshal decodeClientData (w.state.get key) = .ok cd)
    (hround : cd.round = wrap64 (L + 1))
    (hname : GetCNFromClientID cd.clientID = .ok cn)
    (hcur : readCurrent w.state cn = .ok cur)
    (hsame : ∀ key' ∈ selected, ∀ cd', unmarshal decodeClientData (w.state.get key') = .ok cd' →
      cd'.round = wrap64 (L + 1) → GetCNFromClientID cd'.clientID = .ok cn →
      cd'.epsilon = cd.epsilon) :
    getLatestRound w1.state scn = .ok L ∧
    SelectSubSet rng w1.state num seed (wrap64 (L + 1)) = .ok selected ∧
    models2 = models ∧
    ∃ t1 t2, credit64 cur.tokens cd.epsilon = some t1 ∧ credit64 t1 cd.epsilon = some t2 ∧
      readCurrent w1.state cn =
        .ok { latestRound := cur.latestRound, tokens := t1, roundSeen := cur.roundSeen } ∧
      readCurrent w2.state cn =
        .ok { latestRound := cur.latestRound, tokens := t2, roundSeen := cur.roundSeen } := by
  obtain ⟨selected', acc', hsel', hloop, hstate, _, hmodels⟩ := GetRoundData_ok hscn hL hok
  have hs : selected' = selected := by
    rw [hsel'] at hsel
    injection hsel
  subst hs
  -- the server still reads the same round
  obtain ⟨scur, hscur, hsL⟩ := getLatestRound_ok hL
  have hL1 : getLatestRound w1.state scn = .ok L := by
    obtain ⟨scur', hscur', hsL', _⟩ := creditLoop_readable hloop hscur
    rw [hstate, getLatestRound_of_readCurrent hscur', hsL', hsL]
  -- the pool and the selection are the same
  have hkeys : Store.keys w1.state = Store.keys w.state := by
    rw [hstate]
    exact Store.keys_congr (creditLoop_isSome hloop)
  have hsel1 : SelectSubSet rng w1.state num seed (wrap64 (L + 1)) = .ok selected' := by
    rw [SelectSubSet_congr rng num seed _ hkeys]
    exact hsel'
  -- the selected records are the same
  have hrec : ∀ k ∈ selected', w1.state.get k = w.state.get k := by
    intro k hk
    rw [hstate]
    exact creditLoop_other k (SelectSubSet_not_current hsel' k hk) selected' _ acc' hloop
  -- the balance after the first call
  have hwf := readCurrent_wf hcur
  obtain ⟨t1, ht1, hget1⟩ :=
    creditLoop_credit hcur hcd hround hname selected' ([], w.state) acc' hkey hsame hloop
  have hcur1 : readCurrent w1.state cn =
      .ok { latestRound := cur.latestRound, tokens := t1, roundSeen := cur.roundSeen } := by
    rw [hstate]
    exact readCurrent_of_get_wf (readCurrent_ok hcur).1 hget1
      ⟨hwf.1, hwf.2.1, credit64_isF64 ht1⟩
  -- the second run of the loop
  obtain ⟨selected2, acc2, hsel2, hloop2, hstate2, _, hmodels2⟩ := GetRoundData_ok hscn hL1 hok2
  have hs2 : selected2 = selected' := by
    rw [hsel2] at hsel1
    injection hsel1
  subst hs2
  obtain ⟨ms, hms, hms2⟩ := creditLoop_models selected2 ([], w.state) acc' ([], w1.state) acc2
    hrec hloop hloop2
  simp only [List.nil_append] at hms hms2
  have hmm : models2 = models := by rw [hmodels, hmodels2, hms, hms2]
  have hcd1 : unmarshal decodeClientData (w1.state.get key) = .ok cd := by
    rw [hrec key hkey]; exact hcd
  have hsame1 : ∀ key' ∈ selected2, ∀ cd',
      unmarshal decodeClientData (w1.state.get key') = .ok cd' →
      cd'.round = wrap64 (L + 1) → GetCNFromClientID cd'.clientID = .ok cn →
      cd'.epsilon = cd.epsilon := by
    intro key' hk cd' hcd'
    rw [hrec key' hk] at hcd'
    exact hsame key' hk cd' hcd'
  obtain ⟨t2, ht2, hget2⟩ :=
    creditLoop_credit hcur1 hcd1 hround hname selected2 ([], w1.state) acc2 hkey hsame1 hloop2
  refine ⟨hL1, hsel1, hmm, t1, t2, ht1, ht2, hcur1, ?_⟩
  rw [hstate2]
  exact readCurrent_of_get_wf (readCurrent_ok hcur).1 hget2
    ⟨hwf.1, hwf.2.1, credit64_isF64 ht2⟩

theorem GetRoundData_repeat_credits_witness :
    getLatestRound creditedWorld.state "appserver" = .ok 0 ∧
    SelectSubSet zeroRng creditedWorld.state 1 42 (wrap64 (0 + 1))
      = .ok [compositeKey "Client" ["1", "alice"]] ∧
    [demoDecoded] = [demoDecoded] ∧
    ∃ t1 t2, credit64 1 aliceRound1.epsilon = some t1 ∧
      credit64 t1 aliceRound1.epsilon = some t2 ∧
      readCurrent creditedWorld.state "alice" =
        .ok { latestRound := 1, tokens := t1, roundSeen := some [] } ∧
      readCurrent creditedAgainWorld.state "alice" =
        .ok { latestRound := 1, tokens := t2, roundSeen := some [] } :=
  GetRoundData_repeat_credits zeroRng submittedWorld creditedWorld creditedAgainWorld serverID
    "appserver" 1 42 0 [demoDecoded] [demoDecoded] [compositeKey "Client" ["1", "alice"]]
    (compositeKey "Client" ["1", "alice"])
    aliceRound1 "alice" { latestRound := 1, tokens := 1, roundSeen := some [] }
    (by rfl) (by with_unfolding_all rfl) (by with_unfolding_all rfl)
    (by with_unfolding_all rfl) (by with_unfolding_all rfl) (by simp)
    (by with_unfolding_all rfl) (by rfl) (by rfl) (by with_unfolding_all rfl)
    (by
      intro key' hk cd' hcd' _ _
      rw [List.mem_singleton] at hk
      subst hk
      have hrec : unmarshal decodeClientData
          (submittedWorld.state.get (compositeKey "Client" ["1", "alice"])) = .ok aliceRound1 := by
        with_unfolding_all rfl
      rw [hrec] at hcd'
      injection hcd' with h
      rw [← h])

/-! ## The identity resolver against its description -/

theorem afterLastEquals_of_not_mem : ∀ l : List Char, '=' ∉ l → afterLastEquals l = l := by
  intro l
  induction l with
  | nil => intro _; rfl
  | cons c rest ih =>
    intro h
    have hrest : '=' ∉ rest := fun hm => h (List.mem_cons_of_mem _ hm)
    have hc : c ≠ '=' := fun hc => h (by rw [hc]; exact List.mem_cons_self _ _)
    simp only [afterLastEquals, hrest, hc, if_false]

theorem afterLastEquals_cons_eq (b : List Char) :
    afterLastEquals ('=' :: b) = afterLastEquals b := by
  by_cases h : '=' ∈ b
  · simp only [afterLastEquals, h, if_true]
  · simp only [afterLastEquals, h, if_false, if_true]
    exact (afterLastEquals_of_not_mem b h).symm

theorem afterLastEquals_append_eq : ∀ (acc b : List Char),
    afterLastEquals (acc ++ '=' :: b) = afterLastEquals b := by
  intro acc
  induction acc with
  | nil => intro b; exact afterLastEquals_cons_eq b
  | cons a acc ih =>
    intro b
    have hmem : '=' ∈ acc ++ '=' :: b :=
      List.mem_append_right _ (List.mem_cons_self _ _)
    have he : afterLastEquals (a :: (acc ++ '=' :: b)) = afterLastEquals (acc ++ '=' :: b) := by
      simp only [afterLastEquals, hmem, if_true]
    rw [List.cons_append, he]
    exact ih b

theorem scanCN_eq : ∀ (text acc : List Char), '=' ∉ acc →
    scanCN text acc = afterLastEquals (acc ++ beforeFirstComma text) := by
  intro text
  induction text with
  | nil =>
    intro acc hacc
    simp only [scanCN, beforeFirstComma, List.takeWhile_nil, List.append_nil]
    exact (afterLastEquals_of_not_mem acc hacc).symm
  | cons s rest ih =>
    intro acc hacc
    by_cases hs : s = '='
    · subst hs
      have hb : beforeFirstComma ('=' :: rest) = '=' :: beforeFirstComma rest := by
        simp [beforeFirstComma, List.takeWhile]
      rw [hb, afterLastEquals_append_eq]
      simp only [scanCN, if_true]
      have h := ih [] (List.not_mem_nil _)
      simp only [List.nil_append] at h
      exact h
    · by_cases hc : s = ','
      · subst hc
        have hb : beforeFirstComma (',' :: rest) = [] := by
          simp [beforeFirstComma, List.takeWhile]
        rw [hb, List.append_nil]
        simp only [scanCN, hs, if_false, if_true]
        exact (afterLastEquals_of_not_mem acc hacc).symm
      · have hb : beforeFirstComma (s :: rest) = s :: beforeFirstComma rest := by
          simp [beforeFirstComma, List.takeWhile, hc]
        rw [hb]
        simp only [scanCN, hs, hc, if_false]
        have hacc' : '=' ∉ acc ++ [s] := by
          intro hm
          rcases List.mem_append.mp hm with hm | hm
          · exact hacc hm
          · exact hs (List.mem_singleton.mp hm).symm
        have h := ih (acc ++ [s]) hacc'
        simp only [List.append_assoc, List.singleton_append] at h
        exact h

theorem afterLastEquals_spec : ∀ l : List Char,
    '=' ∉ afterLastEquals l ∧
    ((∃ pre, l = pre ++ '=' :: afterLastEquals l) ∨ ('=' ∉ l ∧ afterLastEquals l = l)) := by
  intro l
  induction l with
  | nil => exact ⟨List.not_mem_nil _, Or.inr ⟨List.not_mem_nil _, rfl⟩⟩
  | cons c rest ih =>
    by_cases h : '=' ∈ rest
    · have he : afterLastEquals (c :: rest) = afterLastEquals rest := by
        simp only [afterLastEquals, h, if_true]
      rw [he]
      refine ⟨ih.1, Or.inl ?_⟩
      rcases ih.2 with ⟨pre, hpre⟩ | ⟨hno, _⟩
      · exact ⟨c :: pre, by rw [List.cons_append, ← hpre]⟩
      · exact absurd h hno
    · by_cases hc : c = '='
      · have he : afterLastEquals (c :: rest) = rest := by
          simp only [afterLastEquals, h, hc, if_false, if_true]
        rw [he]
        exact ⟨h, Or.inl ⟨[], by rw [hc]; rfl⟩⟩
      · have hno : '=' ∉ c :: rest := by
          intro hm
          rcases List.mem_cons.mp hm with hm | hm
          · exact hc hm.symm
          · exact h hm
        rw [afterLastEquals_of_not_mem _ hno]
        exact ⟨hno, Or.inr ⟨hno, rfl⟩⟩

theorem beforeFirstComma_spec : ∀ text : List Char,
    ',' ∉ beforeFirstComma text ∧
    (text = beforeFirstComma text ∨ ∃ rest, text = beforeFirstComma text ++ ',' :: rest) := by
  intro text
  induction text with
  | nil => exact ⟨by simp [beforeFirstComma], Or.inl (by simp [beforeFirstComma])⟩
  | cons s rest ih =>
    by_cases hc : s = ','
    · subst hc
      have hb : beforeFirstComma (',' :: rest) = [] := by
        simp [beforeFirstComma, List.takeWhile]
      rw [hb]
      exact ⟨List.not_mem_nil _, Or.inr ⟨rest, rfl⟩⟩
    · have hb : beforeFirstComma (s :: rest) = s :: beforeFirstComma rest := by
        simp [beforeFirstComma, List.takeWhile, hc]
      rw [hb]
      refine ⟨?_, ?_⟩
      · intro hm
        rcases List.mem_cons.mp hm with hm | hm
        · exact hc hm.symm
        · exact ih.1 hm
      · rcases ih.2 with h | ⟨r, h⟩
        · exact Or.inl (by rw [← h])
        · exact Or.inr ⟨r, by rw [List.cons_append, ← h]⟩

/-- C30. Identity resolver parse.  When the decoder accepts the identity
string, `GetCNFromClientID` returns the name that the description reads off
the decoded text (the runes of the decoded bytes): with `p` the text before
the first `,` (the whole text if there is none, and `p` has no `,`), the name
is what follows the last `=` of `p`, or `p` itself when `p` has no `=`; the
name has neither `=` nor `,`.  When the decoder rejects the string, the
function returns an error. -/
theorem GetCNFromClientID_parse (clientID : String) :
    match base64Decode clientID with
    | .ok bytes =>
      GetCNFromClientID clientID = .ok (String.mk (cnOfText (decodeRunes bytes))) ∧
      ',' ∉ beforeFirstComma (decodeRunes bytes) ∧
      (decodeRunes bytes = beforeFirstComma (decodeRunes bytes) ∨
        ∃ rest, decodeRunes bytes = beforeFirstComma (decodeRunes bytes) ++ ',' :: rest) ∧
      ((∃ pre, beforeFirstComma (decodeRunes bytes)
            = pre ++ '=' :: cnOfText (decodeRunes bytes)) ∨
        ('=' ∉ beforeFirstComma (decodeRunes bytes) ∧
          cnOfText (decodeRunes bytes) = beforeFirstComma (decodeRunes bytes))) ∧
      '=' ∉ cnOfText (decodeRunes bytes) ∧ ',' ∉ cnOfText (decodeRunes bytes)
    | .error _ => ∃ e, GetCNFromClientID clientID = .error e := by
  cases hdec : base64Decode clientID with
  | error e =>
    exact ⟨"failed to decode client ID", by simp only [GetCNFromClientID, hdec]⟩
  | ok bytes =>
    have hscan := scanCN_eq (decodeRunes bytes) [] (List.not_mem_nil _)
    simp only [List.nil_append] at hscan
    have hb := beforeFirstComma_spec (decodeRunes bytes)
    have ha := afterLastEquals_spec (beforeFirstComma (decodeRunes bytes))
    refine ⟨?_, hb.1, hb.2, ha.2, ha.1, ?_⟩
    · simp only [GetCNFromClientID, hdec, hscan, cnOfText]
    · intro hm
      rcases ha.2 with ⟨pre, hpre⟩ | ⟨_, heq⟩
      · apply hb.1
        rw [hpre]
        exact List.mem_append_right _ (List.mem_cons_of_mem _ hm)
      · apply hb.1
        rw [← heq]
        exact hm

/-! ## ABstore: the payment -/

namespace ABstore

theorem GetState_filter (s : State) {key k : String} (hk : k ≠ key) :
    GetState (s.filter (fun p => decide (p.1 ≠ key))) k = GetState s k := by
  induction s with
  | nil => rfl
  | cons p rest ih =>
    obtain ⟨k', v'⟩ := p
    by_cases hp : k' = key
    · have hkk : k ≠ k' := by rw [hp]; exact hk
      have hf : ((k', v') :: rest).filter (fun p => decide (p.1 ≠ key))
          = rest.filter (fun p => decide (p.1 ≠ key)) := by
        apply List.filter_cons_of_neg
        simp [hp]
      rw [hf, ih]
      simp only [GetState, hkk, if_false]
    · have hf : ((k', v') :: rest).filter (fun p => decide (p.1 ≠ key))
          = (k', v') :: rest.filter (fun p => decide (p.1 ≠ key)) := by
        apply List.filter_cons_of_pos
        simp [hp]
      rw [hf]
      simp only [GetState, ih]

theorem GetState_PutState {s s' : State} {key value : String}
    (h : PutState s key value = .ok s') (k : String) :
    GetState s' k = if k = key then some value else GetState s k := by
  unfold PutState at h
  split at h
  · cases h
  · injection h with h
    subst h
    by_cases hk : k = key
    · simp only [GetState, hk, if_true]
    · simp only [GetState, hk, if_false]
      exact GetState_filter s hk

/-- Paying from an entity to a different one: the payer's holding goes down
by the amount and the payee's up by it, in 64-bit arithmetic, and no other
key changes. -/
theorem invoke_distinct (s : State) (A B amount va vb : String) (x : Int)
    (hA : GetState s A = some va) (hB : GetState s B = some vb)
    (hx : Atoi amount = (x, true)) (hAB : A ≠ B) (hneA : A ≠ "") (hneB : B ≠ "") :
    ∃ s', invoke s [A, B, amount] = .ok s' ∧
      GetState s' A = some (Itoa (wrap64 ((Atoi va).1 - x))) ∧
      GetState s' B = some (Itoa (wrap64 ((Atoi vb).1 + x))) ∧
      ∀ k, k ≠ A → k ≠ B → GetState s' k = GetState s k := by
  have h1 : PutState s A (Itoa (wrap64 ((Atoi va).1 - x)))
      = .ok ((A, Itoa (wrap64 ((Atoi va).1 - x))) :: s.filter (fun p => decide (p.1 ≠ A))) := by
    simp only [PutState, hneA, if_false]
  have h2 : PutState ((A, Itoa (wrap64 ((Atoi va).1 - x))) :: s.filter (fun p => decide (p.1 ≠ A)))
      B (Itoa (wrap64 ((Atoi vb).1 + x)))
      = .ok ((B, Itoa (wrap64 ((Atoi vb).1 + x))) ::
          ((A, Itoa (wrap64 ((Atoi va).1 - x))) :: s.filter (fun p => decide (p.1 ≠ A))).filter
            (fun p => decide (p.1 ≠ B))) := by
    simp only [PutState, hneB, if_false]
  refine ⟨(B, Itoa (wrap64 ((Atoi vb).1 + x))) ::
      ((A, Itoa (wrap64 ((Atoi va).1 - x))) :: s.filter (fun p => decide (p.1 ≠ A))).filter
        (fun p => decide (p.1 ≠ B)), ?_, ?_, ?_, ?_⟩
  · simp only [invoke, hA, hB, hx, h1]
    exact h2
  · rw [GetState_PutState h2 A, if_neg hAB, GetState_PutState h1 A, if_pos rfl]
  · rw [GetState_PutState h2 B, if_pos rfl]
  · intro k hkA hkB
    rw [GetState_PutState h2 k, if_neg hkB, GetState_PutState h1 k, if_neg hkA]

/-- Paying from an entity to itself: the holding written last is the payee's,
so the entity ends with its holding raised by the amount. -/
theorem invoke_same (s : State) (A amount v : String) (x : Int)
    (hA : GetState s A = some v) (hx : Atoi amount = (x, true)) (hne : A ≠ "") :
    ∃ s', invoke s [A, A, amount] = .ok s' ∧
      GetState s' A = some (Itoa (wrap64 ((Atoi v).1 + x))) ∧
      ∀ k, k ≠ A → GetState s' k = GetState s k := by
  have h1 : PutState s A (Itoa (wrap64 ((Atoi v).1 - x)))
      = .ok ((A, Itoa (wrap64 ((Atoi v).1 - x))) :: s.filter (fun p => decide (p.1 ≠ A))) := by
    simp only [PutState, hne, if_false]
  have h2 : PutState ((A, Itoa (wrap64 ((Atoi v).1 - x))) :: s.filter (fun p => decide (p.1 ≠ A)))
      A (Itoa (wrap64 ((Atoi v).1 + x)))
      = .ok ((A, Itoa (wrap64 ((Atoi v).1 + x))) ::
          ((A, Itoa (wrap64 ((Atoi v).1 - x))) :: s.filter (fun p => decide (p.1 ≠ A))).filter
            (fun p => decide (p.1 ≠ A))) := by
    simp only [PutState, hne, if_false]
  refine ⟨(A, Itoa (wrap64 ((Atoi v).1 + x))) ::
      ((A, Itoa (wrap64 ((Atoi v).1 - x))) :: s.filter (fun p => decide (p.1 ≠ A))).filter
        (fun p => decide (p.1 ≠ A)), ?_, ?_, ?_⟩
  · simp only [invoke, hA, hx, h1]
    exact h2
  · rw [GetState_PutState h2 A, if_pos rfl]
  · intro k hk
    rw [GetState_PutState h2 k, if_neg hk, GetState_PutState h1 k, if_neg hk]

/-- C27, payment to oneself. On the ledger where `a` holds 100 and `b` holds
200, `invoke(a, a, 5)` succeeds and leaves `a` with 105 instead of 95: the sum
of all holdings rises from 300 to 305. -/
theorem invoke_same_entity :
    holding demoState "a" = some 100 ∧ total demoState = 300 ∧
    invoke demoState ["a", "a", "5"] = .ok [("a", "105"), ("b", "200")] ∧
    holding [("a", "105"), ("b", "200")] "a" = some 105 ∧
    total [("a", "105"), ("b", "200")] = 305 := by
  refine ⟨by rfl, by rfl, by rfl, by rfl, by rfl⟩

end ABstore

/-! ## Asset ledger: the listing -/

namespace Assets

theorem decodeTransaction_encode (t : Transaction) :
    decodeTransaction (encodeTransaction t) = .ok t := by
  have h1 : Json.values [("ID", Json.str t.ID), ("Type", Json.str t.Type_), ("UPC", Json.str t.UPC),
      ("From", Json.str t.From), ("To", Json.str t.To)] "ID" = [Json.str t.ID] := rfl
  have h2 : Json.values [("ID", Json.str t.ID), ("Type", Json.str t.Type_), ("UPC", Json.str t.UPC),
      ("From", Json.str t.From), ("To", Json.str t.To)] "Type" = [Json.str t.Type_] := rfl
  have h3 : Json.values [("ID", Json.str t.ID), ("Type", Json.str t.Type_), ("UPC", Json.str t.UPC),
      ("From", Json.str t.From), ("To", Json.str t.To)] "UPC" = [Json.str t.UPC] := rfl
  have h4 : Json.values [("ID", Json.str t.ID), ("Type", Json.str t.Type_), ("UPC", Json.str t.UPC),
      ("From", Json.str t.From), ("To", Json.str t.To)] "From" = [Json.str t.From] := rfl
  have h5 : Json.values [("ID", Json.str t.ID), ("Type", Json.str t.Type_), ("UPC", Json.str t.UPC),
      ("From", Json.str t.From), ("To", Json.str t.To)] "To" = [Json.str t.To] := rfl
  simp only [encodeTransaction, decodeTransaction, h1, h2, h3, h4, h5, applyAll, intoString]

theorem collectAssets_mem : ∀ (l : List (String × Json)) (acc r : Slice Transaction),
    collectAssets l acc = .ok r →
    (∀ t ∈ Slice.toList acc, t ∈ Slice.toList r) ∧
    ∀ kv ∈ l, ∃ t, decodeTransaction kv.2 = .ok t ∧ t ∈ Slice.toList r := by
  intro l
  induction l with
  | nil =>
    intro acc r h
    simp only [collectAssets, Except.ok.injEq] at h
    subst h
    exact ⟨fun t ht => ht, fun kv hkv => absurd hkv (List.not_mem_nil _)⟩
  | cons p rest ih =>
    intro acc r h
    obtain ⟨k, value⟩ := p
    simp only [collectAssets] at h
    cases hdec : decodeTransaction value with
    | error e => rw [hdec] at h; cases h
    | ok asset =>
      rw [hdec] at h
      simp only at h
      obtain ⟨hacc, hrest⟩ := ih (Slice.append acc asset) r h
      have happ : Slice.toList (Slice.append acc asset) = Slice.toList acc ++ [asset] := rfl
      refine ⟨?_, ?_⟩
      · intro t ht
        apply hacc
        rw [happ]
        exact List.mem_append_left _ ht
      · intro kv hkv
        rcases List.mem_cons.mp hkv with hkv | hkv
        · subst hkv
          refine ⟨asset, hdec, ?_⟩
          apply hacc
          rw [happ]
          exact List.mem_append_right _ (List.mem_singleton_self _)
        · exact hrest kv hkv

/-- Inside the scanned range the listing is complete: an asset created under
an ID from `Tx0` on and before `Tx999` appears, with the fields it was created
with, in every successful listing of the ledger it was created on. -/
theorem GetAllAssets_complete_in_range (s s' : Store) (ID Type_ UPC From To : String)
    (assets : Slice Transaction)
    (hcreate : CreateAsset s ID Type_ UPC From To = .ok s')
    (hlo : keyLt ID "Tx0" = false) (hhi : keyLt ID "Tx999" = true)
    (hall : GetAllAssets s' = .ok assets) :
    ({ ID := ID, Type_ := Type_, UPC := UPC, From := From, To := To } : Transaction)
      ∈ Slice.toList assets := by
  have hput : s' = s.put ID (encodeTransaction
      { ID := ID, Type_ := Type_, UPC := UPC, From := From, To := To }) := by
    unfold CreateAsset at hcreate
    split at hcreate
    · cases hcreate
    · unfold PutState at hcreate
      split at hcreate
      · cases hcreate
      · injection hcreate with hcreate
        exact hcreate.symm
  have hget : s'.get ID = some (encodeTransaction
      { ID := ID, Type_ := Type_, UPC := UPC, From := From, To := To }) := by
    rw [hput]
    exact Store.get_put_self _ _ _
  have hkey : ID ∈ Store.keys s' := by
    rw [Store.mem_keys, hget]
    rfl
  have hmem : (ID, encodeTransaction
      { ID := ID, Type_ := Type_, UPC := UPC, From := From, To := To })
      ∈ GetStateByRange s' "Tx0" "Tx999" := by
    unfold GetStateByRange
    rw [List.mem_filterMap]
    refine ⟨ID, ?_, ?_⟩
    · rw [List.mem_filter]
      refine ⟨hkey, ?_⟩
      simp only [hlo, hhi, Bool.not_false, Bool.or_true, Bool.and_self]
    · rw [hget]
      rfl
  obtain ⟨_, hall'⟩ := collectAssets_mem _ _ _ hall
  obtain ⟨t, hdec, ht⟩ := hall' _ hmem
  rw [decodeTransaction_encode] at hdec
  injection hdec with hdec
  rw [hdec]
  exact ht

/-- C28, assets outside the scanned range. On the empty ledger
`CreateAsset("Tx999", ...)` succeeds and the asset exists and reads back with
its fields, yet `GetAllAssets` returns no asset; on the ledger that holds
`Tx5`, an asset created under the ID `Asset1` exists and `GetAllAssets`
returns `Tx5` alone. -/
theorem GetAllAssets_misses_asset :
    (∃ s, CreateAsset [] "Tx999" "Milk" "M1613" "Alice" "Bob" = .ok s ∧
      AssetExists s "Tx999" = true ∧
      ReadAsset s "Tx999"
        = .ok { ID := "Tx999", Type_ := "Milk", UPC := "M1613", From := "Alice", To := "Bob" } ∧
      GetAllAssets s = .ok none) ∧
    (∃ s, CreateAsset oneAsset "Asset1" "Cake" "C1611" "Alice" "Bob" = .ok s ∧
      AssetExists s "Asset1" = true ∧
      ReadAsset s "Asset1"
        = .ok { ID := "Asset1", Type_ := "Cake", UPC := "C1611", From := "Alice", To := "Bob" } ∧
      GetAllAssets s
        = .ok (some [{ ID := "Tx5", Type_ := "Milk", UPC := "M1612", From := "Alice",
                       To := "Bob" }])) :=
  ⟨⟨_, by rfl, by rfl, by rfl, by rfl⟩, ⟨_, by rfl, by rfl, by rfl, by rfl⟩⟩

end Assets

end FL
